import Mathlib

/-!
# A verification development for the Merkle-Patricia trie engine

This file embeds the trie engine of `packages/trie/src/trie/trie.ts` into
Lean, together with the helper modules it relies on (nibble utilities,
hex-prefix coding, RLP, the node codec and the in-memory key-value store,
which are described in the specification).  All definitions are executable;
theorems about the embedding follow at the end of the file.

Machine integers do not occur: a byte string is a `List Nat` whose entries
are below 256 in well-formed data, and all arithmetic is on `Nat`.
JavaScript `null`/`undefined` values are embedded as `Option`.
-/

namespace MPT

/-- A byte string (JS `Buffer`). -/
abbrev Bytes := List Nat

/-- A nibble sequence; each entry is in 0..15 in well-formed data. -/
abbrev Nibbles := List Nat

/-- Modelled from the spec: `bytes_to_nibbles` (`bufferToNibbles` in
`util/nibbles.ts`): each byte contributes its high nibble and then its low
nibble. -/
def bufferToNibbles (key : Bytes) : Nibbles :=
  (key.map fun b => [b / 16, b % 16]).flatten

/-- Modelled from the spec: pack two nibbles per byte, high first
(`nibblesToBuffer`); a trailing odd nibble is dropped. -/
def nibblesToBytes : Nibbles → Bytes
  | h :: l :: rest => (h * 16 + l) :: nibblesToBytes rest
  | _ => []

/-- Modelled from the spec: `common_prefix_len` (`matchingNibbleLength`):
length of the longest common prefix. -/
def matchingNibbleLength : Nibbles → Nibbles → Nat
  | a :: as, b :: bs => if a = b then matchingNibbleLength as bs + 1 else 0
  | _, _ => 0

/-- Modelled from the spec: `doKeysMatch`: the two nibble keys are equal. -/
def doKeysMatch (keyA keyB : Nibbles) : Bool :=
  (matchingNibbleLength keyA keyB == keyA.length) &&
    (matchingNibbleLength keyA keyB == keyB.length)

/-!
## Hex-prefix coding

The spec fixes the exact encoding: a flag nibble `(terminator?2:0) |
(odd?1:0)`; for an odd-length key the first nibble shares the flag byte,
for an even-length key a zero nibble follows the flag.  The source applies
it at the nibble level (`addHexPrefix` / `removeHexPrefix` /
`isTerminator` in the node module) and packs with `nibblesToBuffer`.
-/

/-- Modelled from the spec: hex-prefix a nibble key (source `addHexPrefix`). -/
def hpAdd (key : Nibbles) (terminator : Bool) : Nibbles :=
  let pre := if key.length % 2 = 1 then 1 :: key else 0 :: 0 :: key
  match pre with
  | f :: rest => (if terminator then f + 2 else f) :: rest
  | [] => []

/-- Modelled from the spec: strip a hex-prefix flag (source `removeHexPrefix`):
drop one nibble when the flag is odd, two when it is even. -/
def hpRemove (val : Nibbles) : Nibbles :=
  if val.headD 0 % 2 = 1 then val.drop 1 else val.drop 2

/-- Modelled from the spec: the hex-prefix terminator test (source
`isTerminator`): the flag nibble is 2 or 3. -/
def isTerminator (key : Nibbles) : Bool := 1 < key.headD 0

/-!
## RLP

The spec lists the RLP codec as an external collaborator with the standard
encoding of byte strings and (nested) lists of byte strings, so it is
modelled here by the standard algorithm.
-/

/-- An RLP item: a byte string or a list of items.  This type also serves
as the embedded-node type (`EmbeddedNode` in the source): a `.str` is a
hash reference to a stored node, a `.list` is an inline raw node. -/
inductive RLPItem where
  | str (bs : Bytes)
  | list (items : List RLPItem)

/-- Big-endian digits, fuel-bounded so that the definition reduces
definitionally (`n` itself always exceeds the number of base-256 digits). -/
def beBytesGo : Nat → Nat → Bytes
  | _, 0 => []
  | 0, _ + 1 => []
  | fuel + 1, n + 1 => beBytesGo fuel ((n + 1) / 256) ++ [(n + 1) % 256]

/-- Big-endian bytes of a natural number, no leading zero byte (`0 ↦ []`). -/
def beBytes (n : Nat) : Bytes := beBytesGo n n

/-- Value of big-endian bytes. -/
def beToNat (bs : Bytes) : Nat := bs.foldl (fun a b => a * 256 + b) 0

/-- The RLP length header for a payload of `len` bytes at base `offset`. -/
def encodeLength (len offset : Nat) : Bytes :=
  if len < 56 then [len + offset]
  else ((beBytes len).length + offset + 55) :: beBytes len

mutual
/-- Standard RLP encoding of an item. -/
def rlpEncode : RLPItem → Bytes
  | .str bs => if bs.length = 1 ∧ bs.headD 0 < 128 then bs
               else encodeLength bs.length 128 ++ bs
  | .list items => let payload := rlpEncodeList items
                   encodeLength payload.length 192 ++ payload

/-- RLP encoding of a sequence of items (a list payload). -/
def rlpEncodeList : List RLPItem → Bytes
  | [] => []
  | it :: rest => rlpEncode it ++ rlpEncodeList rest
end

/-- The `length` property of a JS embedded node: byte length of a hash
reference, item count of an inline raw node. -/
def rlpItemLength : RLPItem → Nat
  | .str bs => bs.length
  | .list items => items.length

mutual
/-- Fuel-bounded standard RLP decoder for one item; returns the item and
the unconsumed suffix. -/
def rlpDecodeItem : Nat → Bytes → Option (RLPItem × Bytes)
  | 0, _ => none
  | _ + 1, [] => none
  | fuel + 1, b :: rest =>
    if b < 128 then some (.str [b], rest)
    else if b < 184 then
      let len := b - 128
      if rest.length < len then none
      else some (.str (rest.take len), rest.drop len)
    else if b < 192 then
      let ll := b - 183
      if rest.length < ll then none
      else
        let len := beToNat (rest.take ll)
        let rest2 := rest.drop ll
        if rest2.length < len then none
        else some (.str (rest2.take len), rest2.drop len)
    else if b < 248 then
      let len := b - 192
      if rest.length < len then none
      else match rlpDecodeItems fuel (rest.take len) with
           | some its => some (.list its, rest.drop len)
           | none => none
    else
      let ll := b - 247
      if rest.length < ll then none
      else
        let len := beToNat (rest.take ll)
        let rest2 := rest.drop ll
        if rest2.length < len then none
        else match rlpDecodeItems fuel (rest2.take len) with
             | some its => some (.list its, rest2.drop len)
             | none => none

/-- Fuel-bounded decoder for a whole list payload. -/
def rlpDecodeItems : Nat → Bytes → Option (List RLPItem)
  | 0, _ => none
  | _ + 1, [] => some []
  | fuel + 1, bs =>
    match rlpDecodeItem fuel bs with
    | some (it, restBytes) =>
      match rlpDecodeItems fuel restBytes with
      | some its => some (it :: its)
      | none => none
    | none => none
end

/-- RLP decoding of a complete byte string (no unconsumed remainder). -/
def rlpDecode (bs : Bytes) : Option RLPItem :=
  match rlpDecodeItem (3 * bs.length + 1) bs with
  | some (it, []) => some it
  | _ => none


/-!
## Codec well-formedness

The following executable predicates and size measures support the
round-trip theorem for the RLP codec: bytes must be actual bytes and
every payload must be short enough for a valid length header (the JS
engine cannot exceed these bounds).
-/

mutual
/-- Structural size of an RLP item, used as decoder fuel. -/
def rsize : RLPItem → Nat
  | .str _ => 1
  | .list items => 1 + rsizeList items

/-- Structural size of an item sequence. -/
def rsizeList : List RLPItem → Nat
  | [] => 1
  | it :: rest => 1 + rsize it + rsizeList rest
end

mutual
/-- Well-formed RLP data: entries are bytes and payloads are small enough
for a single-byte length header. -/
def itemWF : RLPItem → Bool
  | .str bs => bs.all (fun b => decide (b < 256)) && decide (bs.length < 2 ^ 56)
  | .list items => itemsWF items && decide ((rlpEncodeList items).length < 2 ^ 56)

/-- Well-formedness of an item sequence. -/
def itemsWF : List RLPItem → Bool
  | [] => true
  | it :: rest => itemWF it && itemsWF rest
end

/-!
## Error model

The error kinds thrown by the engine; each constructor corresponds to one
thrown `Error` message of the source (noted in the comment).
-/

/-- Errors surfaced by the trie engine. -/
inductive TErr where
  /-- 'Missing node in DB' -/
  | missingNode
  /-- 'Attempted to set __root__ key but it is not allowed.' -/
  | reservedKey
  /-- 'Invalid batch db operation' -/
  | invalidBatchOp
  /-- 'Stack underflow' -/
  | stackUnderflow
  /-- 'Invalid root length. Roots are N bytes' -/
  | invalidRootLength
  /-- 'Invalid node' (also covers RLP decode failures) -/
  | invalidNode
  /-- 'Expected branch node' -/
  | expectedBranch
  /-- 'missing last node' -/
  | missingLastNode
  /-- 'Invalid proof nodes given' -/
  | invalidProofNodes
  /-- 'Invalid proof provided' -/
  | invalidProof
  /-- artifact of the fuel-bounded embedding of the trie walk; does not
  occur when the fuel exceeds the walk length -/
  | outOfFuel
  deriving DecidableEq

/-!
## Node model and codec

Modelled from the spec (§3, §4.2): Leaf / Extension / Branch variants,
canonical serialization, inline vs hashed child references.  A child
reference (`EmbeddedNode`) is an `RLPItem`: a byte string is a hash
reference, a list is an inline raw node (`isRawNode` tests
`Array.isArray`).  A branch stores 16 optional child references (JS
`null` ↦ `Option.none`) and an optional value.
-/

/-- Leaf / Extension / Branch node variants. -/
inductive TrieNode where
  | leaf (key : Nibbles) (value : Bytes)
  | ext (key : Nibbles) (child : RLPItem)
  | branch (children : List (Option RLPItem)) (value : Option Bytes)

/-- The canonical raw (RLP-structure) form of a node: `node.raw()`.
Absent branch children and an absent branch value serialize as empty byte
strings. -/
def nodeRaw : TrieNode → RLPItem
  | .leaf k v => .list [.str (nibblesToBytes (hpAdd k true)), .str v]
  | .ext k c => .list [.str (nibblesToBytes (hpAdd k false)), c]
  | .branch cs v => .list (cs.map (fun c => c.getD (.str [])) ++ [.str (v.getD [])])

/-- Canonical serialization: `node.serialize()` = RLP of `node.raw()`. -/
def nodeSerialize (n : TrieNode) : Bytes := rlpEncode (nodeRaw n)

/-- The JS `value` getter as read by `get`: a leaf returns its value, a
branch returns its value unless that is null or empty, and an extension
returns its child reference (only a hash reference is representable as
bytes; `findPath` never reports an extension as the found node, so this
case is not reached by `get`). -/
def nodeValue : TrieNode → Option Bytes
  | .leaf _ v => some v
  | .ext _ c => match c with | .str h => some h | .list _ => none
  | .branch _ v =>
    match v with
    | some x => if 0 < x.length then some x else none
    | none => none

/-- `BranchNode.getBranch(i)`: the child reference at index `i`, but `null`
when it is absent or has zero length. -/
def getBranch (children : List (Option RLPItem)) (i : Nat) : Option RLPItem :=
  match children.getD i none with
  | some b => if 0 < rlpItemLength b then some b else none
  | none => none

/-- `BranchNode.getChildren()`: the indexed list of meaningful (non-null,
nonzero-length) child references. -/
def getChildren (children : List (Option RLPItem)) : List (Nat × RLPItem) :=
  (List.range 16).filterMap fun i =>
    match children.getD i none with
    | some b => if 0 < rlpItemLength b then some (i, b) else none
    | none => none

/-- The branch-children array of a fresh `BranchNode`. -/
def emptyChildren : List (Option RLPItem) := List.replicate 16 none

/-- Reads the byte string of an RLP item; a malformed node may hold a list
where the source expects a `Buffer`, which is not representable here and
maps to the empty byte string (unreachable for well-formed nodes). -/
def strBytesOf : RLPItem → Bytes
  | .str bs => bs
  | .list _ => []

/-- `decodeRawNode`: build a node from a decoded RLP list. -/
def decodeRawNode (items : List RLPItem) : Except TErr TrieNode :=
  if items.length = 17 then
    .ok (.branch (items.take 16 |>.map some)
                 (some (strBytesOf (items.getD 16 (.str [])))))
  else if items.length = 2 then
    let nib := bufferToNibbles (strBytesOf (items.getD 0 (.str [])))
    if isTerminator nib then
      .ok (.leaf (hpRemove nib) (strBytesOf (items.getD 1 (.str []))))
    else .ok (.ext (hpRemove nib) (items.getD 1 (.str [])))
  else .error .invalidNode

/-- `decodeNode`: RLP-decode a stored node body; it must be a list. -/
def decodeNode (bs : Bytes) : Except TErr TrieNode :=
  match rlpDecode bs with
  | some (.list items) => decodeRawNode items
  | _ => .error .invalidNode

/-- The decoder-normal form of a node: `decodeRawNode` represents an absent
branch child as a present empty byte string and an absent branch value as a
present empty value.  Serialization does not distinguish the two
representations. -/
def normNode : TrieNode → TrieNode
  | .branch cs v => .branch (cs.map (fun c => some (c.getD (.str [])))) (some (v.getD []))
  | n => n

/-- Well-formedness of a node as built by the engine: key nibbles are
nibbles, a branch has its 16 child slots, and the raw RLP structure is
codec-well-formed (actual bytes, payloads below the length-header bound). -/
def nodeWF : TrieNode → Bool
  | .leaf k v => k.all (fun n => decide (n < 16)) && itemWF (nodeRaw (.leaf k v))
  | .ext k c => k.all (fun n => decide (n < 16)) && itemWF (nodeRaw (.ext k c))
  | .branch cs v => (cs.length == 16) && itemWF (nodeRaw (.branch cs v))

/-!
## The key-value store and the trie state

Modelled from the spec (§4.3): a byte-addressable KV store with `get`,
`put`, `del`, `batch`; the in-memory `MapDB` keys entries by byte value.
The store is an association list kept canonical (at most one entry per
key; the most recent write wins).
-/

/-- A database operation (`BatchDBOp`).  The value of a put is an `Option`
so that a plain-JavaScript caller omitting it (`null`/`undefined`, which
is JS-falsy) is distinguished from an empty byte string (which is not). -/
inductive BatchOp where
  | put (key : Bytes) (value : Option Bytes)
  | del (key : Bytes)

/-- The in-memory store contents. -/
abbrev DB := List (Bytes × Bytes)

/-- `MapDB.get`. -/
def dbGet (db : DB) (k : Bytes) : Option Bytes :=
  (db.find? (fun p => p.1 == k)).map Prod.snd

/-- `MapDB.put` (keeps the association list canonical). -/
def dbPut (db : DB) (k v : Bytes) : DB :=
  (k, v) :: db.filter (fun p => p.1 ≠ k)

/-- `MapDB.del`. -/
def dbDel (db : DB) (k : Bytes) : DB :=
  db.filter (fun p => p.1 ≠ k)

/-- `MapDB.batch`: apply the operations in order.  A db-level put carries
a present value everywhere in the engine; the unreachable absent case
stores an empty byte string. -/
def dbBatch (db : DB) : List BatchOp → DB
  | [] => db
  | .put k v :: rest => dbBatch (dbPut db k (v.getD [])) rest
  | .del k :: rest => dbBatch (dbDel db k) rest

/-- Modelled from the spec: the reserved store key `ROOT_DB_KEY`, the
bytes of the string `__root__` (`types.ts`). -/
def rootDbKey : Bytes := [95, 95, 114, 111, 111, 116, 95, 95]

/-- The trie state: the root hash, the backing store, and the
configuration flags.  The hash function is a parameter `H` of every
operation. -/
structure Trie where
  root : Bytes
  db : DB
  deleteFromDB : Bool
  useHashedKeys : Bool
  persistRoot : Bool
  deriving DecidableEq

section Engine

variable (H : Bytes → Bytes)

/-- `EMPTY_TRIE_ROOT = hash(RLP(""))`. -/
def emptyTrieRoot : Bytes := H (rlpEncode (.str []))

/-- `_hashLen`: the length of the empty-trie root. -/
def hashLenOf : Nat := (emptyTrieRoot H).length

/-- A fresh trie over an empty store. -/
def emptyTrie (deleteFromDB useHashedKeys persistRoot : Bool) : Trie :=
  { root := emptyTrieRoot H, db := [], deleteFromDB := deleteFromDB,
    useHashedKeys := useHashedKeys, persistRoot := persistRoot }

/-- `appliedKey`: hash the public key first in hashed-keys (secure) mode. -/
def appliedKey (s : Trie) (key : Bytes) : Bytes :=
  if s.useHashedKeys then H key else key

/-- The `root` setter: a JS-falsy argument (`null`/`undefined`) is
replaced by the empty-trie root — a `Buffer`, even an empty one, is an
object and never JS-falsy — and then the length must equal the configured
hash length. -/
def rootSet (s : Trie) (value : Option Bytes) : Except TErr Trie :=
  let v := match value with
    | none => emptyTrieRoot H
    | some b => b
  if v.length ≠ hashLenOf H then .error .invalidRootLength
  else .ok { s with root := v }

/-- `persistRoot()`: store the current root under the applied reserved key
when the feature is enabled. -/
def persistRootOp (s : Trie) : Trie :=
  if s.persistRoot then { s with db := dbPut s.db (appliedKey H s rootDbKey) s.root }
  else s

/-- `lookupNode`: decode an inline reference directly, otherwise fetch the
body from the store by hash ('Missing node in DB' when absent). -/
def lookupNode (s : Trie) (ref : RLPItem) : Except TErr TrieNode :=
  match ref with
  | .list items => decodeRawNode items
  | .str h =>
    match dbGet s.db h with
    | some v => decodeNode v
    | none => .error .missingNode

/-- The result of `findPath`. -/
structure PathResult where
  node : Option TrieNode
  remaining : Nibbles
  stack : List TrieNode

/-- The walk of `findPath` (the trie walk specialised to the single-child
schedule that `findPath`'s callback requests).  Returns either a resolved
path result or, when a node on the path is missing from the store, the
stack built so far (`.ok (none, stack)`). -/
def findPathGo (s : Trie) (targetKey : Nibbles) :
    Nat → RLPItem → Nibbles → List TrieNode →
    Except TErr (Option PathResult × List TrieNode)
  | 0, _, _, _ => .error .outOfFuel
  | fuel + 1, nodeRef, keyProgress, stack =>
    match lookupNode s nodeRef with
    | .error .missingNode => .ok (none, stack)
    | .error e => .error e
    | .ok node =>
      let keyRemainder := targetKey.drop (matchingNibbleLength keyProgress targetKey)
      let stack := stack ++ [node]
      match node with
      | .branch children _ =>
        if keyRemainder.length = 0 then .ok (some ⟨some node, [], stack⟩, stack)
        else
          let branchIndex := keyRemainder.headD 0
          match getBranch children branchIndex with
          | none => .ok (some ⟨none, keyRemainder, stack⟩, stack)
          | some branchNode =>
            findPathGo s targetKey fuel branchNode (keyProgress ++ [branchIndex]) stack
      | .leaf k _ =>
        if doKeysMatch keyRemainder k then .ok (some ⟨some node, [], stack⟩, stack)
        else .ok (some ⟨none, keyRemainder, stack⟩, stack)
      | .ext k child =>
        if matchingNibbleLength keyRemainder k ≠ k.length then
          .ok (some ⟨none, keyRemainder, stack⟩, stack)
        else findPathGo s targetKey fuel child (keyProgress ++ k) stack

/-- `findPath(key, throwIfMissing)`: walk from the root.  A swallowed
missing node resolves to no node, an empty remainder and the stack built
so far. -/
def findPathAux (s : Trie) (key : Bytes) (throwIfMissing : Bool) (fuel : Nat) :
    Except TErr PathResult :=
  match findPathGo s (bufferToNibbles key) fuel (.str s.root) [] [] with
  | .ok (some r, _) => .ok r
  | .ok (none, stack) =>
    if throwIfMissing then .error .missingNode
    else .ok ⟨none, [], stack⟩
  | .error e => .error e

/-- Public `findPath`; pairs the result with the (unchanged) trie state. -/
def findPath (s : Trie) (key : Bytes) (throwIfMissing : Bool) (fuel : Nat) :
    Except TErr (PathResult × Trie) :=
  (findPathAux s key throwIfMissing fuel).map fun p => (p, s)

/-- `get(key, throwIfMissing)`: the value at the found node when the
remainder is empty, else `null`. -/
def get (s : Trie) (key : Bytes) (throwIfMissing : Bool) (fuel : Nat) :
    Except TErr (Option Bytes × Trie) := do
  let p ← findPathAux s (appliedKey H s key) throwIfMissing fuel
  let value := match p.node with
    | some n => if p.remaining.length = 0 then nodeValue n else none
    | none => none
  pure (value, s)

/-- `checkRoot`: does a node body exist for this root?  A missing node
reports `false`; other errors surface. -/
def checkRoot (s : Trie) (root' : Bytes) : Except TErr (Bool × Trie) :=
  match lookupNode s (.str root') with
  | .ok _ => .ok (true, s)
  | .error .missingNode => .ok (false, s)
  | .error e => .error e

/-- `_formatNode(node, topLevel, opStack, remove)`: serialize; when the
serialization has at least 32 bytes (the literal constant in the source)
or the node is top-level, record a store op and return the hash reference,
otherwise return the raw node for inlining. -/
def formatNode (s : Trie) (node : TrieNode) (topLevel : Bool)
    (opStack : List BatchOp) (remove : Bool) : RLPItem × List BatchOp :=
  let encoded := nodeSerialize node
  if 32 ≤ encoded.length ∨ topLevel then
    let hashRoot := H encoded
    if remove then
      (.str hashRoot, if s.deleteFromDB then opStack ++ [.del hashRoot] else opStack)
    else
      (.str hashRoot, opStack ++ [.put hashRoot (some encoded)])
  else (nodeRaw node, opStack)

/-- One iteration of the `_saveStack` loop: trim the key by the node's own
key and patch the node's child slot with the reference produced for the
previously processed (deeper) node. -/
def saveStackStep (node : TrieNode) (key : Nibbles) (lastRoot : Option RLPItem) :
    Nibbles × TrieNode :=
  match node, lastRoot with
  | .leaf k v, _ => (key.take (key.length - k.length), .leaf k v)
  | .ext k c, none => (key.take (key.length - k.length), .ext k c)
  | .ext k _, some lr => (key.take (key.length - k.length), .ext k lr)
  | .branch children v, none => (key, .branch children v)
  | .branch children v, some lr =>
    -- `key.pop()` on an empty key yields the JS index `undefined`,
    -- which leaves the children array unchanged
    (key.dropLast,
     .branch (match key.getLast? with
              | some bk => children.set bk (some lr)
              | none => children) v)

/-- The loop of `_saveStack`, processing the reversed stack (deepest node
first); the final node (empty remainder) is formatted as top-level. -/
def saveStackGo (s : Trie) :
    List TrieNode → Nibbles → Option RLPItem → List BatchOp →
    Option RLPItem × List BatchOp
  | [], _, lastRoot, ops => (lastRoot, ops)
  | node :: rest, key, lastRoot, ops =>
    let step := saveStackStep node key lastRoot
    let (r, ops') := formatNode H s step.2 rest.isEmpty ops false
    saveStackGo s rest step.1 (some r) ops'

/-- The same fold restricted to non-top-level prefixes of the stack,
returning the full intermediate state; used to split the evaluation of
long stacks in proofs. -/
def saveStackPart (s : Trie) :
    List TrieNode → Nibbles → Option RLPItem → List BatchOp →
    Nibbles × Option RLPItem × List BatchOp
  | [], key, lastRoot, ops => (key, lastRoot, ops)
  | node :: rest, key, lastRoot, ops =>
    let step := saveStackStep node key lastRoot
    let (r, ops') := formatNode H s step.2 false ops false
    saveStackPart s rest step.1 (some r) ops'

/-- `_saveStack`: format the stack bottom-up, install the last hash as the
new root (through the setter), flush the batch and persist the root. -/
def saveStack (s : Trie) (key : Nibbles) (stack : List TrieNode)
    (opStack : List BatchOp) : Except TErr Trie := do
  let (lastRoot, ops) := saveStackGo H s stack.reverse key none opStack
  let s ← match lastRoot with
    | some (.str h) => rootSet H s (some h)
    | some (.list _) => pure s
      -- unreachable: the final, top-level format call returns a hash
    | none => pure s
  let s := { s with db := dbBatch s.db ops }
  pure (persistRootOp H s)

/-- `_createInitialNode`: a single leaf holding the key and value. -/
def createInitialNode (s : Trie) (key value : Bytes) : Except TErr Trie := do
  let newNode := TrieNode.leaf (bufferToNibbles key) value
  let encoded := nodeSerialize newNode
  let s ← rootSet H s (some (H encoded))
  let s := { s with db := dbPut s.db (H encoded) encoded }
  pure (persistRootOp H s)

/-- The tail of `_updateNodeSplitParts` after the common-path decision,
split out (like `saveStackPart`) so the proofs can treat the two map
branches separately; definitionally the same computation. -/
def updateNodeSplitTail (s : Trie) (value : Bytes)
    (lastKey keyRemainder : Nibbles) (lastNode : TrieNode)
    (extStack : List TrieNode) : List TrieNode × List BatchOp :=
  let (children, bvalue, toSave) :=
    match lastKey with
    | branchKey :: lastKeyTail =>
      if (!lastKeyTail.isEmpty) || (match lastNode with | .leaf _ _ => true | _ => false) then
        let node' := match lastNode with
          | .leaf _ lv => TrieNode.leaf lastKeyTail lv
          | .ext _ ec => TrieNode.ext lastKeyTail ec
          | .branch cs v => TrieNode.branch cs v
        let (formatted, toSave) := formatNode H s node' false [] false
        (emptyChildren.set branchKey (some formatted), (none : Option Bytes), toSave)
      else
        let (_, toSave) := formatNode H s lastNode false [] true
        match lastNode with
        | .ext _ ec => (emptyChildren.set branchKey (some ec), none, toSave)
        | .leaf _ lv => (emptyChildren.set branchKey (some (.str lv)), none, toSave)
        | .branch _ _ => (emptyChildren, none, toSave)
    | [] => (emptyChildren, nodeValue lastNode, [])
  let (children2, bvalue2, leafStack) :=
    if keyRemainder.length ≠ 0 then
      (children, bvalue, [TrieNode.leaf (keyRemainder.drop 1) value])
    else (children, some value, ([] : List TrieNode))
  (extStack ++ [TrieNode.branch children2 bvalue2] ++ leafStack, toSave)

/-- The node construction of `_updateNode`'s split case: the terminal leaf
or extension diverges from the inserted key; build (extension +) branch
(+ leaf), returning the nodes to push and the recorded store ops.
`lastKey0` is the terminal node's key (the JS `key` getter returns a
copy, so list updates below do not alias the node). -/
def updateNodeSplitParts (s : Trie) (value : Bytes)
    (keyRemainder0 : Nibbles) (lastNode : TrieNode)
    (lastKey0 : Nibbles) : List TrieNode × List BatchOp :=
  let matchingLength := matchingNibbleLength lastKey0 keyRemainder0
  if matchingLength ≠ 0 then
    -- the new extension's child (the put value here) is a placeholder;
    -- `_saveStack` overwrites it with the branch reference
    updateNodeSplitTail H s value (lastKey0.drop matchingLength)
      (keyRemainder0.drop matchingLength) lastNode
      [TrieNode.ext (lastKey0.take matchingLength) (.str value)]
  else updateNodeSplitTail H s value lastKey0 keyRemainder0 lastNode []

/-- The split case of `_updateNode`: push the constructed nodes onto the
stack and save it. -/
def updateNodeSplit (s : Trie) (key : Nibbles) (value : Bytes)
    (keyRemainder0 : Nibbles) (stack : List TrieNode) (lastNode : TrieNode)
    (lastKey0 : Nibbles) : Except TErr Trie :=
  let parts := updateNodeSplitParts H s value keyRemainder0 lastNode lastKey0
  saveStack H s key (stack ++ parts.1) parts.2

/-- The nibbles one stack node consumes on the path: one for a branch,
the key length for a leaf or extension (the loop body of `_updateNode`'s
`l` computation, split out). -/
def nodeKeyLen : TrieNode → Nat
  | .branch _ _ => 1
  | .leaf nk _ => nk.length
  | .ext nk _ => nk.length

/-- The `l` accumulation of `_updateNode`: nibbles consumed by the
partial stack. -/
def consumedLen (stack : List TrieNode) : Nat :=
  stack.foldl (fun acc n => acc + nodeKeyLen n) 0

/-- `_updateNode`: rewrite the stack returned by `findPath` for an insert
and save it. -/
def updateNode (s : Trie) (k : Bytes) (value : Bytes)
    (keyRemainder : Nibbles) (stack0 : List TrieNode) : Except TErr Trie :=
  match stack0.getLast? with
  | none => .error .stackUnderflow
  | some lastNode =>
    let stack := stack0.dropLast
    let key := bufferToNibbles k
    match lastNode with
    | .leaf lk lv =>
      -- does the leaf hold exactly the inserted key?
      let l := consumedLen stack
      if (matchingNibbleLength lk (key.drop l) == lk.length)
          && (keyRemainder.length == 0) then
        -- just update the found value
        saveStack H s key (stack ++ [.leaf lk value]) []
      else
        updateNodeSplit H s key value keyRemainder stack (.leaf lk lv) lk
    | .branch children bv =>
      if keyRemainder.length ≠ 0 then
        -- attach a new leaf under the branch
        saveStack H s key
          (stack ++ [.branch children bv, .leaf (keyRemainder.drop 1) value]) []
      else
        saveStack H s key (stack ++ [.branch children (some value)]) []
    | .ext ek ec =>
      updateNodeSplit H s key value keyRemainder stack (.ext ek ec) ek

/-- The `processBranchNode` helper of `_deleteNode`: absorb the single
remaining child of a collapsing branch into the node above it, returning
the updated key and the nodes to push onto the stack. -/
def processBranchNode (key : Nibbles) (branchKey : Nat) (branchNode : TrieNode)
    (parentNode : Option TrieNode) : Nibbles × List TrieNode :=
  let isBranchParent := match parentNode with
    | none => true
    | some (.branch _ _) => true
    | some _ => false
  if isBranchParent then
    let pushedParent := match parentNode with | some p => [p] | none => []
    match branchNode with
    | .branch bc bv =>
      -- branch → extension → branch; the extension child is a JS null
      -- placeholder that `_saveStack` overwrites with the child hash
      (key ++ [branchKey],
       pushedParent ++ [TrieNode.ext [branchKey] (.str []), TrieNode.branch bc bv])
    | .leaf bk bv =>
      (key ++ branchKey :: bk, pushedParent ++ [TrieNode.leaf (branchKey :: bk) bv])
    | .ext bk bc =>
      (key ++ branchKey :: bk, pushedParent ++ [TrieNode.ext (branchKey :: bk) bc])
  else
    match parentNode, branchNode with
    | some (.ext pk pc), .branch bc bv =>
      -- extension → branch: the parent extension absorbs the nibble
      (key ++ [branchKey],
       [TrieNode.ext (pk ++ [branchKey]) pc, TrieNode.branch bc bv])
    | some (.ext pk _), .leaf bk bv =>
      -- the parent extension and the child merge into one node
      (key ++ branchKey :: bk, [TrieNode.leaf (pk ++ branchKey :: bk) bv])
    | some (.ext pk _), .ext bk bc =>
      (key ++ branchKey :: bk, [TrieNode.ext (pk ++ branchKey :: bk) bc])
    | _, _ => (key, [branchNode])
      -- not reached: the parent here is an extension

/-- `_deleteNode`: remove the found terminal node and repair the branch
above it (clearing a branch value, unlinking a leaf, collapsing a branch
left with a single entry). -/
def deleteNode (s : Trie) (k : Bytes) (stack0 : List TrieNode) :
    Except TErr Trie := do
  match stack0.getLast? with
  | none => .error .missingLastNode
  | some lastNode0 =>
    let stack1 := stack0.dropLast
    let parentNode0 := stack1.getLast?
    let stack2 := stack1.dropLast
    let key0 := bufferToNibbles k
    match parentNode0 with
    | none =>
      -- source comment: "the root here has to be a leaf." — the root is
      -- reset to the empty root even when the terminal node is a branch
      -- that still has children
      pure { s with root := emptyTrieRoot H }
    | some parent0 =>
      -- clear the branch value, or unlink the leaf from its parent branch
      let step ← (match lastNode0 with
        | .branch ch _ =>
          pure (ch, (none : Option Bytes), some parent0, stack2, key0,
                ([] : List BatchOp))
        | _ =>
          match parent0 with
          | .branch pch pv =>
            let lastNodeKey := match lastNode0 with
              | .leaf lk _ => lk
              | .ext lk _ => lk
              | .branch _ _ => []
            let key1 := key0.take (key0.length - lastNodeKey.length)
            let (_, opStack1) := formatNode H s lastNode0 false [] true
            let pch' := match key1.getLast? with
              | some i => pch.set i none
              | none => pch  -- JS `undefined` index: the array is unchanged
            pure (pch', pv, stack2.getLast?, stack2.dropLast, key1.dropLast,
                  opStack1)
          | _ => .error .expectedBranch)
      let (branchCh, branchVal, parentNode1, stackRem, key1, opStack) := step
      let branchNodes := getChildren branchCh
      if branchNodes.length = 1 then
        -- only one entry left on the branch: collapse it
        let (branchIdx, branchRef) := branchNodes.headD (0, .str [])
        let foundNode ← lookupNode s branchRef
        let (key2, adds) := processBranchNode key1 branchIdx foundNode parentNode1
        saveStack H s key2 (stackRem ++ adds) opStack
      else
        -- simply remove the entry and recompute the stack
        let parentPush := match parentNode1 with | some p => [p] | none => []
        saveStack H s key1 (stackRem ++ parentPush ++ [.branch branchCh branchVal])
          opStack

/-- `del(key)`: find the key; delete it when present; persist the root. -/
def del (s : Trie) (key : Bytes) (fuel : Nat) : Except TErr Trie := do
  let ak := appliedKey H s key
  let p ← findPathAux s ak false fuel
  let s' ← match p.node with
    | some _ => deleteNode H s ak p.stack
    | none => pure s
  pure (persistRootOp H s')

/-- `put(key, value)`: guard the reserved key when root persistence is
on; delegate an absent (JS-falsy) or empty value to `del`; create the
initial leaf on an empty trie; otherwise find the path and update. -/
def put (s : Trie) (key : Bytes) (value : Option Bytes) (fuel : Nat) :
    Except TErr Trie :=
  if s.persistRoot ∧ key = rootDbKey then .error .reservedKey
  else if (value.getD []).isEmpty then del H s key fuel
  else do
    let v := value.getD []
    let ak := appliedKey H s key
    let s' ←
      if s.root = emptyTrieRoot H then createInitialNode H s ak v
      else do
        let p ← findPathAux s ak false fuel
        updateNode H s ak v p.remaining p.stack
    pure (persistRootOp H s')

/-- The loop of `batch`: a put op with a JS-falsy (absent) value throws
'Invalid batch db operation'; otherwise each op is applied in order via
`put` / `del`. -/
def batchGo : Trie → List BatchOp → Nat → Except TErr Trie
  | s, [], _ => .ok s
  | s, .put k v :: rest, fuel =>
    match v with
    | none => .error .invalidBatchOp
    | some vb => do
      let s ← put H s k (some vb) fuel
      batchGo s rest fuel
  | s, .del k :: rest, fuel => do
    let s ← del H s k fuel
    batchGo s rest fuel

/-- `batch(ops)`: apply the operations in order, then persist the root. -/
def batch (s : Trie) (ops : List BatchOp) (fuel : Nat) : Except TErr Trie := do
  let s ← batchGo H s ops fuel
  pure (persistRootOp H s)

/-- `createProof(key)`: the serialized nodes of the path stack, root
first. -/
def createProof (s : Trie) (key : Bytes) (fuel : Nat) :
    Except TErr (List Bytes × Trie) := do
  let p ← findPathAux s (appliedKey H s key) false fuel
  pure (p.stack.map nodeSerialize, s)

/-- Insert a list of (key, value) pairs in order with `put`. -/
def putSeq (s : Trie) : List (Bytes × Bytes) → Nat → Except TErr Trie
  | [], _ => .ok s
  | (k, v) :: rest, fuel => (put H s k (some v) fuel).bind fun s' => putSeq s' rest fuel

end Engine

/-- The serialized lengths of the child references a node embeds inline
(`.list` children), as used to examine the node-size boundary. -/
def inlineChildLengths : TrieNode → List Nat
  | .leaf _ _ => []
  | .ext _ c =>
    match c with
    | .list l => [(rlpEncode (.list l)).length]
    | .str _ => []
  | .branch cs _ => cs.filterMap fun c =>
      match c with
      | some (.list l) => some (rlpEncode (.list l)).length
      | _ => none

/-!
## Concrete instances

A concrete, executable hash function stands in for the configurable hash
(the spec lists the hash as a swappable external collaborator): an
injective-by-construction polynomial accumulator rendered to a fixed
number of big-endian bytes; `testHash` has 32-byte output like Keccak-256
and `testHash4` has 4-byte output.  The literal `Trie` states below are
the step-by-step results of the scenario insertions; each is certified
against the engine by a `rfl` lemma further down.
-/

/-- `w` big-endian bytes of `n`. -/
def natToBE (w n : Nat) : Bytes := (List.range w).reverse.map fun i => n / 256 ^ i % 256

/-- A concrete 32-byte test hash. -/
def testHash (b : Bytes) : Bytes :=
  natToBE 32 ((b.foldl (fun a x => a * 257 + (x + 1)) 1) % 2 ^ 256)

/-- A concrete 4-byte test hash (exhibits `hashLen ≠ 32`). -/
def testHash4 (b : Bytes) : Bytes :=
  natToBE 4 ((b.foldl (fun a x => a * 257 + (x + 1)) 1) % 2 ^ 32)

/-- The bytes of "do". -/
def kdo : Bytes := [100, 111]
/-- The bytes of "verb". -/
def vverb : Bytes := [118, 101, 114, 98]
/-- The bytes of "puppy". -/
def vpuppy : Bytes := [112, 117, 112, 112, 121]
/-- The bytes of "coin". -/
def vcoin : Bytes := [99, 111, 105, 110]
/-- An empty trie over the 32-byte test hash, no options. -/
def t0 : Trie := emptyTrie testHash false false false

/-- An empty trie over the 4-byte test hash. -/
def t4 : Trie := emptyTrie testHash4 false false false

/-- An empty trie with root persistence enabled. -/
def tpersist : Trie := emptyTrie testHash false false true

/-- A scenario state (certified by a step lemma below). -/
def stD1 : Trie := ⟨[0, 0, 0, 0, 0, 0, 0, 0, 0, 0, 0, 0, 0, 0, 0, 0, 0, 0, 0, 0, 0, 1, 219, 236, 116, 93, 96, 236, 47, 3, 117, 125], [([0, 0, 0, 0, 0, 0, 0, 0, 0, 0, 0, 0, 0, 0, 0, 0, 0, 0, 0, 0, 0, 1, 219, 236, 116, 93, 96, 236, 47, 3, 117, 125], [201, 131, 32, 100, 111, 132, 118, 101, 114, 98])], false, false, false⟩
/-- A scenario state (certified by a step lemma below). -/
def c3a1 : Trie := ⟨[0, 0, 0, 0, 0, 0, 0, 0, 0, 0, 0, 0, 0, 0, 0, 0, 0, 0, 0, 0, 0, 0, 1, 217, 9, 62, 77, 50, 184, 2, 133, 172], [([0, 0, 0, 0, 0, 0, 0, 0, 0, 0, 0, 0, 0, 0, 0, 0, 0, 0, 0, 0, 0, 0, 1, 217, 9, 62, 77, 50, 184, 2, 133, 172], [200, 130, 32, 5, 132, 118, 101, 114, 98])], false, false, false⟩
/-- A scenario state (certified by a step lemma below). -/
def c3a2 : Trie := ⟨[2, 28, 109, 56, 40, 21, 98, 74, 161, 124, 52, 48, 95, 159, 158, 38, 41, 255, 56, 47, 128, 202, 109, 83, 203, 66, 112, 234, 20, 127, 151, 102], [([2, 28, 109, 56, 40, 21, 98, 74, 161, 124, 52, 48, 95, 159, 158, 38, 41, 255, 56, 47, 128, 202, 109, 83, 203, 66, 112, 234, 20, 127, 151, 102], [222, 198, 53, 132, 118, 101, 114, 98, 128, 128, 128, 128, 199, 48, 133, 112, 117, 112, 112, 121, 128, 128, 128, 128, 128, 128, 128, 128, 128, 128, 128]), ([0, 0, 0, 0, 0, 0, 0, 0, 0, 0, 0, 0, 0, 0, 0, 0, 0, 0, 0, 0, 0, 0, 1, 217, 9, 62, 77, 50, 184, 2, 133, 172], [200, 130, 32, 5, 132, 118, 101, 114, 98])], false, false, false⟩
/-- A scenario state (certified by a step lemma below). -/
def c3a3 : Trie := ⟨[113, 199, 25, 5, 226, 247, 129, 139, 217, 171, 146, 85, 102, 52, 133, 51, 108, 206, 7, 47, 199, 202, 78, 23, 222, 114, 190, 255, 53, 188, 63, 27], [([113, 199, 25, 5, 226, 247, 129, 139, 217, 171, 146, 85, 102, 52, 133, 51, 108, 206, 7, 47, 199, 202, 78, 23, 222, 114, 190, 255, 53, 188, 63, 27], [226, 198, 53, 132, 118, 101, 114, 98, 128, 128, 128, 128, 199, 48, 133, 112, 117, 112, 112, 121, 128, 128, 128, 128, 128, 128, 128, 128, 128, 128, 132, 99, 111, 105, 110]), ([2, 28, 109, 56, 40, 21, 98, 74, 161, 124, 52, 48, 95, 159, 158, 38, 41, 255, 56, 47, 128, 202, 109, 83, 203, 66, 112, 234, 20, 127, 151, 102], [222, 198, 53, 132, 118, 101, 114, 98, 128, 128, 128, 128, 199, 48, 133, 112, 117, 112, 112, 121, 128, 128, 128, 128, 128, 128, 128, 128, 128, 128, 128]), ([0, 0, 0, 0, 0, 0, 0, 0, 0, 0, 0, 0, 0, 0, 0, 0, 0, 0, 0, 0, 0, 0, 1, 217, 9, 62, 77, 50, 184, 2, 133, 172], [200, 130, 32, 5, 132, 118, 101, 114, 98])], false, false, false⟩
/-- A scenario state (certified by a step lemma below). -/
def c3a4 : Trie := ⟨[0, 0, 0, 0, 0, 0, 0, 0, 0, 0, 0, 0, 0, 0, 0, 0, 0, 0, 0, 0, 0, 0, 0, 0, 0, 0, 0, 0, 0, 0, 1, 130], [([113, 199, 25, 5, 226, 247, 129, 139, 217, 171, 146, 85, 102, 52, 133, 51, 108, 206, 7, 47, 199, 202, 78, 23, 222, 114, 190, 255, 53, 188, 63, 27], [226, 198, 53, 132, 118, 101, 114, 98, 128, 128, 128, 128, 199, 48, 133, 112, 117, 112, 112, 121, 128, 128, 128, 128, 128, 128, 128, 128, 128, 128, 132, 99, 111, 105, 110]), ([2, 28, 109, 56, 40, 21, 98, 74, 161, 124, 52, 48, 95, 159, 158, 38, 41, 255, 56, 47, 128, 202, 109, 83, 203, 66, 112, 234, 20, 127, 151, 102], [222, 198, 53, 132, 118, 101, 114, 98, 128, 128, 128, 128, 199, 48, 133, 112, 117, 112, 112, 121, 128, 128, 128, 128, 128, 128, 128, 128, 128, 128, 128]), ([0, 0, 0, 0, 0, 0, 0, 0, 0, 0, 0, 0, 0, 0, 0, 0, 0, 0, 0, 0, 0, 0, 1, 217, 9, 62, 77, 50, 184, 2, 133, 172], [200, 130, 32, 5, 132, 118, 101, 114, 98])], false, false, false⟩
/-- A scenario state (certified by a step lemma below). -/
def c5a1 : Trie := ⟨[63, 195, 120, 127], [([63, 195, 120, 127], [199, 130, 32, 97, 131, 98, 99, 100])], false, false, false⟩
/-- A scenario state (certified by a step lemma below). -/
def c5a2 : Trie := ⟨[171, 99, 27, 209], [([171, 99, 27, 209], [221, 22, 219, 128, 197, 32, 131, 98, 99, 100, 197, 32, 131, 120, 121, 122, 128, 128, 128, 128, 128, 128, 128, 128, 128, 128, 128, 128, 128, 128]), ([63, 195, 120, 127], [199, 130, 32, 97, 131, 98, 99, 100])], false, false, false⟩
/-- A scenario state (certified by a step lemma below); the result of the
batch with one empty-valued put op. -/
def c8a1 : Trie :=⟨[0, 0, 0, 0, 0, 0, 0, 0, 0, 0, 0, 0, 0, 0, 0, 0, 0, 0, 0, 0, 0, 0, 0, 0, 0, 0, 0, 0, 0, 0, 1, 130], [([0, 0, 0, 0, 0, 0, 0, 0, 0, 0, 0, 0, 0, 0, 0, 0, 0, 0, 0, 0, 0, 1, 219, 236, 116, 93, 96, 236, 47, 3, 117, 125], [201, 131, 32, 100, 111, 132, 118, 101, 114, 98])], false, false, false⟩



/-- The decoded body stored under the root of `c5a2` (a trie over the
4-byte hash). -/
def c5rootNode : TrieNode :=
  match decodeNode ((dbGet c5a2.db c5a2.root).getD []) with
  | .ok n => n
  | .error _ => .leaf [] []

/-!
## A pure tree model of the trie

To state engine-level theorems that hold for every key, value and
represented store — not only for the concrete scenario states — the pure
content of a trie is modelled as a tree (`PTree`): the walk of `findPath`
becomes a zipper (`Frame` / `plug`), the rewrite of `_updateNode` becomes
`localPut` at the end of the walk, and a representation predicate ties a
`Trie` (root hash plus store) to the tree it encodes.
-/

/-- The pure content of a non-empty trie. -/
inductive PTree where
  | leafT (path : Nibbles) (value : Bytes)
  | extT (path : Nibbles) (child : PTree)
  | branchT (children : List (Option PTree)) (value : Option Bytes)

mutual
/-- Structural size of a pure tree (bounds walk fuel). -/
def tsize : PTree → Nat
  | .leafT _ _ => 1
  | .extT _ c => 1 + tsize c
  | .branchT cs _ => 1 + tsizeL cs
/-- Combined size of a list of optional subtrees. -/
def tsizeL : List (Option PTree) → Nat
  | [] => 0
  | none :: rest => tsizeL rest
  | some t :: rest => tsize t + tsizeL rest
end

/-- A frame of the walk zipper: a branch taken at an index, or an
extension passed through (the original child is kept so the frame still
renders to the node `findPath` stacked). -/
inductive Frame where
  | brF (children : List (Option PTree)) (value : Option Bytes) (idx : Nat)
  | exF (path : Nibbles) (child : PTree)

/-- The result of the pure walk: frames passed, terminal subtree, the key
remainder at that subtree, and whether the key resolved to it. -/
structure WalkRes where
  frames : List Frame
  last : PTree
  rem : Nibbles
  found : Bool

mutual
/-- The pure walk, mirroring the descent of `findPath`. -/
def walk : PTree → Nibbles → WalkRes
  | .leafT p v, k => ⟨[], .leafT p v, k, doKeysMatch k p⟩
  | .extT p c, k =>
    if matchingNibbleLength k p = p.length then
      let w := walk c (k.drop p.length)
      ⟨.exF p c :: w.frames, w.last, w.rem, w.found⟩
    else ⟨[], .extT p c, k, false⟩
  | .branchT cs v, [] => ⟨[], .branchT cs v, [], true⟩
  | .branchT cs v, i :: rest =>
    match walkKids cs i rest with
    | none => ⟨[], .branchT cs v, i :: rest, false⟩
    | some w => ⟨.brF cs v i :: w.frames, w.last, w.rem, w.found⟩
/-- The walk into the `i`-th child, when that child is present. -/
def walkKids : List (Option PTree) → Nat → Nibbles → Option WalkRes
  | [], _, _ => none
  | none :: _, 0, _ => none
  | some t :: _, 0, k => some (walk t k)
  | _ :: rest, i + 1, k => walkKids rest i k
end

/-- Close one zipper frame over a rebuilt subtree. -/
def plugOne : Frame → PTree → PTree
  | .brF cs v i, sub => .branchT (cs.set i (some sub)) v
  | .exF p _, sub => .extT p sub

/-- Close a whole zipper (frames listed root-first). -/
def plug (fs : List Frame) (sub : PTree) : PTree := fs.foldr plugOne sub

/-- The 16 empty child slots of a fresh branch. -/
def emptyKidsT : List (Option PTree) := List.replicate 16 none

/-- The value the engine reads off a terminal node. -/
def treeValueT : PTree → Option Bytes
  | .leafT _ v => some v
  | .extT _ _ => none
  | .branchT _ v => v

/-- Pure lookup: the value at the resolved node of the walk. -/
def getT (t : PTree) (k : Nibbles) : Option Bytes :=
  let w := walk t k
  if w.found then treeValueT w.last else none

/-- The split construction of `_updateNode` in tree form: the diverging
old leaf or extension and the inserted key meet in a fresh branch, below
a common-path extension when the common part is nonzero. -/
def splitT (old : PTree) (oldKey k : Nibbles) (v : Bytes) : PTree :=
  let m := matchingNibbleLength oldKey k
  let oTail := oldKey.drop m
  let kTail := k.drop m
  let kb :=
    match oTail with
    | ob :: ot =>
      let sub : PTree :=
        match old with
        | .leafT _ lv => .leafT ot lv
        | .extT _ c => if ot.isEmpty then c else .extT ot c
        | .branchT a b => .branchT a b
      (emptyKidsT.set ob (some sub), (none : Option Bytes))
    | [] => (emptyKidsT, treeValueT old)
  let kb2 :=
    if kTail.isEmpty then (kb.1, some v)
    else (kb.1.set (kTail.headD 0) (some (.leafT (kTail.drop 1) v)), kb.2)
  if m ≠ 0 then .extT (oldKey.take m) (.branchT kb2.1 kb2.2)
  else .branchT kb2.1 kb2.2

/-- The local rewrite of `_updateNode` at the end of the walk. -/
def localPut : PTree → Nibbles → Bytes → PTree
  | .leafT p v0, k, v =>
    if doKeysMatch k p then .leafT p v else splitT (.leafT p v0) p k v
  | .extT p c, k, v => splitT (.extT p c) p k v
  | .branchT cs v0, [], v => .branchT cs (some v)
  | .branchT cs v0, i :: rest, v => .branchT (cs.set i (some (.leafT rest v))) v0

/-- Pure insert: walk to the divergence and rewrite locally. -/
def putT (t : PTree) (k : Nibbles) (v : Bytes) : PTree :=
  let w := walk t k
  plug w.frames (localPut w.last w.rem v)

/-- Pure insert into a possibly empty trie. -/
def putRoot : Option PTree → Nibbles → Bytes → PTree
  | none, k, v => .leafT k v
  | some t, k, v => putT t k v

section TreeModel

variable (H : Bytes → Bytes)

/-- The child-side of `_formatNode` (not top-level, no removal): hash
reference for a serialization of 32 bytes or more, raw inline otherwise. -/
def refFn (n : TrieNode) : RLPItem :=
  if 32 ≤ (nodeSerialize n).length then .str (H (nodeSerialize n)) else nodeRaw n

mutual
/-- Render a pure tree as the engine node the decoder yields for it:
child references through `refFn`, absent branch slots as empty byte
strings, an absent branch value as a present empty value. -/
def renderNode : PTree → TrieNode
  | .leafT p v => .leaf p v
  | .extT p c => .ext p (refFn H (renderNode c))
  | .branchT cs v => .branch (renderKids cs) (some (v.getD []))
/-- Render the 16 child slots. -/
def renderKids : List (Option PTree) → List (Option RLPItem)
  | [] => []
  | none :: rest => some (.str []) :: renderKids rest
  | some c :: rest => some (refFn H (renderNode c)) :: renderKids rest
end

/-- The serialization of a rendered tree node. -/
def serOfT (t : PTree) : Bytes := nodeSerialize (renderNode H t)

/-- The child reference of a rendered tree node. -/
def refOfT (t : PTree) : RLPItem := refFn H (renderNode H t)

/-- The engine node a frame was read as. -/
def frameNode : Frame → TrieNode
  | .brF cs v _ => renderNode H (.branchT cs v)
  | .exF p c => renderNode H (.extT p c)

mutual
/-- Well-formedness of a pure tree: nonempty values, nonempty extension
paths, comfortable size bounds, 16 child slots per branch, and rendered
nodes that are codec-well-formed. -/
def treeOK : PTree → Bool
  | .leafT p v =>
    !v.isEmpty && decide (v.length < 2 ^ 55) && decide (p.length < 2 ^ 55) &&
      nodeWF (renderNode H (.leafT p v))
  | .extT p c =>
    !p.isEmpty && decide (p.length < 2 ^ 55) &&
      nodeWF (renderNode H (.extT p c)) && treeOK c
  | .branchT cs v =>
    (cs.length == 16) &&
      (match v with
       | some b => !b.isEmpty && decide (b.length < 2 ^ 55)
       | none => true) &&
      nodeWF (renderNode H (.branchT cs v)) && kidsOK cs
/-- Well-formedness of the child slots. -/
def kidsOK : List (Option PTree) → Bool
  | [] => true
  | none :: rest => kidsOK rest
  | some c :: rest => treeOK c && kidsOK rest
end

/-- A subtree whose rendered node is stored (not inlined) must be in the
store under its hash. -/
def childInDb (db : DB) (t : PTree) : Bool :=
  if 32 ≤ (serOfT H t).length then
    dbGet db (H (serOfT H t)) == some (serOfT H t)
  else true

mutual
/-- All stored descendants of a tree are present in the store. -/
def treeInDb (db : DB) : PTree → Bool
  | .leafT _ _ => true
  | .extT _ c => childInDb H db c && treeInDb db c
  | .branchT cs _ => kidsInDb db cs
/-- The store condition over the child slots. -/
def kidsInDb (db : DB) : List (Option PTree) → Bool
  | [] => true
  | none :: rest => kidsInDb db rest
  | some c :: rest => childInDb H db c && treeInDb db c && kidsInDb db rest
end

/-- The trie `T` represents the pure tree `t` (`none` = the empty trie):
the root field is the root node's hash, the root node body is stored, and
every stored descendant is in the store. -/
def reprTrie (T : Trie) : Option PTree → Bool
  | none => T.root == emptyTrieRoot H && (dbGet T.db (emptyTrieRoot H)).isNone
  | some t =>
    (T.root == H (serOfT H t)) &&
      (dbGet T.db (H (serOfT H t)) == some (serOfT H t)) &&
      treeInDb H T.db t

mutual
/-- The serializations of every node of the tree. -/
def allSers : PTree → List Bytes
  | .leafT p v => [serOfT H (.leafT p v)]
  | .extT p c => serOfT H (.extT p c) :: allSers c
  | .branchT cs v => serOfT H (.branchT cs v) :: allSersKids cs
/-- The serializations of every node under the child slots. -/
def allSersKids : List (Option PTree) → List Bytes
  | [] => []
  | none :: rest => allSersKids rest
  | some c :: rest => allSers c ++ allSersKids rest
end

end TreeModel

/-- The key segment a frame consumes: the taken index of a branch, the
path of an extension. -/
def segOf : Frame → Nibbles
  | .brF _ _ i => [i]
  | .exF p _ => p

/-- The full key prefix a frame list consumes (root-first). -/
def framesKey (fs : List Frame) : Nibbles := (fs.map segOf).flatten

/-- Whether a rendered subtree is stored in the db (vs inlined). -/
def storedB (H : Bytes → Bytes) (t : PTree) : Bool :=
  decide (32 ≤ (serOfT H t).length)

/-- The store op `_formatNode` records for a non-top-level node. -/
def writeFor (H : Bytes → Bytes) (t : PTree) : List BatchOp :=
  if 32 ≤ (serOfT H t).length then
    [.put (H (serOfT H t)) (some (serOfT H t))]
  else []

/-- The store ops of rebuilding a spine: frames deepest-first, each plug
formatted (non-top-level) over the subtree rebuilt so far. -/
def chainOps (H : Bytes → Bytes) : List Frame → PTree → List BatchOp
  | [], _ => []
  | f :: rs, sub => writeFor H (plugOne f sub) ++ chainOps H rs (plugOne f sub)

/-- The key consumed by a deepest-first frame list. -/
def keyOfR : List Frame → Nibbles
  | [] => []
  | f :: rs => keyOfR rs ++ segOf f

/-- Plug a deepest-first frame list. -/
def plugR (rs : List Frame) (sub : PTree) : PTree :=
  rs.foldl (fun acc f => plugOne f acc) sub

/-- The key segment consumed by the bottom node of a saved stack. -/
def bottomSeg : PTree → Nibbles
  | .leafT p _ => p
  | _ => []

/-- All store ops recorded by saving a rebuilt spine: the bottom node and
each intermediate plug through `_formatNode` (stored only when large), and
the new root node (always stored). -/
def saveWrites (H : Bytes → Bytes) (fs : List Frame) (sub : PTree) : List BatchOp :=
  match fs with
  | [] => [.put (H (serOfT H sub)) (some (serOfT H sub))]
  | f0 :: fsr =>
    writeFor H sub ++ chainOps H fsr.reverse sub ++
      [.put (H (serOfT H (plug (f0 :: fsr) sub)))
        (some (serOfT H (plug (f0 :: fsr) sub)))]

/-- An engine stack node standing for a zipper frame: an extension node
with the frame path (its stale child reference is irrelevant — the save
loop overwrites it), or a branch node whose slots and value serialize like
the frame's rendered ones (a fresh branch carries JS `null` slots where a
decoded one carries empty byte strings; both serialize the same). -/
def frameFits (H : Bytes → Bytes) : Frame → TrieNode → Prop
  | .brF cs v _, .branch ch bv =>
    ch.map (fun c => c.getD (.str [])) =
      (renderKids H cs).map (fun c => c.getD (.str [])) ∧
    bv.getD [] = v.getD []
  | .exF p _, .ext q _ => q = p
  | _, _ => False

/-- An engine stack node standing for the bottom subtree of a save. -/
def bottomFits (H : Bytes → Bytes) : PTree → TrieNode → Prop
  | .leafT p v, n => n = .leaf p v
  | .branchT cs v, .branch ch bv =>
    ch.map (fun c => c.getD (.str [])) =
      (renderKids H cs).map (fun c => c.getD (.str [])) ∧
    bv.getD [] = v.getD []
  | _, _ => False

/-- Pointwise `frameFits` between a frame list and a node list. -/
inductive FitsAll (H : Bytes → Bytes) : List Frame → List TrieNode → Prop
  | nil : FitsAll H [] []
  | cons {f : Frame} {n : TrieNode} {fs : List Frame} {ns : List TrieNode} :
      frameFits H f n → FitsAll H fs ns → FitsAll H (f :: fs) (n :: ns)

/-- The own key of a terminal node (leaf or extension path). -/
def pathT : PTree → Nibbles
  | .leafT p _ => p
  | .extT p _ => p
  | .branchT _ _ => []

/-- The split construction as zipper data: the frames above the new
bottom node and the bottom node itself, such that plugging them yields
`splitT`. -/
def splitData (old : PTree) (oldKey k : Nibbles) (v : Bytes) : List Frame × PTree :=
  let m := matchingNibbleLength oldKey k
  let oTail := oldKey.drop m
  let kTail := k.drop m
  let kb :=
    match oTail with
    | ob :: ot =>
      let sub : PTree :=
        match old with
        | .leafT _ lv => .leafT ot lv
        | .extT _ c => if ot.isEmpty then c else .extT ot c
        | .branchT a b => .branchT a b
      (emptyKidsT.set ob (some sub), (none : Option Bytes))
    | [] => (emptyKidsT, treeValueT old)
  let tail :=
    match kTail with
    | kh :: kt => ([Frame.brF kb.1 kb.2 kh], PTree.leafT kt v)
    | [] => (([] : List Frame), PTree.branchT kb.1 (some v))
  ((if m ≠ 0 then [Frame.exF (oldKey.take m) old] else []) ++ tail.1, tail.2)

/-- The store op recorded while building the split (the re-keyed old
node embedded at its branch slot, when stored). -/
def splitWr (H : Bytes → Bytes) (old : PTree) (oldKey k : Nibbles) : List BatchOp :=
  let m := matchingNibbleLength oldKey k
  match oldKey.drop m with
  | _ :: ot =>
    match old with
    | .leafT _ lv => writeFor H (.leafT ot lv)
    | .extT _ c => if ot.isEmpty then [] else writeFor H (.extT ot c)
    | .branchT _ _ => []
  | [] => []

/-- Hash separation over a list of byte strings: the hash tells the
listed payloads apart. -/
def hashSep (H : Bytes → Bytes) (l : List Bytes) : Prop :=
  ∀ a ∈ l, ∀ b ∈ l, H a = H b → a = b

/-!
## Step lemmas certifying the scenario states

Each lemma checks one engine operation on a literal state by definitional
reduction, so that longer scenarios can be chained without re-evaluating
whole insertion sequences.
-/

set_option maxHeartbeats 1000000
set_option maxRecDepth 8000

theorem eok_bind {a b : Type} (x : a) (f : a -> Except TErr b) :
    (Except.ok x : Except TErr a).bind f = f x := rfl

theorem ok_bind {a b : Type} (x : a) (f : a -> Except TErr b) :
    (Except.ok x : Except TErr a) >>= f = f x := rfl

theorem epure_eq {a : Type} (x : a) : (pure x : Except TErr a) = Except.ok x := rfl

/-- The save loop splits: a (non-final) prefix of the stack is processed
by the partial fold, whose state feeds the rest of the loop. -/
theorem saveStackGo_append (H : Bytes → Bytes) (s : Trie) (l1 l2 : List TrieNode)
    (key : Nibbles) (lr : Option RLPItem) (ops : List BatchOp) (h : l2 ≠ []) :
    saveStackGo H s (l1 ++ l2) key lr ops =
      (fun t => saveStackGo H s l2 t.1 t.2.1 t.2.2)
        (saveStackPart H s l1 key lr ops) := by
  induction l1 generalizing key lr ops with
  | nil => rfl
  | cons n rest ih =>
    have hne : (rest ++ l2).isEmpty = false := by
      cases l2 with
      | nil => exact absurd rfl h
      | cons a as => simp
    have hne' : (rest.append l2).isEmpty = false := hne
    simp only [List.cons_append, saveStackGo, saveStackPart, hne, hne']
    exact ih _ _ _

theorem stepC3a1 : put testHash t0 [5] (some vverb) 100 = .ok c3a1 := by rfl

theorem stepC3a2 : put testHash c3a1 [80] (some vpuppy) 100 = .ok c3a2 := by rfl

theorem stepC3a3 : put testHash c3a2 [] (some vcoin) 100 = .ok c3a3 := by rfl

theorem stepC3a4 : del testHash c3a3 [] 100 = .ok c3a4 := by rfl

theorem stepC5a1 : put testHash4 t4 [97] (some [98, 99, 100]) 100 = .ok c5a1 := by rfl

theorem stepC5a2 : put testHash4 c5a1 [98] (some [120, 121, 122]) 100 = .ok c5a2 := by rfl

theorem stepC8a1 : batch testHash stD1 [.put kdo (some [])] 100 = .ok c8a1 := by rfl

theorem chainC3 :
    putSeq testHash t0 [([5], vverb), ([80], vpuppy), ([], vcoin)] 100 = .ok c3a3 := by
  simp only [putSeq]
  rw [stepC3a1, eok_bind, stepC3a2, eok_bind, stepC3a3, eok_bind]

theorem chainC5 :
    putSeq testHash4 t4 [([97], [98, 99, 100]), ([98], [120, 121, 122])] 100 = .ok c5a2 := by
  simp only [putSeq]
  rw [stepC5a1, eok_bind, stepC5a2, eok_bind]



/-!
## Error plumbing: no operation other than `put` raises the reserved-key
error
-/

theorem bind_ne_err {a b : Type} (x : Except TErr a) (f : a -> Except TErr b)
    (e : TErr) (hx : x ≠ .error e) (hf : ∀ y, f y ≠ .error e) :
    x.bind f ≠ .error e := by
  cases x with
  | error e' => simpa [Except.bind] using fun h => hx (by rw [h])
  | ok y => simpa [Except.bind] using hf y

theorem decodeRawNode_ne_reserved (items : List RLPItem) :
    decodeRawNode items ≠ .error .reservedKey := by
  unfold decodeRawNode
  split_ifs with h1 h2
  · simp
  · dsimp only
    split <;> simp
  · simp

theorem decodeNode_ne_reserved (bs : Bytes) :
    decodeNode bs ≠ .error .reservedKey := by
  unfold decodeNode
  cases rlpDecode bs with
  | none => simp
  | some it => cases it with
    | str _ => simp
    | list items => exact decodeRawNode_ne_reserved items

theorem lookupNode_ne_reserved (s : Trie) (ref : RLPItem) :
    lookupNode s ref ≠ .error .reservedKey := by
  unfold lookupNode
  cases ref with
  | list items => exact decodeRawNode_ne_reserved items
  | str h =>
    cases hd : dbGet s.db h with
    | none => simp [hd]
    | some v => simp only [hd]; exact decodeNode_ne_reserved v

theorem findPathGo_ne_reserved (s : Trie) (target : Nibbles) :
    ∀ fuel ref prog stack,
      findPathGo s target fuel ref prog stack ≠ .error .reservedKey := by
  intro fuel
  induction fuel with
  | zero => intro ref prog stack; simp [findPathGo]
  | succ n ih =>
    intro ref prog stack
    unfold findPathGo
    cases hl : lookupNode s ref with
    | error e =>
      cases e <;> simp_all
      exact absurd hl (lookupNode_ne_reserved s ref)
    | ok node =>
      cases node with
      | branch children v =>
        simp only []
        split
        · simp
        · cases getBranch children _ with
          | none => simp
          | some childRef => exact ih childRef _ _
      | leaf k v =>
        simp only []
        split <;> simp
      | ext k child =>
        simp only []
        split
        · simp
        · exact ih child _ _

theorem findPathAux_ne_reserved (s : Trie) (key : Bytes) (t : Bool) (fuel : Nat) :
    findPathAux s key t fuel ≠ .error .reservedKey := by
  unfold findPathAux
  cases hg : findPathGo s (bufferToNibbles key) fuel (.str s.root) [] [] with
  | error e =>
    simp only [hg]
    cases e <;> simp
    exact absurd hg (findPathGo_ne_reserved s (bufferToNibbles key) fuel _ [] [])
  | ok r =>
    obtain ⟨res, stk⟩ := r
    cases res with
    | none =>
      simp only [hg]
      split <;> simp
    | some p =>
      simp only [hg]
      simp

theorem rootSet_ne_reserved (H : Bytes → Bytes) (s : Trie) (v : Option Bytes) :
    rootSet H s v ≠ .error .reservedKey := by
  unfold rootSet
  split <;> (dsimp only; split_ifs <;> simp)

theorem saveStack_ne_reserved (H : Bytes → Bytes) (s : Trie) (key : Nibbles)
    (stack : List TrieNode) (ops : List BatchOp) :
    saveStack H s key stack ops ≠ .error .reservedKey := by
  unfold saveStack
  obtain ⟨lastRoot, ops'⟩ := saveStackGo H s stack.reverse key none ops
  cases lastRoot with
  | none => simp [Except.bind, ok_bind, epure_eq]
  | some r =>
    cases r with
    | str h =>
      refine bind_ne_err _ _ _ (rootSet_ne_reserved H s (some h)) fun y => ?_
      simp [Except.bind, ok_bind, epure_eq]
    | list items => simp [Except.bind, ok_bind, epure_eq]

theorem deleteNode_ne_reserved (H : Bytes → Bytes) (s : Trie) (k : Bytes)
    (stack0 : List TrieNode) :
    deleteNode H s k stack0 ≠ .error .reservedKey := by
  unfold deleteNode
  cases stack0.getLast? with
  | none => simp
  | some lastNode0 =>
    simp only []
    cases stack0.dropLast.getLast? with
    | none => simp [epure_eq]
    | some parent0 =>
      simp only []
      refine bind_ne_err _ _ _ ?_ fun y => ?_
      · cases lastNode0 with
        | branch ch v => simp [epure_eq]
        | leaf lk lv =>
          cases parent0 <;> simp [epure_eq]
        | ext lk lc =>
          cases parent0 <;> simp [epure_eq]
      · obtain ⟨bch, bv, pn, srem, k1, ops⟩ := y
        simp only []
        split
        · refine bind_ne_err _ _ _ (lookupNode_ne_reserved s _) fun nd => ?_
          exact saveStack_ne_reserved H s _ _ _
        · exact saveStack_ne_reserved H s _ _ _

theorem del_ne_reserved (H : Bytes → Bytes) (s : Trie) (k : Bytes) (fuel : Nat) :
    del H s k fuel ≠ .error .reservedKey := by
  unfold del
  refine bind_ne_err _ _ _ (findPathAux_ne_reserved s _ false fuel) fun p => ?_
  dsimp only
  cases p.node with
  | none => simp [ok_bind, epure_eq, Except.bind]
  | some n =>
    refine bind_ne_err _ _ _ (deleteNode_ne_reserved H s _ p.stack) fun s' => ?_
    simp [epure_eq]


/-!
## Claim theorems
-/


/-!
## RLP codec round trip
-/

theorem takeLenApp {A : Type} (a b : List A) : (a ++ b).take a.length = a := by
  simp

theorem dropLenApp {A : Type} (a b : List A) : (a ++ b).drop a.length = b := by
  simp

theorem beToNat_append (a : Bytes) (b : Nat) :
    beToNat (a ++ [b]) = beToNat a * 256 + b := by
  simp [beToNat, List.foldl_append]

theorem beBytesGo_toNat : ∀ f n, n ≤ f → beToNat (beBytesGo f n) = n := by
  intro f
  induction f with
  | zero =>
    intro n hn
    interval_cases n
    rfl
  | succ f ih =>
    intro n hn
    match n with
    | 0 => rfl
    | n + 1 =>
      rw [beBytesGo, beToNat_append, ih ((n + 1) / 256)
            (le_trans (Nat.le_of_lt_succ (Nat.div_lt_self (Nat.succ_pos n) (by norm_num)))
              (Nat.le_of_succ_le_succ hn))]
      have := Nat.div_add_mod (n + 1) 256
      omega

theorem beToNat_beBytes (n : Nat) : beToNat (beBytes n) = n :=
  beBytesGo_toNat n n le_rfl

theorem beBytesGo_len : ∀ f n k, n < 256 ^ k → (beBytesGo f n).length ≤ k := by
  intro f
  induction f with
  | zero =>
    intro n k _
    match n with
    | 0 => simp [beBytesGo]
    | n + 1 => simp [beBytesGo]
  | succ f ih =>
    intro n k hk
    match n with
    | 0 => simp [beBytesGo]
    | n + 1 =>
      match k with
      | 0 => omega
      | k + 1 =>
        rw [beBytesGo]
        have h1 : (n + 1) / 256 < 256 ^ k := by
          apply Nat.div_lt_of_lt_mul
          have hp : 256 ^ (k + 1) = 256 ^ k * 256 := by ring
          omega
        have := ih ((n + 1) / 256) k h1
        simp only [List.length_append, List.length_cons, List.length_nil]
        omega

theorem beBytes_len (n k : Nat) (h : n < 256 ^ k) : (beBytes n).length ≤ k :=
  beBytesGo_len n n k h

theorem beBytesGo_ne_nil : ∀ f n, 0 < n → n ≤ f → beBytesGo f n ≠ [] := by
  intro f n h1 h2
  match f, n with
  | 0, n => omega
  | f + 1, 0 => omega
  | f + 1, n + 1 => simp [beBytesGo]

theorem rsize_pos (x : RLPItem) : 1 ≤ rsize x := by
  cases x <;> simp [rsize]

theorem rsizeList_pos (l : List RLPItem) : 1 ≤ rsizeList l := by
  cases l with
  | nil => simp [rsizeList]
  | cons a t => simp only [rsizeList]; omega

theorem rlpEncode_ne_nil (x : RLPItem) : rlpEncode x ≠ [] := by
  cases x with
  | str bs =>
    rw [rlpEncode]
    split_ifs with hs
    · match bs, hs.1 with
      | [b], _ => simp
    · rw [encodeLength]
      split_ifs <;> simp
  | list its =>
    rw [rlpEncode, encodeLength]
    split_ifs <;> simp

theorem rlpDecodeItems_step (fuel : Nat) (bs : Bytes) (it : RLPItem) (tailB : Bytes)
    (l : List RLPItem)
    (hne : bs ≠ [])
    (h1 : rlpDecodeItem fuel bs = some (it, tailB))
    (h2 : rlpDecodeItems fuel tailB = some l) :
    rlpDecodeItems (fuel + 1) bs = some (it :: l) := by
  obtain ⟨b, rest, rfl⟩ : ∃ b rest, bs = b :: rest := by
    cases bs with
    | nil => exact absurd rfl hne
    | cons b rest => exact ⟨b, rest, rfl⟩
  rw [rlpDecodeItems, h1]
  show (match rlpDecodeItems fuel tailB with
        | some its => some (it :: its)
        | none => none) = some (it :: l)
  · rw [h2]
  · simp

theorem rlp_roundtrip_main : ∀ N : Nat,
    (∀ x : RLPItem, rsize x ≤ N → itemWF x = true → ∀ (suffix : Bytes) (fuel : Nat),
      rsize x ≤ fuel →
      rlpDecodeItem fuel (rlpEncode x ++ suffix) = some (x, suffix)) ∧
    (∀ l : List RLPItem, rsizeList l ≤ N → itemsWF l = true → ∀ fuel : Nat,
      rsizeList l ≤ fuel →
      rlpDecodeItems fuel (rlpEncodeList l) = some l) := by
  intro N
  induction N with
  | zero =>
    constructor
    · intro x hx
      have := rsize_pos x
      omega
    · intro l hl
      have := rsizeList_pos l
      omega
  | succ N ih =>
    obtain ⟨ihP, ihQ⟩ := ih
    constructor
    · intro x hx hwf suffix fuel hfuel
      have h1 := rsize_pos x
      obtain ⟨f, rfl⟩ : ∃ f, fuel = f + 1 := ⟨fuel - 1, by omega⟩
      cases x with
      | str bs =>
        have hbytes : bs.all (fun b => decide (b < 256)) = true ∧ bs.length < 2 ^ 56 := by
          simpa [itemWF] using hwf
        by_cases hsingle : bs.length = 1 ∧ bs.headD 0 < 128
        · obtain ⟨hl1, hb⟩ := hsingle
          match bs, hl1 with
          | [b], _ =>
            simp only [List.headD] at hb
            rw [show rlpEncode (.str [b]) = [b] from by
              rw [rlpEncode]
              exact if_pos ⟨rfl, hb⟩]
            simp [rlpDecodeItem, hb]
        · rw [show rlpEncode (.str bs) = encodeLength bs.length 128 ++ bs from by
              rw [rlpEncode, if_neg hsingle]]
          by_cases hlen : bs.length < 56
          · rw [show encodeLength bs.length 128 = [bs.length + 128] from by
                rw [encodeLength, if_pos hlen]]
            have hnl : ¬(bs.length + 128 < 128) := by omega
            have hl184 : bs.length + 128 < 184 := by omega
            simp only [List.cons_append, List.nil_append, rlpDecodeItem]
            rw [if_neg hnl, if_pos hl184]
            have hge : ¬((bs ++ suffix).length < bs.length + 128 - 128) := by
              simp [List.length_append]
            rw [if_neg hge]
            have ha : bs.length + 128 - 128 = bs.length := by omega
            rw [ha, takeLenApp, dropLenApp]
          · rw [show encodeLength bs.length 128 =
                  ((beBytes bs.length).length + 128 + 55) :: beBytes bs.length from by
                rw [encodeLength, if_neg hlen]]
            have hlol : (beBytes bs.length).length ≤ 7 := by
              apply beBytes_len
              calc bs.length < 2 ^ 56 := hbytes.2
              _ = 256 ^ 7 := by norm_num
            have hlolpos : beBytes bs.length ≠ [] := by
              apply beBytesGo_ne_nil
              · omega
              · exact le_rfl
            have hlol1 : 1 ≤ (beBytes bs.length).length :=
              List.length_pos.mpr hlolpos
            have hb0 : ¬((beBytes bs.length).length + 128 + 55 < 128) := by omega
            have hb1 : ¬((beBytes bs.length).length + 128 + 55 < 184) := by omega
            have hb2 : (beBytes bs.length).length + 128 + 55 < 192 := by omega
            simp only [List.cons_append, rlpDecodeItem]
            rw [if_neg hb0, if_neg hb1, if_pos hb2]
            have harith : (beBytes bs.length).length + 128 + 55 - 183 =
                (beBytes bs.length).length := by omega
            rw [harith]
            have hlen2 : ¬((beBytes bs.length ++ (bs ++ suffix)).length <
                (beBytes bs.length).length) := by
              simp [List.length_append]
            rw [List.append_assoc, if_neg hlen2, takeLenApp, dropLenApp, beToNat_beBytes]
            have hlen3 : ¬((bs ++ suffix).length < bs.length) := by
              simp [List.length_append]
            rw [if_neg hlen3, takeLenApp, dropLenApp]
      | list items =>
        have hwf2 : itemsWF items = true ∧ (rlpEncodeList items).length < 2 ^ 56 := by
          simpa [itemWF] using hwf
        have hsz : rsizeList items ≤ N := by
          simp only [rsize] at hx
          omega
        have hszf : rsizeList items ≤ f := by
          simp only [rsize] at hfuel
          omega
        rw [show rlpEncode (.list items) =
            encodeLength (rlpEncodeList items).length 192 ++ rlpEncodeList items from by
          rw [rlpEncode]]
        by_cases hlen : (rlpEncodeList items).length < 56
        · rw [show encodeLength (rlpEncodeList items).length 192 =
              [(rlpEncodeList items).length + 192] from by
            rw [encodeLength, if_pos hlen]]
          have h0 : ¬((rlpEncodeList items).length + 192 < 128) := by omega
          have h1p : ¬((rlpEncodeList items).length + 192 < 184) := by omega
          have h2p : ¬((rlpEncodeList items).length + 192 < 192) := by omega
          have h3p : (rlpEncodeList items).length + 192 < 248 := by omega
          simp only [List.cons_append, List.nil_append, rlpDecodeItem]
          rw [if_neg h0, if_neg h1p, if_neg h2p, if_pos h3p]
          have harith : (rlpEncodeList items).length + 192 - 192 =
              (rlpEncodeList items).length := by omega
          rw [harith]
          have hge : ¬((rlpEncodeList items ++ suffix).length <
              (rlpEncodeList items).length) := by
            simp [List.length_append]
          rw [if_neg hge, takeLenApp, dropLenApp]
          rw [ihQ items hsz hwf2.1 f hszf]
        · rw [show encodeLength (rlpEncodeList items).length 192 =
              ((beBytes (rlpEncodeList items).length).length + 192 + 55) ::
                beBytes (rlpEncodeList items).length from by
            rw [encodeLength, if_neg hlen]]
          have hlol : (beBytes (rlpEncodeList items).length).length ≤ 7 := by
            apply beBytes_len
            calc (rlpEncodeList items).length < 2 ^ 56 := hwf2.2
            _ = 256 ^ 7 := by norm_num
          have hlolpos : beBytes (rlpEncodeList items).length ≠ [] := by
            apply beBytesGo_ne_nil
            · omega
            · exact le_rfl
          have hlol1 : 1 ≤ (beBytes (rlpEncodeList items).length).length :=
            List.length_pos.mpr hlolpos
          have hb0 : ¬((beBytes (rlpEncodeList items).length).length + 192 + 55 < 128) := by
            omega
          have hb1 : ¬((beBytes (rlpEncodeList items).length).length + 192 + 55 < 184) := by
            omega
          have hb2 : ¬((beBytes (rlpEncodeList items).length).length + 192 + 55 < 192) := by
            omega
          have hb3 : ¬((beBytes (rlpEncodeList items).length).length + 192 + 55 < 248) := by
            omega
          simp only [List.cons_append, rlpDecodeItem]
          rw [if_neg hb0, if_neg hb1, if_neg hb2, if_neg hb3]
          have harith : (beBytes (rlpEncodeList items).length).length + 192 + 55 - 247 =
              (beBytes (rlpEncodeList items).length).length := by omega
          rw [harith]
          have hlen2 : ¬((beBytes (rlpEncodeList items).length ++
              (rlpEncodeList items ++ suffix)).length <
              (beBytes (rlpEncodeList items).length).length) := by
            simp [List.length_append]
          rw [List.append_assoc, if_neg hlen2, takeLenApp, dropLenApp, beToNat_beBytes]
          have hlen3 : ¬((rlpEncodeList items ++ suffix).length <
              (rlpEncodeList items).length) := by
            simp [List.length_append]
          rw [if_neg hlen3, takeLenApp, dropLenApp]
          rw [ihQ items hsz hwf2.1 f hszf]
    · intro l hl hwf fuel hfuel
      have h1 := rsizeList_pos l
      obtain ⟨f, rfl⟩ : ∃ f, fuel = f + 1 := ⟨fuel - 1, by omega⟩
      cases l with
      | nil => rfl
      | cons it rest =>
        have hwf2 : itemWF it = true ∧ itemsWF rest = true := by
          simpa [itemsWF] using hwf
        have hsz1 : rsize it ≤ N := by simp only [rsizeList] at hl; omega
        have hsz2 : rsizeList rest ≤ N := by simp only [rsizeList] at hl; omega
        have hszf1 : rsize it ≤ f := by simp only [rsizeList] at hfuel; omega
        have hszf2 : rsizeList rest ≤ f := by simp only [rsizeList] at hfuel; omega
        have henc : rlpEncodeList (it :: rest) = rlpEncode it ++ rlpEncodeList rest := rfl
        rw [henc]
        exact rlpDecodeItems_step f _ it (rlpEncodeList rest) rest
          (fun hc => rlpEncode_ne_nil it (List.append_eq_nil.mp hc).1)
          (ihP it hsz1 hwf2.1 (rlpEncodeList rest) f hszf1)
          (ihQ rest hsz2 hwf2.2 f hszf2)

theorem encodeLength_len_pos (n off : Nat) : 1 ≤ (encodeLength n off).length := by
  rw [encodeLength]
  split_ifs <;> simp

theorem rlp_fuel_main : ∀ N : Nat,
    (∀ x : RLPItem, rsize x ≤ N → rsize x + 1 ≤ 3 * (rlpEncode x).length) ∧
    (∀ l : List RLPItem, rsizeList l ≤ N → rsizeList l ≤ 3 * (rlpEncodeList l).length + 1) := by
  intro N
  induction N with
  | zero =>
    constructor
    · intro x hx
      have := rsize_pos x
      omega
    · intro l hl
      have := rsizeList_pos l
      omega
  | succ N ih =>
    obtain ⟨ihP, ihQ⟩ := ih
    constructor
    · intro x hx
      cases x with
      | str bs =>
        have h1 : 1 ≤ (rlpEncode (.str bs)).length :=
          List.length_pos.mpr (rlpEncode_ne_nil _)
        simp only [rsize]
        omega
      | list items =>
        have hsz : rsizeList items ≤ N := by
          simp only [rsize] at hx
          omega
        have hq := ihQ items hsz
        have hh : 1 ≤ (encodeLength (rlpEncodeList items).length 192).length :=
          encodeLength_len_pos _ _
        rw [show rlpEncode (.list items) =
            encodeLength (rlpEncodeList items).length 192 ++ rlpEncodeList items from by
          rw [rlpEncode]]
        simp only [rsize, List.length_append]
        omega
    · intro l hl
      cases l with
      | nil => simp [rsizeList, rlpEncodeList]
      | cons it rest =>
        have hsz1 : rsize it ≤ N := by simp only [rsizeList] at hl; omega
        have hsz2 : rsizeList rest ≤ N := by simp only [rsizeList] at hl; omega
        have hp := ihP it hsz1
        have hq := ihQ rest hsz2
        rw [show rlpEncodeList (it :: rest) = rlpEncode it ++ rlpEncodeList rest from rfl]
        simp only [rsizeList, List.length_append]
        omega

theorem rsize_le_fuel (x : RLPItem) : rsize x ≤ 3 * (rlpEncode x).length + 1 := by
  have := (rlp_fuel_main (rsize x)).1 x le_rfl
  omega

theorem rlpDecode_rlpEncode (x : RLPItem) (hwf : itemWF x = true) :
    rlpDecode (rlpEncode x) = some x := by
  have hrt := (rlp_roundtrip_main (rsize x)).1 x le_rfl hwf []
    (3 * (rlpEncode x).length + 1) (rsize_le_fuel x)
  rw [show rlpEncode x ++ [] = rlpEncode x from by simp] at hrt
  rw [rlpDecode, hrt]

/-!
## Hex-prefix and nibble round trips
-/

theorem nibblesToBytes_bufferToNibbles (bs : Bytes) :
    nibblesToBytes (bufferToNibbles bs) = bs := by
  induction bs with
  | nil => rfl
  | cons b rest ih =>
    show nibblesToBytes ((b / 16) :: (b % 16) :: bufferToNibbles rest) = b :: rest
    rw [nibblesToBytes, ih]
    have hb : b / 16 * 16 + b % 16 = b := by omega
    rw [hb]

theorem bufferToNibblesNtbGo : ∀ (fuel : Nat) (ns : Nibbles), ns.length ≤ fuel →
    ns.length % 2 = 0 → ns.all (fun n => decide (n < 16)) = true →
    bufferToNibbles (nibblesToBytes ns) = ns := by
  intro fuel
  induction fuel with
  | zero =>
    intro ns hlen _ _
    match ns with
    | [] => rfl
    | x :: xs => simp only [List.length_cons] at hlen; omega
  | succ fuel ih =>
    intro ns hlen heven hlt
    match ns with
    | [] => rfl
    | [x] => simp at heven
    | h :: l :: rest =>
      simp only [List.length_cons] at hlen heven
      simp only [List.all_cons, Bool.and_eq_true, decide_eq_true_eq] at hlt
      rw [nibblesToBytes]
      show ((h * 16 + l) / 16) :: ((h * 16 + l) % 16) :: bufferToNibbles (nibblesToBytes rest)
          = h :: l :: rest
      rw [ih rest (by omega) (by omega) hlt.2.2]
      have h1 : (h * 16 + l) / 16 = h := by omega
      have h2 : (h * 16 + l) % 16 = l := by omega
      rw [h1, h2]

theorem bufferToNibbles_nibblesToBytes (ns : Nibbles) (heven : ns.length % 2 = 0)
    (hlt : ns.all (fun n => decide (n < 16)) = true) :
    bufferToNibbles (nibblesToBytes ns) = ns :=
  bufferToNibblesNtbGo ns.length ns le_rfl heven hlt

theorem bufferToNibbles_len (bs : Bytes) :
    (bufferToNibbles bs).length = 2 * bs.length := by
  induction bs with
  | nil => rfl
  | cons b rest ih =>
    show ((b / 16) :: (b % 16) :: bufferToNibbles rest).length = 2 * (rest.length + 1)
    simp only [List.length_cons, ih]
    omega

theorem bufferToNibbles_lt16 (bs : Bytes)
    (h : bs.all (fun b => decide (b < 256)) = true) :
    (bufferToNibbles bs).all (fun n => decide (n < 16)) = true := by
  induction bs with
  | nil => rfl
  | cons b rest ih =>
    simp only [List.all_cons, Bool.and_eq_true, decide_eq_true_eq] at h
    show ((b / 16) :: (b % 16) :: bufferToNibbles rest).all (fun n => decide (n < 16)) = true
    simp only [List.all_cons, Bool.and_eq_true, decide_eq_true_eq]
    exact ⟨by omega, by omega, ih h.2⟩

theorem nibblesToBytesLt256Go : ∀ (fuel : Nat) (ns : Nibbles), ns.length ≤ fuel →
    ns.all (fun n => decide (n < 16)) = true →
    (nibblesToBytes ns).all (fun b => decide (b < 256)) = true := by
  intro fuel
  induction fuel with
  | zero =>
    intro ns hlen _
    match ns with
    | [] => rfl
    | x :: xs => simp only [List.length_cons] at hlen; omega
  | succ fuel ih =>
    intro ns hlen h
    match ns with
    | [] => rfl
    | [x] => rfl
    | a :: l :: rest =>
      simp only [List.length_cons] at hlen
      simp only [List.all_cons, Bool.and_eq_true, decide_eq_true_eq] at h
      rw [nibblesToBytes]
      simp only [List.all_cons, Bool.and_eq_true, decide_eq_true_eq]
      exact ⟨by omega, ih rest (by omega) h.2.2⟩

theorem nibblesToBytes_lt256 (ns : Nibbles)
    (h : ns.all (fun n => decide (n < 16)) = true) :
    (nibblesToBytes ns).all (fun b => decide (b < 256)) = true :=
  nibblesToBytesLt256Go ns.length ns le_rfl h

theorem hpAdd_len_even (key : Nibbles) (t : Bool) :
    (hpAdd key t).length % 2 = 0 := by
  simp only [hpAdd]
  by_cases hodd : key.length % 2 = 1 <;> cases t <;> simp [hodd] <;> omega

theorem hpAdd_lt16 (key : Nibbles) (t : Bool)
    (h : key.all (fun n => decide (n < 16)) = true) :
    (hpAdd key t).all (fun n => decide (n < 16)) = true := by
  simp only [hpAdd]
  by_cases hodd : key.length % 2 = 1 <;> cases t <;> simp_all

theorem hpRemove_hpAdd (key : Nibbles) (t : Bool) :
    hpRemove (hpAdd key t) = key := by
  simp only [hpAdd]
  by_cases hodd : key.length % 2 = 1 <;> cases t <;> simp [hodd, hpRemove]

theorem isTerminator_hpAdd (key : Nibbles) (t : Bool) :
    isTerminator (hpAdd key t) = t := by
  simp only [hpAdd]
  by_cases hodd : key.length % 2 = 1 <;> cases t <;> simp [hodd, isTerminator]

/-!
## Node codec round trip
-/

theorem decodeNode_serialize (n : TrieNode) (h : nodeWF n = true) :
    decodeNode (nodeSerialize n) = .ok (normNode n) := by
  cases n with
  | leaf k v =>
    simp only [nodeWF, Bool.and_eq_true] at h
    rw [nodeSerialize, decodeNode, rlpDecode_rlpEncode _ h.2]
    show decodeRawNode [.str (nibblesToBytes (hpAdd k true)), .str v] = _
    rw [decodeRawNode]
    rw [if_neg (by simp)]
    rw [if_pos (by simp)]
    simp only [List.getD_cons_zero, strBytesOf]
    rw [bufferToNibbles_nibblesToBytes _ (hpAdd_len_even k true) (hpAdd_lt16 k true h.1),
        isTerminator_hpAdd, hpRemove_hpAdd]
    rfl
  | ext k c =>
    simp only [nodeWF, Bool.and_eq_true] at h
    rw [nodeSerialize, decodeNode, rlpDecode_rlpEncode _ h.2]
    show decodeRawNode [.str (nibblesToBytes (hpAdd k false)), c] = _
    rw [decodeRawNode]
    rw [if_neg (by simp)]
    rw [if_pos (by simp)]
    simp only [List.getD_cons_zero, strBytesOf]
    rw [bufferToNibbles_nibblesToBytes _ (hpAdd_len_even k false) (hpAdd_lt16 k false h.1),
        isTerminator_hpAdd, hpRemove_hpAdd]
    rfl
  | branch cs v =>
    simp only [nodeWF, Bool.and_eq_true, beq_iff_eq] at h
    rw [nodeSerialize, decodeNode, rlpDecode_rlpEncode _ h.2]
    show decodeRawNode (cs.map (fun c : Option RLPItem => c.getD (RLPItem.str [])) ++
        [RLPItem.str (v.getD [])]) = _
    rw [decodeRawNode]
    have hlen : (cs.map (fun c : Option RLPItem => c.getD (RLPItem.str [])) ++
        [RLPItem.str (v.getD [])]).length = 17 := by
      simp [h.1]
    rw [if_pos hlen]
    have hmaplen : (cs.map (fun c : Option RLPItem => c.getD (RLPItem.str []))).length = 16 := by
      simp [h.1]
    have htake : (cs.map (fun c : Option RLPItem => c.getD (RLPItem.str [])) ++
        [RLPItem.str (v.getD [])]).take 16
        = cs.map (fun c : Option RLPItem => c.getD (RLPItem.str [])) := by
      rw [← hmaplen, takeLenApp]
    have hgetd : (cs.map (fun c : Option RLPItem => c.getD (RLPItem.str [])) ++
        [RLPItem.str (v.getD [])]).getD 16 (RLPItem.str [])
        = RLPItem.str (v.getD []) := by
      rw [List.getD, ← hmaplen, List.get?_append_right le_rfl]
      simp
    rw [htake, hgetd]
    simp [normNode, strBytesOf, List.map_map, Function.comp]

/-!
## Pure walk lemmas
-/

theorem doKeysMatch_iff (a b : Nibbles) : doKeysMatch a b = true ↔ a = b := by
  constructor
  · intro h
    simp only [doKeysMatch, Bool.and_eq_true, beq_iff_eq] at h
    induction a generalizing b with
    | nil =>
      match b with
      | [] => rfl
      | x :: xs => simp [matchingNibbleLength] at h
    | cons x xs ih =>
      match b with
      | [] => simp [matchingNibbleLength] at h
      | y :: ys =>
        by_cases hxy : x = y
        · subst hxy
          simp [matchingNibbleLength] at h
          have := ih ys ⟨by omega, by omega⟩
          rw [this]
        · simp [matchingNibbleLength, hxy] at h
  · rintro rfl
    simp only [doKeysMatch, Bool.and_eq_true, beq_iff_eq]
    have : matchingNibbleLength a a = a.length := by
      induction a with
      | nil => rfl
      | cons x xs ih => simp [matchingNibbleLength, ih]
    exact ⟨this, this⟩

theorem matching_self (a : Nibbles) : matchingNibbleLength a a = a.length := by
  induction a with
  | nil => rfl
  | cons x xs ih => simp [matchingNibbleLength, ih]

theorem matching_le_left (a b : Nibbles) : matchingNibbleLength a b ≤ a.length := by
  induction a generalizing b with
  | nil => simp [matchingNibbleLength]
  | cons x xs ih =>
    match b with
    | [] => simp [matchingNibbleLength]
    | y :: ys =>
      by_cases hxy : x = y
      · simp only [matchingNibbleLength, if_pos hxy, List.length_cons]
        have := ih ys
        omega
      · simp only [matchingNibbleLength, if_neg hxy, List.length_cons]
        omega

theorem matching_le_right (a b : Nibbles) : matchingNibbleLength a b ≤ b.length := by
  induction a generalizing b with
  | nil => simp [matchingNibbleLength]
  | cons x xs ih =>
    match b with
    | [] => simp [matchingNibbleLength]
    | y :: ys =>
      by_cases hxy : x = y
      · simp only [matchingNibbleLength, if_pos hxy, List.length_cons]
        have := ih ys
        omega
      · simp only [matchingNibbleLength, if_neg hxy, List.length_cons]
        omega

theorem matching_full_take (k p : Nibbles) (h : matchingNibbleLength k p = p.length) :
    k.take p.length = p := by
  induction p generalizing k with
  | nil => simp
  | cons y ys ih =>
    match k with
    | [] => simp [matchingNibbleLength] at h
    | x :: xs =>
      by_cases hxy : x = y
      · subst hxy
        simp [matchingNibbleLength] at h
        simp only [List.length_cons, List.take_succ_cons]
        rw [ih xs (by omega)]
      · simp [matchingNibbleLength, hxy] at h

theorem matching_full_len (k p : Nibbles) (h : matchingNibbleLength k p = p.length) :
    p.length ≤ k.length := by
  have := matching_le_left k p
  omega

theorem matching_of_take_pre (k : Nibbles) (c : Nat) (h : c ≤ k.length) :
    matchingNibbleLength (k.take c) k = c := by
  induction k generalizing c with
  | nil =>
    simp only [List.length_nil, Nat.le_zero] at h
    simp [h, matchingNibbleLength]
  | cons x xs ih =>
    match c with
    | 0 => simp [matchingNibbleLength]
    | c + 1 =>
      simp only [List.length_cons] at h
      simp only [List.take_succ_cons]
      simp [matchingNibbleLength, ih c (by omega)]

theorem take_drop_cons (k : Nibbles) (c : Nat) (i : Nat) (rest : Nibbles)
    (h : k.drop c = i :: rest) :
    k.take (c + 1) = k.take c ++ [i] ∧ k.drop (c + 1) = rest := by
  constructor
  · rw [List.take_add, h]
    rfl
  · have h2 := congrArg (List.drop 1) h
    simpa [List.drop_drop, Nat.add_comm] using h2

theorem take_drop_seg (k p : Nibbles) (c : Nat)
    (h : matchingNibbleLength (k.drop c) p = p.length) :
    k.take (c + p.length) = k.take c ++ p ∧
      k.drop (c + p.length) = (k.drop c).drop p.length := by
  constructor
  · rw [List.take_add, matching_full_take _ _ h]
  · rw [List.drop_drop, Nat.add_comm c p.length]

theorem walkKids_getD (cs : List (Option PTree)) (i : Nat) (k : Nibbles) :
    walkKids cs i k = (cs.getD i none).map (fun t => walk t k) := by
  induction cs generalizing i with
  | nil => simp [walkKids, List.getD]
  | cons c rest ih =>
    match c, i with
    | none, 0 => simp [walkKids, List.getD_cons_zero]
    | some t, 0 => simp [walkKids, List.getD_cons_zero]
    | none, i + 1 =>
      have h1 : walkKids (none :: rest) (i + 1) k = walkKids rest i k := rfl
      rw [h1, ih i, List.getD_cons_succ]
    | some t, i + 1 =>
      have h1 : walkKids (some t :: rest) (i + 1) k = walkKids rest i k := rfl
      rw [h1, ih i, List.getD_cons_succ]

theorem walk_leaf (p : Nibbles) (v : Bytes) (k : Nibbles) :
    walk (.leafT p v) k = ⟨[], .leafT p v, k, doKeysMatch k p⟩ := rfl

theorem walk_ext_pos (p : Nibbles) (c : PTree) (k : Nibbles)
    (hm : matchingNibbleLength k p = p.length) :
    walk (.extT p c) k =
      ⟨.exF p c :: (walk c (k.drop p.length)).frames,
       (walk c (k.drop p.length)).last, (walk c (k.drop p.length)).rem,
       (walk c (k.drop p.length)).found⟩ := by
  rw [walk, if_pos hm]

theorem walk_ext_neg (p : Nibbles) (c : PTree) (k : Nibbles)
    (hm : ¬matchingNibbleLength k p = p.length) :
    walk (.extT p c) k = ⟨[], .extT p c, k, false⟩ := by
  rw [walk, if_neg hm]

theorem walk_branch_nil (cs : List (Option PTree)) (v : Option Bytes) :
    walk (.branchT cs v) [] = ⟨[], .branchT cs v, [], true⟩ := rfl

theorem walk_branch_none (cs : List (Option PTree)) (v : Option Bytes)
    (i : Nat) (rest : Nibbles) (hc : cs.getD i none = none) :
    walk (.branchT cs v) (i :: rest) = ⟨[], .branchT cs v, i :: rest, false⟩ := by
  rw [walk, walkKids_getD, hc]
  rfl

theorem walk_branch_some (cs : List (Option PTree)) (v : Option Bytes)
    (i : Nat) (rest : Nibbles) (c : PTree) (hc : cs.getD i none = some c) :
    walk (.branchT cs v) (i :: rest) =
      ⟨.brF cs v i :: (walk c rest).frames, (walk c rest).last,
       (walk c rest).rem, (walk c rest).found⟩ := by
  rw [walk, walkKids_getD, hc]
  rfl

theorem tsize_pos (t : PTree) : 1 ≤ tsize t := by
  cases t <;> simp [tsize]

theorem tsizeL_getD (cs : List (Option PTree)) (i : Nat) (c : PTree)
    (h : cs.getD i none = some c) : tsize c ≤ tsizeL cs := by
  induction cs generalizing i with
  | nil => simp [List.getD] at h
  | cons hd rest ih =>
    match hd, i with
    | none, 0 => simp [List.getD_cons_zero] at h
    | some t, 0 =>
      rw [List.getD_cons_zero] at h
      injection h with h
      subst h
      simp only [tsizeL]
      omega
    | hd, i + 1 =>
      have hh : rest.getD i none = some c := h
      have := ih i hh
      cases hd <;> simp only [tsizeL] <;> omega

theorem walk_key (N : Nat) : ∀ t : PTree, tsize t ≤ N → ∀ k,
    framesKey (walk t k).frames ++ (walk t k).rem = k := by
  induction N with
  | zero =>
    intro t ht
    have := tsize_pos t
    omega
  | succ N ih =>
    intro t ht k
    cases t with
    | leafT p v => simp [walk_leaf, framesKey]
    | extT p c =>
      by_cases hm : matchingNibbleLength k p = p.length
      · rw [walk_ext_pos p c k hm]
        have hsz : tsize c ≤ N := by
          simp only [tsize] at ht
          omega
        have hih := ih c hsz (k.drop p.length)
        simp only [framesKey, List.map_cons, List.flatten_cons, segOf, List.append_assoc]
        simp only [framesKey] at hih
        rw [hih]
        conv_rhs => rw [← List.take_append_drop p.length k]
        rw [matching_full_take k p hm]
      · rw [walk_ext_neg p c k hm]
        simp [framesKey]
    | branchT cs v =>
      match k with
      | [] => simp [walk_branch_nil, framesKey]
      | i :: rest =>
        match hc : cs.getD i none with
        | none =>
          rw [walk_branch_none cs v i rest hc]
          simp [framesKey]
        | some c =>
          rw [walk_branch_some cs v i rest c hc]
          have hsz : tsize c ≤ N := by
            have := tsizeL_getD cs i c hc
            simp only [tsize] at ht
            omega
          have hih := ih c hsz rest
          simp only [framesKey, List.map_cons, List.flatten_cons, segOf]
          simp only [framesKey] at hih
          simp [hih]

/-!
## Render and lookup lemmas
-/

theorem renderKids_length (H : Bytes → Bytes) (cs : List (Option PTree)) :
    (renderKids H cs).length = cs.length := by
  induction cs with
  | nil => rfl
  | cons c rest ih =>
    cases c <;> simp only [renderKids, List.length_cons, ih]

theorem renderKids_norm (H : Bytes → Bytes) (cs : List (Option PTree)) :
    (renderKids H cs).map (fun c => some (c.getD (.str []))) = renderKids H cs := by
  induction cs with
  | nil => rfl
  | cons c rest ih =>
    cases c <;> simp only [renderKids, List.map_cons, Option.getD_some, ih]

theorem normNode_render (H : Bytes → Bytes) (t : PTree) :
    normNode (renderNode H t) = renderNode H t := by
  cases t with
  | leafT p v => rfl
  | extT p c => rfl
  | branchT cs v =>
    show TrieNode.branch _ _ = _
    rw [show renderNode H (.branchT cs v)
        = .branch (renderKids H cs) (some (v.getD [])) from rfl]
    simp only [normNode, renderKids_norm, Option.getD_some]

theorem nodeRaw_list (n : TrieNode) : ∃ items, nodeRaw n = .list items := by
  cases n <;> exact ⟨_, rfl⟩

theorem rlpItemLength_nodeRaw_pos (n : TrieNode) : 0 < rlpItemLength (nodeRaw n) := by
  cases n with
  | leaf k v => simp [nodeRaw, rlpItemLength]
  | ext k c => simp [nodeRaw, rlpItemLength]
  | branch cs v => simp [nodeRaw, rlpItemLength]

theorem refFn_len_pos (H : Bytes → Bytes) (HLen : ∀ bs, (H bs).length = 32)
    (n : TrieNode) : 0 < rlpItemLength (refFn H n) := by
  rw [refFn]
  split_ifs with h
  · simp [rlpItemLength, HLen]
  · exact rlpItemLength_nodeRaw_pos n

theorem nodeWF_itemWF (n : TrieNode) (h : nodeWF n = true) :
    itemWF (nodeRaw n) = true := by
  cases n <;> simp only [nodeWF, Bool.and_eq_true] at h <;> exact h.2

theorem decodeRawNode_ser (n : TrieNode) (items : List RLPItem)
    (hwf : nodeWF n = true) (hitems : nodeRaw n = .list items) :
    decodeRawNode items = .ok (normNode n) := by
  have h1 := decodeNode_serialize n hwf
  rw [decodeNode, nodeSerialize, rlpDecode_rlpEncode _ (nodeWF_itemWF n hwf), hitems] at h1
  exact h1

theorem getBranch_renderKids (H : Bytes → Bytes) (HLen : ∀ bs, (H bs).length = 32)
    (cs : List (Option PTree)) (i : Nat) :
    getBranch (renderKids H cs) i = (cs.getD i none).map (fun c => refOfT H c) := by
  induction cs generalizing i with
  | nil => simp [renderKids, getBranch, List.getD]
  | cons c rest ih =>
    match c, i with
    | none, 0 =>
      simp [renderKids, getBranch, List.getD_cons_zero, rlpItemLength]
    | some t, 0 =>
      simp only [renderKids, getBranch, List.getD_cons_zero, Option.map_some]
      rw [if_pos (refFn_len_pos H HLen (renderNode H t))]
      rfl
    | none, i + 1 =>
      simp only [renderKids, getBranch, List.getD_cons_succ]
      have := ih i
      simp only [getBranch] at this
      exact this
    | some t, i + 1 =>
      simp only [renderKids, getBranch, List.getD_cons_succ]
      have := ih i
      simp only [getBranch] at this
      exact this

theorem lookupNode_str (s : Trie) (n : TrieNode) (h : Bytes)
    (hwf : nodeWF n = true)
    (hdb : dbGet s.db h = some (nodeSerialize n)) :
    lookupNode s (.str h) = .ok (normNode n) := by
  rw [lookupNode, hdb]
  exact decodeNode_serialize n hwf

theorem lookupNode_tree (H : Bytes → Bytes) (s : Trie) (t : PTree)
    (hwf : nodeWF (renderNode H t) = true)
    (hdb : childInDb H s.db t = true) :
    lookupNode s (refOfT H t) = .ok (renderNode H t) := by
  rw [refOfT, refFn]
  split_ifs with hlen
  · rw [childInDb] at hdb
    simp only [serOfT] at hdb
    rw [if_pos hlen, beq_iff_eq] at hdb
    have hres := lookupNode_str s (renderNode H t)
      (H (nodeSerialize (renderNode H t))) hwf hdb
    rw [normNode_render H t] at hres
    exact hres
  · obtain ⟨items, hitems⟩ := nodeRaw_list (renderNode H t)
    rw [hitems]
    show decodeRawNode items = _
    rw [decodeRawNode_ser _ items hwf hitems, normNode_render]

theorem treeOK_nodeWF (H : Bytes → Bytes) (t : PTree) (h : treeOK H t = true) :
    nodeWF (renderNode H t) = true := by
  cases t with
  | leafT p v =>
    simp only [treeOK, Bool.and_eq_true] at h
    exact h.2
  | extT p c =>
    simp only [treeOK, Bool.and_eq_true] at h
    exact h.1.2
  | branchT cs v =>
    simp only [treeOK, Bool.and_eq_true] at h
    exact h.1.2

theorem treeOK_ext (H : Bytes → Bytes) (p : Nibbles) (c : PTree)
    (h : treeOK H (.extT p c) = true) : treeOK H c = true := by
  simp only [treeOK, Bool.and_eq_true] at h
  exact h.2

theorem treeOK_branch_len (H : Bytes → Bytes) (cs : List (Option PTree))
    (v : Option Bytes) (h : treeOK H (.branchT cs v) = true) : cs.length = 16 := by
  simp only [treeOK, Bool.and_eq_true, beq_iff_eq] at h
  exact h.1.1.1

theorem treeOK_kidsOK (H : Bytes → Bytes) (cs : List (Option PTree))
    (v : Option Bytes) (h : treeOK H (.branchT cs v) = true) : kidsOK H cs = true := by
  simp only [treeOK, Bool.and_eq_true] at h
  exact h.2

theorem kidsOK_getD (H : Bytes → Bytes) (cs : List (Option PTree)) (i : Nat) (c : PTree)
    (hk : kidsOK H cs = true) (hc : cs.getD i none = some c) : treeOK H c = true := by
  induction cs generalizing i with
  | nil => simp [List.getD] at hc
  | cons hd rest ih =>
    match hd, i with
    | none, 0 => simp [List.getD_cons_zero] at hc
    | some t, 0 =>
      rw [List.getD_cons_zero] at hc
      injection hc with hc
      subst hc
      simp only [kidsOK, Bool.and_eq_true] at hk
      exact hk.1
    | none, i + 1 =>
      exact ih i (by simpa [kidsOK] using hk) hc
    | some t, i + 1 =>
      simp only [kidsOK, Bool.and_eq_true] at hk
      exact ih i hk.2 hc

theorem treeInDb_ext (H : Bytes → Bytes) (db : DB) (p : Nibbles) (c : PTree)
    (h : treeInDb H db (.extT p c) = true) :
    childInDb H db c = true ∧ treeInDb H db c = true := by
  simp only [treeInDb, Bool.and_eq_true] at h
  exact h

theorem kidsInDb_getD (H : Bytes → Bytes) (db : DB) (cs : List (Option PTree))
    (i : Nat) (c : PTree)
    (hk : kidsInDb H db cs = true) (hc : cs.getD i none = some c) :
    childInDb H db c = true ∧ treeInDb H db c = true := by
  induction cs generalizing i with
  | nil => simp [List.getD] at hc
  | cons hd rest ih =>
    match hd, i with
    | none, 0 => simp [List.getD_cons_zero] at hc
    | some t, 0 =>
      rw [List.getD_cons_zero] at hc
      injection hc with hc
      subst hc
      simp only [kidsInDb, Bool.and_eq_true] at hk
      exact hk.1
    | none, i + 1 =>
      exact ih i (by simpa [kidsInDb] using hk) hc
    | some t, i + 1 =>
      simp only [kidsInDb, Bool.and_eq_true] at hk
      exact ih i hk.2 hc

theorem treeInDb_branch (H : Bytes → Bytes) (db : DB) (cs : List (Option PTree))
    (v : Option Bytes) (h : treeInDb H db (.branchT cs v) = true) :
    kidsInDb H db cs = true := h

/-!
## findPath unfolding
-/

theorem findPathGo_leaf (s : Trie) (tk : Nibbles) (fuel : Nat) (r : RLPItem)
    (kp : Nibbles) (stack : List TrieNode) (lk : Nibbles) (lv : Bytes)
    (h : lookupNode s r = .ok (.leaf lk lv)) :
    findPathGo s tk (fuel + 1) r kp stack =
      (if doKeysMatch (tk.drop (matchingNibbleLength kp tk)) lk then
        .ok (some ⟨some (.leaf lk lv), [], stack ++ [.leaf lk lv]⟩, stack ++ [.leaf lk lv])
      else
        .ok (some ⟨none, tk.drop (matchingNibbleLength kp tk), stack ++ [.leaf lk lv]⟩,
             stack ++ [.leaf lk lv])) := by
  rw [findPathGo, h]

theorem findPathGo_ext (s : Trie) (tk : Nibbles) (fuel : Nat) (r : RLPItem)
    (kp : Nibbles) (stack : List TrieNode) (ek : Nibbles) (ec : RLPItem)
    (h : lookupNode s r = .ok (.ext ek ec)) :
    findPathGo s tk (fuel + 1) r kp stack =
      (if matchingNibbleLength (tk.drop (matchingNibbleLength kp tk)) ek ≠ ek.length then
        .ok (some ⟨none, tk.drop (matchingNibbleLength kp tk), stack ++ [.ext ek ec]⟩,
             stack ++ [.ext ek ec])
      else findPathGo s tk fuel ec (kp ++ ek) (stack ++ [.ext ek ec])) := by
  rw [findPathGo, h]

theorem findPathGo_branch (s : Trie) (tk : Nibbles) (fuel : Nat) (r : RLPItem)
    (kp : Nibbles) (stack : List TrieNode) (ch : List (Option RLPItem))
    (bv : Option Bytes)
    (h : lookupNode s r = .ok (.branch ch bv)) :
    findPathGo s tk (fuel + 1) r kp stack =
      (if (tk.drop (matchingNibbleLength kp tk)).length = 0 then
        .ok (some ⟨some (.branch ch bv), [], stack ++ [.branch ch bv]⟩,
             stack ++ [.branch ch bv])
      else
        match getBranch ch ((tk.drop (matchingNibbleLength kp tk)).headD 0) with
        | none =>
          .ok (some ⟨none, tk.drop (matchingNibbleLength kp tk), stack ++ [.branch ch bv]⟩,
               stack ++ [.branch ch bv])
        | some branchNode =>
          findPathGo s tk fuel branchNode
            (kp ++ [(tk.drop (matchingNibbleLength kp tk)).headD 0])
            (stack ++ [.branch ch bv])) := by
  rw [findPathGo, h]

/-- The walk of `findPathGo` from a represented subtree is the pure walk:
it resolves to the rendered terminal node, the reported remainder, and the
stack of rendered frame nodes. -/
theorem findPathGo_sim (H : Bytes → Bytes) (HLen : ∀ bs, (H bs).length = 32)
    (s : Trie) (tk : Nibbles) :
    ∀ N : Nat, ∀ t : PTree, tsize t ≤ N →
    treeOK H t = true → treeInDb H s.db t = true →
    ∀ r : RLPItem, lookupNode s r = .ok (renderNode H t) →
    ∀ (fuel c : Nat) (stack : List TrieNode), tsize t ≤ fuel → c ≤ tk.length →
    findPathGo s tk fuel r (tk.take c) stack =
      .ok (some ⟨(if (walk t (tk.drop c)).found then
                    some (renderNode H (walk t (tk.drop c)).last) else none),
                 (if (walk t (tk.drop c)).found then [] else (walk t (tk.drop c)).rem),
                 stack ++ (walk t (tk.drop c)).frames.map (frameNode H)
                   ++ [renderNode H (walk t (tk.drop c)).last]⟩,
           stack ++ (walk t (tk.drop c)).frames.map (frameNode H)
             ++ [renderNode H (walk t (tk.drop c)).last]) := by
  intro N
  induction N with
  | zero =>
    intro t ht
    have := tsize_pos t
    omega
  | succ N ih =>
    intro t ht hok hdb r hr fuel c stack hfuel hc
    obtain ⟨f, rfl⟩ : ∃ f, fuel = f + 1 :=
      ⟨fuel - 1, by have := tsize_pos t; omega⟩
    have hmc : matchingNibbleLength (tk.take c) tk = c := matching_of_take_pre tk c hc
    cases t with
    | leafT p v =>
      rw [findPathGo_leaf s tk f r (tk.take c) stack p v hr, hmc, walk_leaf]
      by_cases hd : doKeysMatch (tk.drop c) p = true
      · simp [hd, renderNode]
      · rw [Bool.not_eq_true] at hd
        simp [hd, renderNode]
    | extT p ec =>
      have hnode : renderNode H (.extT p ec) = .ext p (refFn H (renderNode H ec)) := rfl
      rw [hnode] at hr
      rw [findPathGo_ext s tk f r (tk.take c) stack p (refFn H (renderNode H ec)) hr, hmc]
      by_cases hm : matchingNibbleLength (tk.drop c) p = p.length
      · rw [if_neg (by omega)]
        rw [walk_ext_pos p ec (tk.drop c) hm]
        have hseg := take_drop_seg tk p c hm
        have hplen : p.length ≤ tk.length - c := by
          have := matching_full_len _ _ hm
          have hld : (tk.drop c).length = tk.length - c := List.length_drop c tk
          omega
        have hok2 := treeOK_ext H p ec hok
        have hdb2 := treeInDb_ext H s.db p ec hdb
        have hsz : tsize ec ≤ N := by
          simp only [tsize] at ht
          omega
        have hrec := ih ec hsz hok2 hdb2.2 (refOfT H ec)
          (lookupNode_tree H s ec (treeOK_nodeWF H ec hok2) hdb2.1)
          f (c + p.length) (stack ++ [.ext p (refFn H (renderNode H ec))])
          (by simp only [tsize] at hfuel; omega)
          (by omega)
        rw [hseg.1, refOfT] at hrec
        rw [hrec, hseg.2]
        have hfr : frameNode H (.exF p ec) = .ext p (refFn H (renderNode H ec)) := rfl
        simp [hfr, List.append_assoc]
      · rw [if_pos (by omega)]
        rw [walk_ext_neg p ec (tk.drop c) hm]
        simp [hnode]
    | branchT cs v =>
      have hnode : renderNode H (.branchT cs v)
          = .branch (renderKids H cs) (some (v.getD [])) := rfl
      rw [hnode] at hr
      rw [findPathGo_branch s tk f r (tk.take c) stack (renderKids H cs) (some (v.getD [])) hr,
          hmc]
      match hrem : tk.drop c with
      | [] =>
        rw [walk_branch_nil]
        simp [hnode]
      | i :: rest =>
        rw [if_neg (by simp)]
        have hhead : (i :: rest).headD 0 = i := rfl
        rw [hhead, getBranch_renderKids H HLen cs i]
        match hch : cs.getD i none with
        | none =>
          rw [walk_branch_none cs v i rest hch]
          simp [hnode]
        | some child =>
          simp only [Option.map_some']
          rw [walk_branch_some cs v i rest child hch]
          have htd := take_drop_cons tk c i rest hrem
          have hok2 := kidsOK_getD H cs i child (treeOK_kidsOK H cs v hok) hch
          have hdb2 := kidsInDb_getD H s.db cs i child (treeInDb_branch H s.db cs v hdb) hch
          have hsz : tsize child ≤ N := by
            have := tsizeL_getD cs i child hch
            simp only [tsize] at ht
            omega
          have hc1 : c + 1 ≤ tk.length := by
            have hld : (tk.drop c).length = tk.length - c := List.length_drop c tk
            rw [hrem] at hld
            simp only [List.length_cons] at hld
            omega
          have hrec := ih child hsz hok2 hdb2.2 (refOfT H child)
            (lookupNode_tree H s child (treeOK_nodeWF H child hok2) hdb2.1)
            f (c + 1) (stack ++ [.branch (renderKids H cs) (some (v.getD []))])
            (by have := tsizeL_getD cs i child hch; simp only [tsize] at hfuel; omega)
            hc1
          rw [htd.1] at hrec
          rw [hrec, htd.2]
          have hfr : frameNode H (.brF cs v i)
              = .branch (renderKids H cs) (some (v.getD [])) := rfl
          simp [hfr, List.append_assoc]

theorem reprTrie_some_elim (H : Bytes → Bytes) (T : Trie) (t : PTree)
    (h : reprTrie H T (some t) = true) :
    T.root = H (serOfT H t) ∧ dbGet T.db (H (serOfT H t)) = some (serOfT H t) ∧
      treeInDb H T.db t = true := by
  simp only [reprTrie, Bool.and_eq_true, beq_iff_eq] at h
  exact ⟨h.1.1, h.1.2, h.2⟩

theorem walk_last_ok (H : Bytes → Bytes) : ∀ N : Nat, ∀ t : PTree, tsize t ≤ N →
    treeOK H t = true → ∀ k,
    treeOK H (walk t k).last = true ∧
      ((walk t k).found = true → ∀ p c, (walk t k).last ≠ .extT p c) := by
  intro N
  induction N with
  | zero =>
    intro t ht
    have := tsize_pos t
    omega
  | succ N ih =>
    intro t ht hok k
    cases t with
    | leafT p v =>
      rw [walk_leaf]
      exact ⟨hok, fun _ p c h => by cases h⟩
    | extT p ec =>
      by_cases hm : matchingNibbleLength k p = p.length
      · rw [walk_ext_pos p ec k hm]
        exact ih ec (by simp only [tsize] at ht; omega) (treeOK_ext H p ec hok) _
      · rw [walk_ext_neg p ec k hm]
        exact ⟨hok, fun hfound => by cases hfound⟩
    | branchT cs v =>
      match k with
      | [] =>
        rw [walk_branch_nil]
        exact ⟨hok, fun _ p c h => by cases h⟩
      | i :: rest =>
        match hch : cs.getD i none with
        | none =>
          rw [walk_branch_none cs v i rest hch]
          exact ⟨hok, fun hfound => by cases hfound⟩
        | some child =>
          rw [walk_branch_some cs v i rest child hch]
          have hszc : tsize child ≤ N := by
            have := tsizeL_getD cs i child hch
            simp only [tsize] at ht
            omega
          exact ih child hszc (kidsOK_getD H cs i child (treeOK_kidsOK H cs v hok) hch) rest

theorem nodeValue_render_terminal (H : Bytes → Bytes) (t : PTree)
    (hok : treeOK H t = true) (hne : ∀ p c, t ≠ PTree.extT p c) :
    nodeValue (renderNode H t) = treeValueT t := by
  cases t with
  | leafT p v => rfl
  | extT p c => exact absurd rfl (hne p c)
  | branchT cs v =>
    show nodeValue (.branch (renderKids H cs) (some (v.getD []))) = v
    match v with
    | none => rfl
    | some b =>
      simp only [treeOK, Bool.and_eq_true] at hok
      have h2 := hok.1.1.2.1
      simp only [nodeValue, Option.getD_some]
      rw [if_pos (by cases b with
        | nil => simp at h2
        | cons x xs => simp)]

/-- `findPath` on a represented non-empty trie resolves the pure walk. -/
theorem findPathAux_sim (H : Bytes → Bytes) (HLen : ∀ bs, (H bs).length = 32)
    (s : Trie) (t : PTree) (hok : treeOK H t = true)
    (hrepr : reprTrie H s (some t) = true) (key : Bytes) (tim : Bool) (fuel : Nat)
    (hfuel : tsize t ≤ fuel) :
    findPathAux s key tim fuel =
      .ok ⟨(if (walk t (bufferToNibbles key)).found then
              some (renderNode H (walk t (bufferToNibbles key)).last) else none),
           (if (walk t (bufferToNibbles key)).found then []
            else (walk t (bufferToNibbles key)).rem),
           (walk t (bufferToNibbles key)).frames.map (frameNode H)
             ++ [renderNode H (walk t (bufferToNibbles key)).last]⟩ := by
  obtain ⟨h1, h2, h3⟩ := reprTrie_some_elim H s t hrepr
  have hlook : lookupNode s (.str s.root) = .ok (renderNode H t) := by
    rw [h1]
    have := lookupNode_str s (renderNode H t) (H (serOfT H t))
      (treeOK_nodeWF H t hok) h2
    rw [normNode_render H t] at this
    exact this
  have hgo := findPathGo_sim H HLen s (bufferToNibbles key) (tsize t) t le_rfl hok h3
    (.str s.root) hlook fuel 0 [] hfuel (Nat.zero_le _)
  rw [List.take_zero, List.drop_zero] at hgo
  rw [findPathAux, hgo]
  rfl

/-- `get` on a represented non-empty trie is the pure lookup. -/
theorem get_tree (H : Bytes → Bytes) (HLen : ∀ bs, (H bs).length = 32)
    (s : Trie) (t : PTree) (hok : treeOK H t = true)
    (hrepr : reprTrie H s (some t) = true) (key : Bytes) (tim : Bool) (fuel : Nat)
    (hfuel : tsize t ≤ fuel) (hKH : s.useHashedKeys = false) :
    get H s key tim fuel = .ok (getT t (bufferToNibbles key), s) := by
  have hak : appliedKey H s key = key := by
    rw [appliedKey, hKH]
    simp
  rw [get, hak, findPathAux_sim H HLen s t hok hrepr key tim fuel hfuel]
  rw [ok_bind]
  have hlast := walk_last_ok H (tsize t) t le_rfl hok (bufferToNibbles key)
  match hfound : (walk t (bufferToNibbles key)).found with
  | false =>
    simp only [getT, hfound, Bool.false_eq_true, if_false]
    rfl
  | true =>
    have hnv := nodeValue_render_terminal H (walk t (bufferToNibbles key)).last
      hlast.1 (hlast.2 hfound)
    simp only [getT, hfound, eq_self_iff_true, if_true, hnv]
    rfl

/-!
## Save-stack spine lemmas
-/

theorem formatNode_child (H : Bytes → Bytes) (s : Trie) (n : TrieNode)
    (ops : List BatchOp) :
    formatNode H s n false ops false =
      (refFn H n,
       ops ++ (if 32 ≤ (nodeSerialize n).length then
                [BatchOp.put (H (nodeSerialize n)) (some (nodeSerialize n))]
              else [])) := by
  rw [formatNode, refFn]
  by_cases h : 32 ≤ (nodeSerialize n).length
  · rw [if_pos (Or.inl h), if_pos h, if_pos h]
    simp
  · rw [if_neg (by simp [h]), if_neg h, if_neg h]
    simp

theorem formatNode_top (H : Bytes → Bytes) (s : Trie) (n : TrieNode)
    (ops : List BatchOp) :
    formatNode H s n true ops false =
      (.str (H (nodeSerialize n)),
       ops ++ [BatchOp.put (H (nodeSerialize n)) (some (nodeSerialize n))]) := by
  rw [formatNode, if_pos (Or.inr rfl)]
  simp

theorem renderKids_set (H : Bytes → Bytes) (cs : List (Option PTree)) (i : Nat)
    (sub : PTree) :
    renderKids H (cs.set i (some sub)) =
      (renderKids H cs).set i (some (refOfT H sub)) := by
  induction cs generalizing i with
  | nil => cases i <;> rfl
  | cons c rest ih =>
    match c, i with
    | none, 0 => rfl
    | some t, 0 => rfl
    | none, i + 1 =>
      show some (RLPItem.str []) :: renderKids H (rest.set i (some sub))
          = (some (RLPItem.str []) :: renderKids H rest).set (i + 1) (some (refOfT H sub))
      rw [List.set_cons_succ, ih i]
    | some t, i + 1 =>
      show some (refFn H (renderNode H t)) :: renderKids H (rest.set i (some sub))
          = (some (refFn H (renderNode H t)) :: renderKids H rest).set (i + 1)
            (some (refOfT H sub))
      rw [List.set_cons_succ, ih i]

theorem keyOfR_reverse (fs : List Frame) : keyOfR fs.reverse = framesKey fs := by
  have hgen : ∀ (f : Frame) (rs : List Frame),
      keyOfR (rs ++ [f]) = segOf f ++ keyOfR rs := by
    intro f rs
    induction rs with
    | nil => simp [keyOfR]
    | cons g grest gih =>
      show keyOfR (grest ++ [f]) ++ segOf g = segOf f ++ (keyOfR grest ++ segOf g)
      rw [gih, List.append_assoc]
  induction fs with
  | nil => rfl
  | cons f rest ih =>
    rw [List.reverse_cons, hgen f rest.reverse, ih]
    rfl

theorem plugR_reverse (fs : List Frame) (sub : PTree) :
    plugR fs.reverse sub = plug fs sub := by
  rw [plugR, plug, List.foldl_reverse]

theorem mapSet {A B : Type} (f : A → B) (l : List A) (i : Nat) (x : A) :
    (l.set i x).map f = (l.map f).set i (f x) := by
  induction l generalizing i with
  | nil => rfl
  | cons a rest ih =>
    match i with
    | 0 => rfl
    | i + 1 =>
      show f a :: (rest.set i x).map f = f a :: (rest.map f).set i (f x)
      rw [ih i]

theorem serialize_raw_congr (a b : TrieNode) (h : nodeRaw a = nodeRaw b) :
    nodeSerialize a = nodeSerialize b := by
  rw [nodeSerialize, nodeSerialize, h]

theorem refFn_raw_congr (H : Bytes → Bytes) (a b : TrieNode) (h : nodeRaw a = nodeRaw b) :
    refFn H a = refFn H b := by
  rw [refFn, refFn, serialize_raw_congr a b h, h]

theorem branch_patch_raw (H : Bytes → Bytes) (cs : List (Option PTree))
    (v : Option Bytes) (i : Nat) (ch : List (Option RLPItem)) (bv : Option Bytes)
    (hfit : frameFits H (.brF cs v i) (.branch ch bv)) (sub : PTree) :
    nodeRaw (.branch (ch.set i (some (refOfT H sub))) bv)
      = nodeRaw (renderNode H (plugOne (.brF cs v i) sub)) := by
  obtain ⟨h1, h2⟩ := hfit
  rw [show plugOne (.brF cs v i) sub = .branchT (cs.set i (some sub)) v from rfl]
  rw [show renderNode H (.branchT (cs.set i (some sub)) v)
      = .branch (renderKids H (cs.set i (some sub))) (some (v.getD [])) from rfl]
  rw [nodeRaw, nodeRaw, renderKids_set]
  rw [mapSet, mapSet, h1, h2]
  rfl

theorem branch_bottom_raw (H : Bytes → Bytes) (cs : List (Option PTree))
    (v : Option Bytes) (ch : List (Option RLPItem)) (bv : Option Bytes)
    (hfit : bottomFits H (.branchT cs v) (.branch ch bv)) :
    nodeRaw (.branch ch bv) = nodeRaw (renderNode H (.branchT cs v)) := by
  obtain ⟨h1, h2⟩ := hfit
  rw [show renderNode H (.branchT cs v)
      = .branch (renderKids H cs) (some (v.getD [])) from rfl]
  rw [nodeRaw, nodeRaw, h1, h2]
  rfl

theorem frameFits_frameNode (H : Bytes → Bytes) (f : Frame) :
    frameFits H f (frameNode H f) := by
  cases f with
  | brF cs v i => exact ⟨rfl, rfl⟩
  | exF p c => rfl

theorem fitsAll_frameNode (H : Bytes → Bytes) (fs : List Frame) :
    FitsAll H fs (fs.map (frameNode H)) := by
  induction fs with
  | nil => exact FitsAll.nil
  | cons f rest ih => exact FitsAll.cons (frameFits_frameNode H f) ih

theorem fitsAll_append (H : Bytes → Bytes) {fs gs : List Frame}
    {ns ms : List TrieNode} (h1 : FitsAll H fs ns) (h2 : FitsAll H gs ms) :
    FitsAll H (fs ++ gs) (ns ++ ms) := by
  induction h1 with
  | nil => exact h2
  | cons hf hrest ih => exact FitsAll.cons hf ih

theorem formatNode_child_of_raw (H : Bytes → Bytes) (s : Trie) (n : TrieNode)
    (t : PTree) (h : nodeRaw n = nodeRaw (renderNode H t)) (ops : List BatchOp) :
    formatNode H s n false ops false = (refOfT H t, ops ++ writeFor H t) := by
  rw [formatNode_child]
  rw [refFn_raw_congr H n (renderNode H t) h,
      serialize_raw_congr n (renderNode H t) h]
  rw [show refFn H (renderNode H t) = refOfT H t from rfl]
  rw [show (if 32 ≤ (nodeSerialize (renderNode H t)).length then
        [BatchOp.put (H (nodeSerialize (renderNode H t)))
          (some (nodeSerialize (renderNode H t)))]
      else []) = writeFor H t from by rw [writeFor, serOfT]]

theorem formatNode_top_of_raw (H : Bytes → Bytes) (s : Trie) (n : TrieNode)
    (t : PTree) (h : nodeRaw n = nodeRaw (renderNode H t)) (ops : List BatchOp) :
    formatNode H s n true ops false =
      (.str (H (serOfT H t)),
       ops ++ [BatchOp.put (H (serOfT H t)) (some (serOfT H t))]) := by
  rw [formatNode_top, serialize_raw_congr n (renderNode H t) h]
  rfl

theorem saveSpineGo (H : Bytes → Bytes) (s : Trie) :
    ∀ {rs : List Frame} {ns : List TrieNode}, FitsAll H rs ns →
    ∀ (sub : PTree) (key0 : Nibbles) (ops : List BatchOp),
    saveStackPart H s ns (key0 ++ keyOfR rs) (some (refOfT H sub)) ops
      = (key0, some (refOfT H (plugR rs sub)), ops ++ chainOps H rs sub) := by
  intro rs ns hforall
  induction hforall with
  | nil =>
    intro sub key0 ops
    simp [saveStackPart, keyOfR, plugR, chainOps]
  | cons hfit hrest ih =>
    intro sub key0 ops
    rename_i f n rs ns
    match f, n, hfit with
    | .exF p c, .ext q c0, hfit =>
      have hq : q = p := hfit
      subst hq
      have hstep : saveStackStep (.ext q c0)
          (key0 ++ keyOfR (.exF q c :: rs)) (some (refOfT H sub)) =
          ((key0 ++ keyOfR (.exF q c :: rs)).take
            ((key0 ++ keyOfR (.exF q c :: rs)).length - q.length),
           .ext q (refOfT H sub)) := rfl
      have hkey : (key0 ++ keyOfR (.exF q c :: rs)).take
          ((key0 ++ keyOfR (.exF q c :: rs)).length - q.length)
          = key0 ++ keyOfR rs := by
        rw [show keyOfR (.exF q c :: rs) = keyOfR rs ++ segOf (.exF q c) from rfl]
        rw [show segOf (Frame.exF q c) = q from rfl]
        rw [← List.append_assoc]
        rw [show ((key0 ++ keyOfR rs) ++ q).length - q.length
            = (key0 ++ keyOfR rs).length from by rw [List.length_append]; omega]
        exact takeLenApp _ _
      rw [saveStackPart, hstep]
      simp only []
      rw [hkey]
      rw [formatNode_child_of_raw H s (.ext q (refOfT H sub)) (plugOne (.exF q c) sub)
        rfl ops]
      rw [ih (plugOne (.exF q c) sub) key0 _]
      rw [show plugR (.exF q c :: rs) sub = plugR rs (plugOne (.exF q c) sub) from rfl]
      rw [show chainOps H (.exF q c :: rs) sub
          = writeFor H (plugOne (.exF q c) sub)
            ++ chainOps H rs (plugOne (.exF q c) sub) from rfl]
      rw [List.append_assoc]
    | .brF cs v i, .branch ch bv, hfit =>
      have hlast : (key0 ++ keyOfR (.brF cs v i :: rs)).getLast? = some i := by
        rw [show keyOfR (.brF cs v i :: rs) = keyOfR rs ++ [i] from rfl,
            ← List.append_assoc]
        exact List.getLast?_concat _
      have hdrop : (key0 ++ keyOfR (.brF cs v i :: rs)).dropLast
          = key0 ++ keyOfR rs := by
        rw [show keyOfR (.brF cs v i :: rs) = keyOfR rs ++ [i] from rfl,
            ← List.append_assoc]
        exact List.dropLast_concat
      have hstep : saveStackStep (.branch ch bv)
          (key0 ++ keyOfR (.brF cs v i :: rs)) (some (refOfT H sub)) =
          ((key0 ++ keyOfR (.brF cs v i :: rs)).dropLast,
           .branch (ch.set i (some (refOfT H sub))) bv) := by
        rw [saveStackStep, hlast]
      rw [saveStackPart, hstep]
      simp only []
      rw [hdrop]
      rw [formatNode_child_of_raw H s _ (plugOne (.brF cs v i) sub)
        (branch_patch_raw H cs v i ch bv hfit sub) ops]
      rw [ih (plugOne (.brF cs v i) sub) key0 _]
      rw [show plugR (.brF cs v i :: rs) sub = plugR rs (plugOne (.brF cs v i) sub) from rfl]
      rw [show chainOps H (.brF cs v i :: rs) sub
          = writeFor H (plugOne (.brF cs v i) sub)
            ++ chainOps H rs (plugOne (.brF cs v i) sub) from rfl]
      rw [List.append_assoc]

theorem saveStackPart_bottom (H : Bytes → Bytes) (s : Trie) (sub : PTree)
    (n : TrieNode) (hfit : bottomFits H sub n)
    (rest : List TrieNode) (pre : Nibbles) (ops : List BatchOp) :
    saveStackPart H s (n :: rest) (pre ++ bottomSeg sub) none ops =
      saveStackPart H s rest pre (some (refOfT H sub)) (ops ++ writeFor H sub) := by
  cases sub with
  | leafT p v =>
    have hn : n = .leaf p v := hfit
    subst hn
    show saveStackPart H s (TrieNode.leaf p v :: rest) (pre ++ p) none ops = _
    rw [saveStackPart]
    have hstep : saveStackStep (.leaf p v) (pre ++ p) none =
        ((pre ++ p).take ((pre ++ p).length - p.length), .leaf p v) := rfl
    rw [hstep]
    simp only []
    rw [show ((pre ++ p).length - p.length) = pre.length from by
      rw [List.length_append]; omega]
    rw [takeLenApp]
    rw [formatNode_child_of_raw H s (.leaf p v) (.leafT p v) rfl ops]
  | extT p c => exact absurd hfit (by simp [bottomFits])
  | branchT cs v =>
    match n, hfit with
    | .branch ch bv, hfit =>
      show saveStackPart H s (TrieNode.branch ch bv :: rest) (pre ++ []) none ops = _
      rw [saveStackPart]
      have hstep : saveStackStep (.branch ch bv) (pre ++ []) none =
          (pre ++ [], .branch ch bv) := rfl
      rw [hstep]
      simp only []
      rw [formatNode_child_of_raw H s (.branch ch bv) (.branchT cs v)
        (branch_bottom_raw H cs v ch bv hfit) ops]
      rw [List.append_nil]

theorem saveStackGo_topstep (H : Bytes → Bytes) (s : Trie) (f0 : Frame)
    (n : TrieNode) (hfit : frameFits H f0 n) (sub : PTree) (ops : List BatchOp) :
    saveStackGo H s [n] (segOf f0) (some (refOfT H sub)) ops =
      (some (.str (H (serOfT H (plugOne f0 sub)))),
       ops ++ [.put (H (serOfT H (plugOne f0 sub)))
                (some (serOfT H (plugOne f0 sub)))]) := by
  cases f0 with
  | exF p c =>
    match n, hfit with
    | .ext q c0, hfit =>
      have hq : q = p := hfit
      subst hq
      show saveStackGo H s [.ext q c0] q (some (refOfT H sub)) ops = _
      rw [saveStackGo]
      have hstep : saveStackStep (.ext q c0) q (some (refOfT H sub)) =
          (q.take (q.length - q.length), .ext q (refOfT H sub)) := rfl
      rw [hstep]
      simp only [List.isEmpty_nil]
      rw [formatNode_top_of_raw H s (.ext q (refOfT H sub)) (plugOne (.exF q c) sub)
        rfl ops]
      rfl
  | brF cs v i =>
    match n, hfit with
    | .branch ch bv, hfit =>
      show saveStackGo H s [.branch ch bv] [i] (some (refOfT H sub)) ops = _
      rw [saveStackGo]
      have hstep : saveStackStep (.branch ch bv) [i] (some (refOfT H sub)) =
          ([], .branch (ch.set i (some (refOfT H sub))) bv) := rfl
      rw [hstep]
      simp only [List.isEmpty_nil]
      rw [formatNode_top_of_raw H s _ (plugOne (.brF cs v i) sub)
        (branch_patch_raw H cs v i ch bv hfit sub) ops]
      rfl

theorem rootSet_some_ok (H : Bytes → Bytes) (s : Trie) (R : Bytes)
    (h : R.length = hashLenOf H) : rootSet H s (some R) = .ok { s with root := R } := by
  rw [rootSet]
  simp [h]

theorem persistRootOp_off (H : Bytes → Bytes) (s : Trie) (h : s.persistRoot = false) :
    persistRootOp H s = s := by
  rw [persistRootOp, if_neg (by simp [h])]

theorem fitsAllRev (H : Bytes → Bytes) :
    ∀ {fs : List Frame} {ns : List TrieNode}, FitsAll H fs ns →
    FitsAll H fs.reverse ns.reverse := by
  intro fs ns h
  induction h with
  | nil => exact FitsAll.nil
  | cons hf hrest ih =>
    simp only [List.reverse_cons]
    exact fitsAll_append H ih (FitsAll.cons hf FitsAll.nil)

/-- `_saveStack` over a spine of fitting nodes: the new root is the hash
of the rebuilt tree's root node, and the recorded ops are the spine
writes. -/
theorem saveStack_sim (H : Bytes → Bytes) (HLen : ∀ bs, (H bs).length = 32)
    (s : Trie) (hpr : s.persistRoot = false)
    (fs : List Frame) (ns : List TrieNode) (sub : PTree) (n : TrieNode)
    (ops : List BatchOp) (hfits : FitsAll H fs ns) (hbot : bottomFits H sub n) :
    saveStack H s (framesKey fs ++ bottomSeg sub) (ns ++ [n]) ops =
      .ok { s with root := H (serOfT H (plug fs sub)),
                   db := dbBatch s.db (ops ++ saveWrites H fs sub) } := by
  have hL : ∀ bs : Bytes, (H bs).length = hashLenOf H := by
    intro bs
    rw [HLen, hashLenOf, emptyTrieRoot, HLen]
  have hrev : (ns ++ [n]).reverse = n :: ns.reverse := by
    rw [List.reverse_append]
    rfl
  cases hfits with
  | nil =>
    rw [saveStack, hrev]
    simp only [List.reverse_nil]
    have hbotstep : saveStackGo H s [n] (framesKey [] ++ bottomSeg sub) none ops
        = (some (.str (H (serOfT H sub))),
           ops ++ [.put (H (serOfT H sub)) (some (serOfT H sub))]) := by
      cases sub with
      | leafT p v =>
        have hn : n = .leaf p v := hbot
        subst hn
        show saveStackGo H s [.leaf p v] ([] ++ p) none ops = _
        rw [saveStackGo]
        have hstep : saveStackStep (.leaf p v) ([] ++ p) none =
            (([] ++ p : Nibbles).take (([] ++ p : Nibbles).length - p.length),
             .leaf p v) := rfl
        rw [hstep]
        simp only [List.isEmpty_nil]
        rw [formatNode_top_of_raw H s (.leaf p v) (.leafT p v) rfl ops]
        rfl
      | extT p c => exact absurd hbot (by simp [bottomFits])
      | branchT cs v =>
        match n, hbot with
        | .branch ch bv, hbot =>
          show saveStackGo H s [.branch ch bv] ([] ++ []) none ops = _
          rw [saveStackGo]
          have hstep : saveStackStep (.branch ch bv) ([] ++ []) none =
              (([] ++ [] : Nibbles), .branch ch bv) := rfl
          rw [hstep]
          simp only [List.isEmpty_nil]
          rw [formatNode_top_of_raw H s (.branch ch bv) (.branchT cs v)
            (branch_bottom_raw H cs v ch bv hbot) ops]
          rfl
    rw [hbotstep]
    simp only [rootSet_some_ok H s (H (serOfT H sub)) (hL _), ok_bind, eok_bind]
    rw [persistRootOp, if_neg (by simp [hpr])]
    rfl
  | cons hf0 hfsr =>
    rename_i f0 n0 fsr nsr
    rw [saveStack, hrev]
    have hsplit : n :: (n0 :: nsr).reverse = (n :: nsr.reverse) ++ [n0] := by
      rw [List.reverse_cons]
      rfl
    rw [hsplit, saveStackGo_append H s _ _ _ _ _ (by simp)]
    have hkey : framesKey (f0 :: fsr) ++ bottomSeg sub
        = (segOf f0 ++ keyOfR fsr.reverse) ++ bottomSeg sub := by
      rw [keyOfR_reverse]
      rfl
    rw [hkey]
    rw [saveStackPart_bottom H s sub n hbot _ _ _]
    rw [saveSpineGo H s (fitsAllRev H hfsr) sub (segOf f0) _]
    simp only []
    rw [saveStackGo_topstep H s f0 n0 hf0 (plugR fsr.reverse sub) _]
    rw [plugR_reverse]
    have hplug : plugOne f0 (plug fsr sub) = plug (f0 :: fsr) sub := rfl
    rw [hplug]
    simp only [rootSet_some_ok H s (H (serOfT H (plug (f0 :: fsr) sub))) (hL _),
      ok_bind, eok_bind]
    rw [persistRootOp, if_neg (by simp [hpr])]
    rw [saveWrites]
    simp only [List.append_assoc]
    rfl

/-!
## The split case of the update
-/

theorem matching_take_eq (a b : Nibbles) :
    a.take (matchingNibbleLength a b) = b.take (matchingNibbleLength a b) := by
  induction a generalizing b with
  | nil => simp [matchingNibbleLength]
  | cons x xs ih =>
    match b with
    | [] => simp [matchingNibbleLength]
    | y :: ys =>
      by_cases hxy : x = y
      · subst hxy
        simp [matchingNibbleLength, ih ys]
      · simp [matchingNibbleLength, hxy]

theorem splitT_plug (old : PTree) (oldKey k : Nibbles) (v : Bytes) :
    plug (splitData old oldKey k v).1 (splitData old oldKey k v).2
      = splitT old oldKey k v := by
  rw [splitData, splitT]
  by_cases hm : matchingNibbleLength oldKey k ≠ 0
  · rw [if_pos hm, if_pos hm]
    match hk : k.drop (matchingNibbleLength oldKey k) with
    | kh :: kt =>
      simp only [plug, List.foldr_append, List.foldr_cons, List.foldr_nil]
      rw [if_neg (by simp)]
      try rfl
    | [] =>
      simp only [plug, List.foldr_append, List.foldr_cons, List.foldr_nil]
      rw [if_pos (by simp : ([] : Nibbles).isEmpty = true)]
      try rfl
  · rw [if_neg hm, if_neg hm]
    match hk : k.drop (matchingNibbleLength oldKey k) with
    | kh :: kt =>
      simp only [plug, List.foldr_append, List.foldr_cons, List.foldr_nil]
      rw [if_neg (by simp)]
      try rfl
    | [] =>
      simp only [plug, List.foldr_append, List.foldr_cons, List.foldr_nil]
      rw [if_pos (by simp : ([] : Nibbles).isEmpty = true)]
      try rfl

theorem emptyKids_fresh_raw (H : Bytes → Bytes) (ob : Nat) (subT : PTree) :
    (emptyChildren.set ob (some (refOfT H subT))).map (fun c => c.getD (.str []))
      = (renderKids H (emptyKidsT.set ob (some subT))).map (fun c => c.getD (.str [])) := by
  rw [renderKids_set, mapSet, mapSet]
  rfl

theorem emptyKids_plain_raw (H : Bytes → Bytes) :
    emptyChildren.map (fun c => c.getD (.str []))
      = (renderKids H emptyKidsT).map (fun c => c.getD (.str [])) := rfl

theorem formatNode_remove (H : Bytes → Bytes) (s : Trie) (n : TrieNode)
    (hdel : s.deleteFromDB = false) :
    formatNode H s n false [] true =
      ((if 32 ≤ (nodeSerialize n).length then .str (H (nodeSerialize n))
        else nodeRaw n), []) := by
  rw [formatNode]
  by_cases h : 32 ≤ (nodeSerialize n).length
  · rw [if_pos (Or.inl h), if_pos h]
    simp [hdel]
  · rw [if_neg (by simp [h]), if_neg h]

theorem branch_fresh_fits (H : Bytes → Bytes) (ob : Nat) (subT : PTree)
    (bvT : Option Bytes) (i : Nat) :
    frameFits H (.brF (emptyKidsT.set ob (some subT)) bvT i)
      (.branch (emptyChildren.set ob (some (refOfT H subT))) bvT) :=
  ⟨emptyKids_fresh_raw H ob subT, rfl⟩

theorem branch_plain_fits (H : Bytes → Bytes) (bvT : Option Bytes) (i : Nat) :
    frameFits H (.brF emptyKidsT bvT i) (.branch emptyChildren bvT) :=
  ⟨emptyKids_plain_raw H, rfl⟩

theorem branch_fresh_bfits (H : Bytes → Bytes) (ob : Nat) (subT : PTree)
    (v : Bytes) :
    bottomFits H (.branchT (emptyKidsT.set ob (some subT)) (some v))
      (.branch (emptyChildren.set ob (some (refOfT H subT))) (some v)) :=
  ⟨emptyKids_fresh_raw H ob subT, rfl⟩

theorem branch_plain_bfits (H : Bytes → Bytes) (v : Bytes) :
    bottomFits H (.branchT emptyKidsT (some v)) (.branch emptyChildren (some v)) :=
  ⟨emptyKids_plain_raw H, rfl⟩

theorem usp_eq (H : Bytes → Bytes) (s : Trie) (value : Bytes) (rem0 : Nibbles)
    (lastNode : TrieNode) (lk0 : Nibbles) :
    updateNodeSplitParts H s value rem0 lastNode lk0 =
      (if matchingNibbleLength lk0 rem0 ≠ 0 then
        updateNodeSplitTail H s value (lk0.drop (matchingNibbleLength lk0 rem0))
          (rem0.drop (matchingNibbleLength lk0 rem0)) lastNode
          [TrieNode.ext (lk0.take (matchingNibbleLength lk0 rem0)) (.str value)]
      else updateNodeSplitTail H s value lk0 rem0 lastNode []) := rfl

theorem uspTail_leaf_cc (H : Bytes → Bytes) (s : Trie) (v : Bytes) (ob : Nat)
    (ot : Nibbles) (kh : Nat) (kt : Nibbles) (w : Nibbles) (lv : Bytes)
    (extS : List TrieNode) :
    updateNodeSplitTail H s v (ob :: ot) (kh :: kt) (.leaf w lv) extS =
      (extS ++ [.branch (emptyChildren.set ob (some (refOfT H (.leafT ot lv)))) none]
        ++ [.leaf kt v],
       writeFor H (.leafT ot lv)) := by
  rw [updateNodeSplitTail]
  dsimp only []
  rw [formatNode_child_of_raw H s (.leaf ot lv) (.leafT ot lv) rfl []]
  simp only [Bool.or_true, eq_self_iff_true, if_true, List.nil_append]
  simp only [List.length_cons, ne_eq, Nat.succ_ne_zero, not_false_iff, if_true]
  rfl

theorem uspTail_leaf_cn (H : Bytes → Bytes) (s : Trie) (v : Bytes) (ob : Nat)
    (ot : Nibbles) (w : Nibbles) (lv : Bytes) (extS : List TrieNode) :
    updateNodeSplitTail H s v (ob :: ot) [] (.leaf w lv) extS =
      (extS ++ [.branch (emptyChildren.set ob (some (refOfT H (.leafT ot lv)))) (some v)],
       writeFor H (.leafT ot lv)) := by
  rw [updateNodeSplitTail]
  dsimp only []
  rw [formatNode_child_of_raw H s (.leaf ot lv) (.leafT ot lv) rfl []]
  simp only [Bool.or_true, eq_self_iff_true, if_true, List.nil_append]
  simp only [List.length_nil, ne_eq, eq_self_iff_true, not_true, if_false]
  simp only [List.append_nil]

theorem uspTail_leaf_nc (H : Bytes → Bytes) (s : Trie) (v : Bytes)
    (kh : Nat) (kt : Nibbles) (w : Nibbles) (lv : Bytes) (extS : List TrieNode) :
    updateNodeSplitTail H s v [] (kh :: kt) (.leaf w lv) extS =
      (extS ++ [.branch emptyChildren (some lv)] ++ [.leaf kt v], []) := by
  rw [updateNodeSplitTail]
  dsimp only []
  simp only [List.length_cons, ne_eq, Nat.succ_ne_zero, not_false_iff, if_true]
  rfl

theorem uspTail_leaf_nn (H : Bytes → Bytes) (s : Trie) (v : Bytes)
    (w : Nibbles) (lv : Bytes) (extS : List TrieNode) :
    updateNodeSplitTail H s v [] [] (.leaf w lv) extS =
      (extS ++ [.branch emptyChildren (some v)], []) := by
  rw [updateNodeSplitTail]
  dsimp only []
  simp only [List.length_nil, ne_eq, eq_self_iff_true, not_true, if_false]
  simp only [List.append_nil]

theorem uspTail_ext_cc (H : Bytes → Bytes) (s : Trie) (v : Bytes) (ob : Nat)
    (oh : Nat) (ot2 : Nibbles) (kh : Nat) (kt : Nibbles) (w : Nibbles) (ec : RLPItem)
    (extS : List TrieNode) :
    updateNodeSplitTail H s v (ob :: oh :: ot2) (kh :: kt) (.ext w ec) extS =
      (extS ++ [.branch (emptyChildren.set ob
          (some (refFn H (.ext (oh :: ot2) ec)))) none] ++ [.leaf kt v],
       (if 32 ≤ (nodeSerialize (.ext (oh :: ot2) ec)).length then
          [BatchOp.put (H (nodeSerialize (.ext (oh :: ot2) ec)))
            (some (nodeSerialize (.ext (oh :: ot2) ec)))]
        else [])) := by
  rw [updateNodeSplitTail]
  dsimp only []
  rw [formatNode_child]
  simp only [List.isEmpty_cons, Bool.not_false, Bool.true_or, eq_self_iff_true, if_true,
    List.nil_append]
  simp only [List.length_cons, ne_eq, Nat.succ_ne_zero, not_false_iff, if_true]
  rfl

theorem uspTail_ext_cn (H : Bytes → Bytes) (s : Trie) (v : Bytes) (ob : Nat)
    (oh : Nat) (ot2 : Nibbles) (w : Nibbles) (ec : RLPItem) (extS : List TrieNode) :
    updateNodeSplitTail H s v (ob :: oh :: ot2) [] (.ext w ec) extS =
      (extS ++ [.branch (emptyChildren.set ob
          (some (refFn H (.ext (oh :: ot2) ec)))) (some v)],
       (if 32 ≤ (nodeSerialize (.ext (oh :: ot2) ec)).length then
          [BatchOp.put (H (nodeSerialize (.ext (oh :: ot2) ec)))
            (some (nodeSerialize (.ext (oh :: ot2) ec)))]
        else [])) := by
  rw [updateNodeSplitTail]
  dsimp only []
  rw [formatNode_child]
  simp only [List.isEmpty_cons, Bool.not_false, Bool.true_or, eq_self_iff_true, if_true,
    List.nil_append]
  simp only [List.length_nil, ne_eq, eq_self_iff_true, not_true, if_false]
  simp only [List.append_nil]

theorem uspTail_ext1_c (H : Bytes → Bytes) (s : Trie) (hdel : s.deleteFromDB = false)
    (v : Bytes) (ob : Nat) (kh : Nat) (kt : Nibbles) (w : Nibbles) (ec : RLPItem)
    (extS : List TrieNode) :
    updateNodeSplitTail H s v [ob] (kh :: kt) (.ext w ec) extS =
      (extS ++ [.branch (emptyChildren.set ob (some ec)) none] ++ [.leaf kt v], []) := by
  rw [updateNodeSplitTail]
  dsimp only []
  rw [formatNode_remove H s _ hdel]
  simp only [List.isEmpty_nil, Bool.not_true, Bool.false_or, Bool.false_eq_true, if_false]
  simp only [List.length_cons, ne_eq, Nat.succ_ne_zero, not_false_iff, if_true]
  rfl

theorem uspTail_ext1_n (H : Bytes → Bytes) (s : Trie) (hdel : s.deleteFromDB = false)
    (v : Bytes) (ob : Nat) (w : Nibbles) (ec : RLPItem) (extS : List TrieNode) :
    updateNodeSplitTail H s v [ob] [] (.ext w ec) extS =
      (extS ++ [.branch (emptyChildren.set ob (some ec)) (some v)], []) := by
  rw [updateNodeSplitTail]
  dsimp only []
  rw [formatNode_remove H s _ hdel]
  simp only [List.isEmpty_nil, Bool.not_true, Bool.false_or, Bool.false_eq_true, if_false]
  simp only [List.length_nil, ne_eq, eq_self_iff_true, not_true, if_false]
  simp only [List.append_nil]

/-!
## Assembling the split case
-/

theorem framesKey_append (fs gs : List Frame) :
    framesKey (fs ++ gs) = framesKey fs ++ framesKey gs := by
  simp [framesKey]

theorem plug_append (fs gs : List Frame) (sub : PTree) :
    plug (fs ++ gs) sub = plug fs (plug gs sub) := by
  simp [plug, List.foldr_append]

theorem splitData_key (old : PTree) (oldKey k : Nibbles) (v : Bytes) :
    framesKey (splitData old oldKey k v).1
      ++ bottomSeg (splitData old oldKey k v).2 = k := by
  rcases hk : List.drop (matchingNibbleLength oldKey k) k with _ | ⟨kh, kt⟩ <;>
    by_cases hm : matchingNibbleLength oldKey k = 0
  · simp only [splitData, hk, hm, ne_eq, not_true, if_false, List.nil_append]
    have : k = [] := by
      have := hk
      rw [hm, List.drop_zero] at this
      exact this
    simp [framesKey, bottomSeg, this]
  · simp only [splitData, hk, ne_eq, hm, not_false_iff, if_true]
    have hlen : k.length ≤ matchingNibbleLength oldKey k :=
      List.drop_eq_nil_iff_le.mp hk
    have htake : oldKey.take (matchingNibbleLength oldKey k) = k := by
      rw [matching_take_eq oldKey k]
      exact List.take_of_length_le hlen
    simp [framesKey, segOf, bottomSeg, htake]
  · simp only [splitData, hk, hm, ne_eq, not_true, if_false, List.nil_append]
    have hke : k = kh :: kt := by
      have := hk
      rw [hm, List.drop_zero] at this
      exact this
    simp [framesKey, segOf, bottomSeg, hke]
  · simp only [splitData, hk, ne_eq, hm, not_false_iff, if_true]
    have htake := matching_take_eq oldKey k
    simp only [framesKey, List.map_append, List.map_cons, List.map_nil,
      List.flatten_append, List.flatten_cons, List.flatten_nil, segOf, bottomSeg,
      List.append_nil]
    rw [htake, List.append_assoc]
    show k.take (matchingNibbleLength oldKey k) ++ ([kh] ++ kt) = k
    rw [show [kh] ++ kt = kh :: kt from rfl, ← hk]
    exact List.take_append_drop _ k

theorem usp_fits_leaf (H : Bytes → Bytes) (s : Trie) (v : Bytes)
    (oldKey rem : Nibbles) (lv : Bytes) :
    ∃ ns2 n2,
      updateNodeSplitParts H s v rem (.leaf oldKey lv) oldKey
          = (ns2 ++ [n2], splitWr H (.leafT oldKey lv) oldKey rem) ∧
      FitsAll H (splitData (.leafT oldKey lv) oldKey rem v).1 ns2 ∧
      bottomFits H (splitData (.leafT oldKey lv) oldKey rem v).2 n2 := by
  rcases ho : List.drop (matchingNibbleLength oldKey rem) oldKey with _ | ⟨ob, ot⟩ <;>
    rcases hk : List.drop (matchingNibbleLength oldKey rem) rem with _ | ⟨kh, kt⟩ <;>
    by_cases hm : matchingNibbleLength oldKey rem = 0
  -- oTail = [], kTail = [], m = 0
  · have ho2 : oldKey = [] := by have h := ho; rw [hm, List.drop_zero] at h; exact h
    have hk2 : rem = [] := by have h := hk; rw [hm, List.drop_zero] at h; exact h
    refine ⟨[], .branch emptyChildren (some v), ?_, ?_, ?_⟩
    · rw [usp_eq, if_neg (by simp [hm])]
      simp only [splitWr, ho]
      rw [ho2, hk2, uspTail_leaf_nn]
      try simp
    · simp only [splitData, ho, hk]
      rw [if_neg (show ¬ matchingNibbleLength oldKey rem ≠ 0 by simp [hm])]
      exact FitsAll.nil
    · simp only [splitData, ho, hk]
      exact branch_plain_bfits H v
  -- oTail = [], kTail = [], m ≠ 0
  · refine ⟨[TrieNode.ext (oldKey.take (matchingNibbleLength oldKey rem)) (.str v)],
      .branch emptyChildren (some v), ?_, ?_, ?_⟩
    · rw [usp_eq, if_pos hm]
      simp only [splitWr, ho]
      rw [hk, uspTail_leaf_nn]
      try simp
    · simp only [splitData, ho, hk]
      rw [if_pos (show matchingNibbleLength oldKey rem ≠ 0 from hm)]
      exact FitsAll.cons rfl FitsAll.nil
    · simp only [splitData, ho, hk]
      exact branch_plain_bfits H v
  -- oTail = [], kTail = kh :: kt, m = 0
  · have ho2 : oldKey = [] := by have h := ho; rw [hm, List.drop_zero] at h; exact h
    have hk2 : rem = kh :: kt := by have h := hk; rw [hm, List.drop_zero] at h; exact h
    refine ⟨[.branch emptyChildren (some lv)], .leaf kt v, ?_, ?_, ?_⟩
    · rw [usp_eq, if_neg (by simp [hm])]
      simp only [splitWr, ho]
      rw [ho2, hk2, uspTail_leaf_nc]
      try simp
    · simp only [splitData, ho, hk]
      rw [if_neg (show ¬ matchingNibbleLength oldKey rem ≠ 0 by simp [hm])]
      exact FitsAll.cons (branch_plain_fits H (some lv) kh) FitsAll.nil
    · simp only [splitData, ho, hk]
      rfl
  -- oTail = [], kTail = kh :: kt, m ≠ 0
  · refine ⟨[TrieNode.ext (oldKey.take (matchingNibbleLength oldKey rem)) (.str v),
      .branch emptyChildren (some lv)], .leaf kt v, ?_, ?_, ?_⟩
    · rw [usp_eq, if_pos hm]
      simp only [splitWr, ho]
      rw [hk, uspTail_leaf_nc]
      try simp
    · simp only [splitData, ho, hk]
      rw [if_pos (show matchingNibbleLength oldKey rem ≠ 0 from hm)]
      exact FitsAll.cons rfl (FitsAll.cons (branch_plain_fits H (some lv) kh) FitsAll.nil)
    · simp only [splitData, ho, hk]
      rfl
  -- oTail = ob :: ot, kTail = [], m = 0
  · have ho2 : oldKey = ob :: ot := by have h := ho; rw [hm, List.drop_zero] at h; exact h
    have hk2 : rem = [] := by have h := hk; rw [hm, List.drop_zero] at h; exact h
    refine ⟨[], .branch (emptyChildren.set ob (some (refOfT H (.leafT ot lv)))) (some v),
      ?_, ?_, ?_⟩
    · rw [usp_eq, if_neg (by simp [hm])]
      simp only [splitWr, ho]
      rw [ho2, hk2, uspTail_leaf_cn]
      try simp
    · simp only [splitData, ho, hk]
      rw [if_neg (show ¬ matchingNibbleLength oldKey rem ≠ 0 by simp [hm])]
      exact FitsAll.nil
    · simp only [splitData, ho, hk]
      exact branch_fresh_bfits H ob (.leafT ot lv) v
  -- oTail = ob :: ot, kTail = [], m ≠ 0
  · refine ⟨[TrieNode.ext (oldKey.take (matchingNibbleLength oldKey rem)) (.str v)],
      .branch (emptyChildren.set ob (some (refOfT H (.leafT ot lv)))) (some v),
      ?_, ?_, ?_⟩
    · rw [usp_eq, if_pos hm]
      simp only [splitWr, ho]
      rw [hk, uspTail_leaf_cn]
      try simp
    · simp only [splitData, ho, hk]
      rw [if_pos (show matchingNibbleLength oldKey rem ≠ 0 from hm)]
      exact FitsAll.cons rfl FitsAll.nil
    · simp only [splitData, ho, hk]
      exact branch_fresh_bfits H ob (.leafT ot lv) v
  -- oTail = ob :: ot, kTail = kh :: kt, m = 0
  · have ho2 : oldKey = ob :: ot := by have h := ho; rw [hm, List.drop_zero] at h; exact h
    have hk2 : rem = kh :: kt := by have h := hk; rw [hm, List.drop_zero] at h; exact h
    refine ⟨[.branch (emptyChildren.set ob (some (refOfT H (.leafT ot lv)))) none],
      .leaf kt v, ?_, ?_, ?_⟩
    · rw [usp_eq, if_neg (by simp [hm])]
      simp only [splitWr, ho]
      rw [ho2, hk2, uspTail_leaf_cc]
      try simp
    · simp only [splitData, ho, hk]
      rw [if_neg (show ¬ matchingNibbleLength oldKey rem ≠ 0 by simp [hm])]
      exact FitsAll.cons (branch_fresh_fits H ob (.leafT ot lv) none kh) FitsAll.nil
    · simp only [splitData, ho, hk]
      rfl
  -- oTail = ob :: ot, kTail = kh :: kt, m ≠ 0
  · refine ⟨[TrieNode.ext (oldKey.take (matchingNibbleLength oldKey rem)) (.str v),
      .branch (emptyChildren.set ob (some (refOfT H (.leafT ot lv)))) none],
      .leaf kt v, ?_, ?_, ?_⟩
    · rw [usp_eq, if_pos hm]
      simp only [splitWr, ho]
      rw [hk, uspTail_leaf_cc]
      try simp
    · simp only [splitData, ho, hk]
      rw [if_pos (show matchingNibbleLength oldKey rem ≠ 0 from hm)]
      exact FitsAll.cons rfl
        (FitsAll.cons (branch_fresh_fits H ob (.leafT ot lv) none kh) FitsAll.nil)
    · simp only [splitData, ho, hk]
      rfl

theorem usp_fits_ext (H : Bytes → Bytes) (s : Trie) (hdel : s.deleteFromDB = false)
    (v : Bytes) (oldKey rem : Nibbles) (c : PTree)
    (hot : List.drop (matchingNibbleLength oldKey rem) oldKey ≠ []) :
    ∃ ns2 n2,
      updateNodeSplitParts H s v rem (.ext oldKey (refOfT H c)) oldKey
          = (ns2 ++ [n2], splitWr H (.extT oldKey c) oldKey rem) ∧
      FitsAll H (splitData (.extT oldKey c) oldKey rem v).1 ns2 ∧
      bottomFits H (splitData (.extT oldKey c) oldKey rem v).2 n2 := by
  rcases ho : List.drop (matchingNibbleLength oldKey rem) oldKey
      with _ | ⟨ob, _ | ⟨oh, ot2⟩⟩ <;>
    rcases hk : List.drop (matchingNibbleLength oldKey rem) rem with _ | ⟨kh, kt⟩ <;>
    by_cases hm : matchingNibbleLength oldKey rem = 0
  · exact absurd ho hot
  · exact absurd ho hot
  · exact absurd ho hot
  · exact absurd ho hot
  -- oTail = [ob], kTail = [], m = 0
  · have ho2 : oldKey = [ob] := by have h := ho; rw [hm, List.drop_zero] at h; exact h
    have hk2 : rem = [] := by have h := hk; rw [hm, List.drop_zero] at h; exact h
    refine ⟨[], .branch (emptyChildren.set ob (some (refOfT H c))) (some v), ?_, ?_, ?_⟩
    · rw [usp_eq, if_neg (show ¬ matchingNibbleLength oldKey rem ≠ 0 by simp [hm])]
      simp only [splitWr, ho]
      rw [ho2, hk2, uspTail_ext1_n H s hdel]
      try simp
    · simp only [splitData, ho, hk, List.isEmpty_nil, if_true]
      rw [if_neg (show ¬ matchingNibbleLength oldKey rem ≠ 0 by simp [hm])]
      exact FitsAll.nil
    · simp only [splitData, ho, hk, List.isEmpty_nil, if_true]
      exact branch_fresh_bfits H ob c v
  -- oTail = [ob], kTail = [], m ≠ 0
  · refine ⟨[TrieNode.ext (oldKey.take (matchingNibbleLength oldKey rem)) (.str v)],
      .branch (emptyChildren.set ob (some (refOfT H c))) (some v), ?_, ?_, ?_⟩
    · rw [usp_eq, if_pos (show matchingNibbleLength oldKey rem ≠ 0 from hm)]
      simp only [splitWr, ho]
      rw [hk, uspTail_ext1_n H s hdel]
      try simp
    · simp only [splitData, ho, hk, List.isEmpty_nil, if_true]
      rw [if_pos (show matchingNibbleLength oldKey rem ≠ 0 from hm)]
      exact FitsAll.cons rfl FitsAll.nil
    · simp only [splitData, ho, hk, List.isEmpty_nil, if_true]
      exact branch_fresh_bfits H ob c v
  -- oTail = [ob], kTail = kh :: kt, m = 0
  · have ho2 : oldKey = [ob] := by have h := ho; rw [hm, List.drop_zero] at h; exact h
    have hk2 : rem = kh :: kt := by have h := hk; rw [hm, List.drop_zero] at h; exact h
    refine ⟨[.branch (emptyChildren.set ob (some (refOfT H c))) none], .leaf kt v,
      ?_, ?_, ?_⟩
    · rw [usp_eq, if_neg (show ¬ matchingNibbleLength oldKey rem ≠ 0 by simp [hm])]
      simp only [splitWr, ho]
      rw [ho2, hk2, uspTail_ext1_c H s hdel]
      try simp
    · simp only [splitData, ho, hk, List.isEmpty_nil, if_true]
      rw [if_neg (show ¬ matchingNibbleLength oldKey rem ≠ 0 by simp [hm])]
      exact FitsAll.cons (branch_fresh_fits H ob c none kh) FitsAll.nil
    · simp only [splitData, ho, hk, List.isEmpty_nil, if_true]
      rfl
  -- oTail = [ob], kTail = kh :: kt, m ≠ 0
  · refine ⟨[TrieNode.ext (oldKey.take (matchingNibbleLength oldKey rem)) (.str v),
      .branch (emptyChildren.set ob (some (refOfT H c))) none], .leaf kt v, ?_, ?_, ?_⟩
    · rw [usp_eq, if_pos (show matchingNibbleLength oldKey rem ≠ 0 from hm)]
      simp only [splitWr, ho]
      rw [hk, uspTail_ext1_c H s hdel]
      try simp
    · simp only [splitData, ho, hk, List.isEmpty_nil, if_true]
      rw [if_pos (show matchingNibbleLength oldKey rem ≠ 0 from hm)]
      exact FitsAll.cons rfl (FitsAll.cons (branch_fresh_fits H ob c none kh) FitsAll.nil)
    · simp only [splitData, ho, hk, List.isEmpty_nil, if_true]
      rfl
  -- oTail = ob :: oh :: ot2, kTail = [], m = 0
  · have ho2 : oldKey = ob :: oh :: ot2 := by
      have h := ho; rw [hm, List.drop_zero] at h; exact h
    have hk2 : rem = [] := by have h := hk; rw [hm, List.drop_zero] at h; exact h
    refine ⟨[], .branch (emptyChildren.set ob
      (some (refOfT H (.extT (oh :: ot2) c)))) (some v), ?_, ?_, ?_⟩
    · rw [usp_eq, if_neg (show ¬ matchingNibbleLength oldKey rem ≠ 0 by simp [hm])]
      simp only [splitWr, ho, List.isEmpty_cons, Bool.false_eq_true, if_false]
      rw [ho2, hk2, uspTail_ext_cn]
      try simp
      exact ⟨rfl, rfl⟩
    · simp only [splitData, ho, hk, List.isEmpty_cons, Bool.false_eq_true, if_false]
      rw [if_neg (show ¬ matchingNibbleLength oldKey rem ≠ 0 by simp [hm])]
      exact FitsAll.nil
    · simp only [splitData, ho, hk, List.isEmpty_cons, Bool.false_eq_true, if_false]
      exact branch_fresh_bfits H ob (.extT (oh :: ot2) c) v
  -- oTail = ob :: oh :: ot2, kTail = [], m ≠ 0
  · refine ⟨[TrieNode.ext (oldKey.take (matchingNibbleLength oldKey rem)) (.str v)],
      .branch (emptyChildren.set ob
        (some (refOfT H (.extT (oh :: ot2) c)))) (some v), ?_, ?_, ?_⟩
    · rw [usp_eq, if_pos (show matchingNibbleLength oldKey rem ≠ 0 from hm)]
      simp only [splitWr, ho, List.isEmpty_cons, Bool.false_eq_true, if_false]
      rw [hk, uspTail_ext_cn]
      try simp
      exact ⟨rfl, rfl⟩
    · simp only [splitData, ho, hk, List.isEmpty_cons, Bool.false_eq_true, if_false]
      rw [if_pos (show matchingNibbleLength oldKey rem ≠ 0 from hm)]
      exact FitsAll.cons rfl FitsAll.nil
    · simp only [splitData, ho, hk, List.isEmpty_cons, Bool.false_eq_true, if_false]
      exact branch_fresh_bfits H ob (.extT (oh :: ot2) c) v
  -- oTail = ob :: oh :: ot2, kTail = kh :: kt, m = 0
  · have ho2 : oldKey = ob :: oh :: ot2 := by
      have h := ho; rw [hm, List.drop_zero] at h; exact h
    have hk2 : rem = kh :: kt := by have h := hk; rw [hm, List.drop_zero] at h; exact h
    refine ⟨[.branch (emptyChildren.set ob
      (some (refOfT H (.extT (oh :: ot2) c)))) none], .leaf kt v, ?_, ?_, ?_⟩
    · rw [usp_eq, if_neg (show ¬ matchingNibbleLength oldKey rem ≠ 0 by simp [hm])]
      simp only [splitWr, ho, List.isEmpty_cons, Bool.false_eq_true, if_false]
      rw [ho2, hk2, uspTail_ext_cc]
      try simp
      exact ⟨rfl, rfl⟩
    · simp only [splitData, ho, hk, List.isEmpty_cons, Bool.false_eq_true, if_false]
      rw [if_neg (show ¬ matchingNibbleLength oldKey rem ≠ 0 by simp [hm])]
      exact FitsAll.cons (branch_fresh_fits H ob (.extT (oh :: ot2) c) none kh) FitsAll.nil
    · simp only [splitData, ho, hk, List.isEmpty_cons, Bool.false_eq_true, if_false]
      rfl
  -- oTail = ob :: oh :: ot2, kTail = kh :: kt, m ≠ 0
  · refine ⟨[TrieNode.ext (oldKey.take (matchingNibbleLength oldKey rem)) (.str v),
      .branch (emptyChildren.set ob
        (some (refOfT H (.extT (oh :: ot2) c)))) none], .leaf kt v, ?_, ?_, ?_⟩
    · rw [usp_eq, if_pos (show matchingNibbleLength oldKey rem ≠ 0 from hm)]
      simp only [splitWr, ho, List.isEmpty_cons, Bool.false_eq_true, if_false]
      rw [hk, uspTail_ext_cc]
      try simp
      exact ⟨rfl, rfl⟩
    · simp only [splitData, ho, hk, List.isEmpty_cons, Bool.false_eq_true, if_false]
      rw [if_pos (show matchingNibbleLength oldKey rem ≠ 0 from hm)]
      exact FitsAll.cons rfl
        (FitsAll.cons (branch_fresh_fits H ob (.extT (oh :: ot2) c) none kh) FitsAll.nil)
    · simp only [splitData, ho, hk, List.isEmpty_cons, Bool.false_eq_true, if_false]
      rfl

theorem updateNodeSplit_sim (H : Bytes → Bytes) (HLen : ∀ bs, (H bs).length = 32)
    (s : Trie) (hpr : s.persistRoot = false)
    (fs : List Frame) (ns : List TrieNode) (hfits : FitsAll H fs ns)
    (old : PTree) (oldKey rem : Nibbles) (lastNode : TrieNode) (v : Bytes)
    (ns2 : List TrieNode) (n2 : TrieNode)
    (hparts : updateNodeSplitParts H s v rem lastNode oldKey
        = (ns2 ++ [n2], splitWr H old oldKey rem))
    (hf2 : FitsAll H (splitData old oldKey rem v).1 ns2)
    (hb2 : bottomFits H (splitData old oldKey rem v).2 n2) :
    updateNodeSplit H s (framesKey fs ++ rem) v rem ns lastNode oldKey
      = .ok { s with
          root := H (serOfT H (plug fs (splitT old oldKey rem v))),
          db := dbBatch s.db (splitWr H old oldKey rem
            ++ saveWrites H (fs ++ (splitData old oldKey rem v).1)
                 (splitData old oldKey rem v).2) } := by
  rw [updateNodeSplit, hparts]
  have hkey : framesKey fs ++ rem
      = framesKey (fs ++ (splitData old oldKey rem v).1)
          ++ bottomSeg (splitData old oldKey rem v).2 := by
    rw [framesKey_append, List.append_assoc, splitData_key]
  rw [hkey]
  have hstack : ns ++ (ns2 ++ [n2]) = (ns ++ ns2) ++ [n2] :=
    (List.append_assoc ns ns2 [n2]).symm
  rw [hstack]
  rw [saveStack_sim H HLen s hpr (fs ++ (splitData old oldKey rem v).1) (ns ++ ns2)
    (splitData old oldKey rem v).2 n2 (splitWr H old oldKey rem)
    (fitsAll_append H hfits hf2) hb2]
  rw [plug_append, splitT_plug]

/-!
## The update dispatch
-/

theorem matching_comm (a b : Nibbles) :
    matchingNibbleLength a b = matchingNibbleLength b a := by
  induction a generalizing b with
  | nil => cases b <;> rfl
  | cons x xs ih =>
    cases b with
    | nil => rfl
    | cons y ys =>
      by_cases h : x = y
      · subst h
        simp [matchingNibbleLength, ih]
      · simp [matchingNibbleLength, h, Ne.symm h]

/-- The shape facts of a finished walk: a terminal extension is an
unmatched one, a terminal branch is found exactly on an empty remainder,
and a terminal leaf is found exactly on a full key match. -/
theorem walk_shape (N : Nat) : ∀ t : PTree, tsize t ≤ N → ∀ k,
    (∀ p c, (walk t k).last = .extT p c →
      (walk t k).found = false ∧
        ¬ matchingNibbleLength (walk t k).rem p = p.length) ∧
    (∀ cs v0, (walk t k).last = .branchT cs v0 →
      ((walk t k).found = true → (walk t k).rem = []) ∧
      ((walk t k).found = false → (walk t k).rem ≠ [])) ∧
    (∀ p v0, (walk t k).last = .leafT p v0 →
      (walk t k).found = doKeysMatch (walk t k).rem p) := by
  induction N with
  | zero =>
    intro t ht
    have := tsize_pos t
    omega
  | succ N ih =>
    intro t ht k
    cases t with
    | leafT p v =>
      rw [walk_leaf]
      refine ⟨?_, ?_, ?_⟩
      · intro p' c' heq
        exact absurd heq (by simp)
      · intro cs' v0 heq
        exact absurd heq (by simp)
      · intro p' v0 heq
        have h2 : PTree.leafT p v = PTree.leafT p' v0 := heq
        injection h2 with h3 h4
        subst h3
        rfl
    | extT p ec =>
      by_cases hm : matchingNibbleLength k p = p.length
      · rw [walk_ext_pos p ec k hm]
        exact ih ec (by simp only [tsize] at ht; omega) (k.drop p.length)
      · rw [walk_ext_neg p ec k hm]
        refine ⟨?_, ?_, ?_⟩
        · intro p' c' heq
          have h2 : PTree.extT p ec = PTree.extT p' c' := heq
          injection h2 with h3 h4
          subst h3
          exact ⟨rfl, hm⟩
        · intro cs' v0 heq
          exact absurd heq (by simp)
        · intro p' v0 heq
          exact absurd heq (by simp)
    | branchT cs v =>
      match k with
      | [] =>
        rw [walk_branch_nil]
        refine ⟨?_, ?_, ?_⟩
        · intro p' c' heq
          exact absurd heq (by simp)
        · intro cs' v0 heq
          exact ⟨fun _ => rfl, fun h => by cases h⟩
        · intro p' v0 heq
          exact absurd heq (by simp)
      | i :: rest =>
        match hch : cs.getD i none with
        | none =>
          rw [walk_branch_none cs v i rest hch]
          refine ⟨?_, ?_, ?_⟩
          · intro p' c' heq
            exact absurd heq (by simp)
          · intro cs' v0 heq
            refine ⟨fun h => ?_, fun _ => by simp⟩
            cases h
          · intro p' v0 heq
            exact absurd heq (by simp)
        | some child =>
          rw [walk_branch_some cs v i rest child hch]
          have hszc : tsize child ≤ N := by
            have := tsizeL_getD cs i child hch
            simp only [tsize] at ht
            omega
          exact ih child hszc rest

/-- The zipper data of a put, from the walk components: the frames above
the rewritten bottom node and that bottom node, as `_updateNode` pushes
them. -/
def zipOf (fs : List Frame) (last : PTree) (rem : Nibbles) (v : Bytes) :
    List Frame × PTree :=
  match last, rem with
  | .leafT p v0, rem =>
    if doKeysMatch rem p then (fs, .leafT p v)
    else (fs ++ (splitData (.leafT p v0) p rem v).1,
          (splitData (.leafT p v0) p rem v).2)
  | .extT p c, rem =>
    (fs ++ (splitData (.extT p c) p rem v).1, (splitData (.extT p c) p rem v).2)
  | .branchT cs _, [] => (fs, .branchT cs (some v))
  | .branchT cs v0, i :: rest => (fs ++ [.brF cs v0 i], .leafT rest v)

/-- The store ops `_updateNode` records while building the split, before
the save of the stack, from the walk components. -/
def preOf (H : Bytes → Bytes) (last : PTree) (rem : Nibbles) : List BatchOp :=
  match last, rem with
  | .leafT p v0, rem => if doKeysMatch rem p then [] else splitWr H (.leafT p v0) p rem
  | .extT p c, rem => splitWr H (.extT p c) p rem
  | .branchT _ _, _ => []

/-- The zipper data of a put on a tree. -/
def putZip (t : PTree) (nk : Nibbles) (v : Bytes) : List Frame × PTree :=
  zipOf (walk t nk).frames (walk t nk).last (walk t nk).rem v

/-- The pre-save store ops of a put on a tree. -/
def putPre (H : Bytes → Bytes) (t : PTree) (nk : Nibbles) : List BatchOp :=
  preOf H (walk t nk).last (walk t nk).rem

/-- All store ops of a put on a non-empty trie. -/
def putWr (H : Bytes → Bytes) (t : PTree) (nk : Nibbles) (v : Bytes) : List BatchOp :=
  putPre H t nk ++ saveWrites H (putZip t nk v).1 (putZip t nk v).2

theorem zipOf_plug (fs : List Frame) (last : PTree) (rem : Nibbles) (v : Bytes) :
    plug (zipOf fs last rem v).1 (zipOf fs last rem v).2
      = plug fs (localPut last rem v) := by
  rcases last with ⟨p, v0⟩ | ⟨p, c⟩ | ⟨cs, v0⟩
  · by_cases hd : doKeysMatch rem p = true
    · simp only [zipOf, hd, if_true, localPut]
    · rw [Bool.not_eq_true] at hd
      simp only [zipOf, hd, Bool.false_eq_true, if_false, localPut]
      rw [plug_append, splitT_plug]
  · simp only [zipOf, localPut]
    rw [plug_append, splitT_plug]
  · rcases rem with _ | ⟨i, rest⟩
    · simp only [zipOf, localPut]
    · simp only [zipOf, localPut]
      rw [plug_append]
      rfl

theorem putZip_plug (t : PTree) (nk : Nibbles) (v : Bytes) :
    plug (putZip t nk v).1 (putZip t nk v).2 = putT t nk v := by
  rw [putT, putZip, zipOf_plug]

theorem consumedLen_aux (ns : List TrieNode) : ∀ a : Nat,
    List.foldl (fun acc n => acc + nodeKeyLen n) a ns = a + consumedLen ns := by
  induction ns with
  | nil => intro a; simp [consumedLen]
  | cons n rest ih =>
    intro a
    show List.foldl _ (a + nodeKeyLen n) rest = _
    rw [ih]
    have h0 : consumedLen (n :: rest) = (0 + nodeKeyLen n) + consumedLen rest := by
      show List.foldl _ (0 + nodeKeyLen n) rest = _
      rw [ih]
    rw [h0]
    omega

theorem stack_consumed (H : Bytes → Bytes) (fs : List Frame) :
    consumedLen (fs.map (frameNode H)) = (framesKey fs).length := by
  induction fs with
  | nil => rfl
  | cons f rest ih =>
    show List.foldl _ (0 + nodeKeyLen (frameNode H f)) (rest.map (frameNode H)) = _
    rw [consumedLen_aux, ih]
    cases f with
    | brF cs v0 i =>
      simp [framesKey, segOf, nodeKeyLen, frameNode, renderNode]
      omega
    | exF p c =>
      simp [framesKey, segOf, nodeKeyLen, frameNode, renderNode]

/-- `_updateNode` on the stack a walk produced: the engine dispatches to
the save of the zipper `zipOf` rebuilt with the inserted value, recording
`preOf` then the spine writes. -/
theorem updateNode_core (H : Bytes → Bytes) (HLen : ∀ bs, (H bs).length = 32)
    (s : Trie) (hpr : s.persistRoot = false) (hdel : s.deleteFromDB = false)
    (fs : List Frame) (last : PTree) (rem : Nibbles) (found : Bool)
    (k : Bytes) (v : Bytes)
    (hwk : framesKey fs ++ rem = bufferToNibbles k)
    (hext : ∀ p c, last = .extT p c →
      found = false ∧ ¬ matchingNibbleLength rem p = p.length)
    (hbr : ∀ cs v0, last = .branchT cs v0 →
      (found = true → rem = []) ∧ (found = false → rem ≠ []))
    (hleaf : ∀ p v0, last = .leafT p v0 → found = doKeysMatch rem p) :
    updateNode H s k v (if found then [] else rem)
        (fs.map (frameNode H) ++ [renderNode H last])
      = .ok { s with
          root := H (serOfT H (plug (zipOf fs last rem v).1 (zipOf fs last rem v).2)),
          db := dbBatch s.db (preOf H last rem
            ++ saveWrites H (zipOf fs last rem v).1 (zipOf fs last rem v).2) } := by
  have hlen : (bufferToNibbles k).drop (framesKey fs).length = rem := by
    rw [← hwk]
    exact dropLenApp _ _
  rw [updateNode]
  rw [List.getLast?_concat]
  dsimp only []
  rw [List.dropLast_concat]
  cases last with
  | leafT p v0 =>
    have hfd := hleaf p v0 rfl
    simp only [renderNode]
    rw [stack_consumed H fs, hlen]
    by_cases hd : doKeysMatch rem p = true
    · have hrp : rem = p := (doKeysMatch_iff rem p).mp hd
      subst hrp
      have hfoundT : found = true := by rw [hfd, hd]
      rw [hfoundT, if_pos rfl]
      rw [matching_self]
      simp only [beq_self_eq_true, List.length_nil, Bool.and_self, eq_self_iff_true,
        if_true]
      rw [← hwk]
      have hsv := saveStack_sim H HLen s hpr fs (fs.map (frameNode H)) (.leafT rem v)
        (.leaf rem v) [] (fitsAll_frameNode H fs) rfl
      simp only [bottomSeg] at hsv
      rw [hsv]
      simp only [zipOf, preOf, hd, if_true, List.nil_append]
    · rw [Bool.not_eq_true] at hd
      have hfoundF : found = false := by rw [hfd, hd]
      rw [hfoundF]
      simp only [Bool.false_eq_true, if_false]
      have hcondF : ((matchingNibbleLength p rem == p.length)
          && (rem.length == 0)) = false := by
        by_contra hcc
        rw [Bool.not_eq_false, Bool.and_eq_true, beq_iff_eq, beq_iff_eq] at hcc
        obtain ⟨h1, h2⟩ := hcc
        have hre : rem = [] := List.length_eq_zero.mp h2
        subst hre
        have hp0 : matchingNibbleLength p ([] : Nibbles) = 0 := by cases p <;> rfl
        rw [hp0] at h1
        have hpe : p = [] := List.length_eq_zero.mp h1.symm
        subst hpe
        simp [doKeysMatch, matchingNibbleLength] at hd
      rw [hcondF]
      simp only [Bool.false_eq_true, if_false]
      obtain ⟨ns2, n2, hparts, hf2, hb2⟩ := usp_fits_leaf H s v p rem v0
      rw [← hwk]
      rw [updateNodeSplit_sim H HLen s hpr fs (fs.map (frameNode H))
        (fitsAll_frameNode H fs) (.leafT p v0) p rem (.leaf p v0) v ns2 n2
        hparts hf2 hb2]
      simp only [zipOf, preOf, hd, Bool.false_eq_true, if_false]
      rw [plug_append, splitT_plug]
  | extT p c =>
    obtain ⟨hfoundF, hm⟩ := hext p c rfl
    rw [hfoundF]
    simp only [Bool.false_eq_true, if_false]
    simp only [renderNode]
    have hot : List.drop (matchingNibbleLength p rem) p ≠ [] := by
      intro hnil
      have hle : p.length ≤ matchingNibbleLength p rem :=
        List.drop_eq_nil_iff_le.mp hnil
      have hle2 : matchingNibbleLength p rem ≤ p.length := matching_le_left p rem
      have heq2 : matchingNibbleLength p rem = p.length := le_antisymm hle2 hle
      rw [matching_comm] at heq2
      exact hm heq2
    obtain ⟨ns2, n2, hparts, hf2, hb2⟩ := usp_fits_ext H s hdel v p rem c hot
    rw [show refFn H (renderNode H c) = refOfT H c from rfl]
    rw [← hwk]
    rw [updateNodeSplit_sim H HLen s hpr fs (fs.map (frameNode H))
      (fitsAll_frameNode H fs) (.extT p c) p rem (.ext p (refOfT H c)) v ns2 n2
      hparts hf2 hb2]
    simp only [zipOf, preOf]
    rw [plug_append, splitT_plug]
  | branchT cs v0 =>
    have hbb := hbr cs v0 rfl
    simp only [renderNode]
    by_cases hf : found = true
    · have hre : rem = [] := hbb.1 hf
      subst hre
      rw [hf, if_pos rfl]
      rw [if_neg (by simp)]
      rw [List.append_nil] at hwk
      rw [← hwk]
      have hsv := saveStack_sim H HLen s hpr fs (fs.map (frameNode H))
        (.branchT cs (some v)) (.branch (renderKids H cs) (some v)) []
        (fitsAll_frameNode H fs) ⟨rfl, rfl⟩
      simp only [bottomSeg, List.append_nil] at hsv
      rw [hsv]
      simp only [zipOf, preOf, List.nil_append]
    · rw [Bool.not_eq_true] at hf
      rw [hf]
      simp only [Bool.false_eq_true, if_false]
      have hrne := hbb.2 hf
      rcases hrm : rem with _ | ⟨i, rest⟩
      · exact absurd hrm hrne
      · subst hrm
        rw [if_pos (by simp)]
        have hstk : fs.map (frameNode H)
            ++ [TrieNode.branch (renderKids H cs) (some (v0.getD [])),
                TrieNode.leaf (List.drop 1 (i :: rest)) v]
            = (fs.map (frameNode H)
                ++ [TrieNode.branch (renderKids H cs) (some (v0.getD []))])
              ++ [TrieNode.leaf rest v] := by
          simp
        rw [hstk]
        have hkey2 : framesKey (fs ++ [Frame.brF cs v0 i]) ++ rest
            = bufferToNibbles k := by
          rw [framesKey_append, List.append_assoc]
          rw [show framesKey [Frame.brF cs v0 i] ++ rest = i :: rest by
            simp [framesKey, segOf]]
          exact hwk
        rw [← hkey2]
        have hsv := saveStack_sim H HLen s hpr (fs ++ [Frame.brF cs v0 i])
          (fs.map (frameNode H)
            ++ [TrieNode.branch (renderKids H cs) (some (v0.getD []))])
          (.leafT rest v) (.leaf rest v) []
          (fitsAll_append H (fitsAll_frameNode H fs)
            (FitsAll.cons ⟨rfl, rfl⟩ FitsAll.nil)) rfl
        simp only [bottomSeg] at hsv
        rw [hsv]
        simp only [zipOf, preOf, List.nil_append]

/-- `_updateNode` after a walk of the represented tree performs the pure
put: the new root is the hash of the rebuilt tree, the store receives the
split write and the spine writes. -/
theorem updateNode_sim (H : Bytes → Bytes) (HLen : ∀ bs, (H bs).length = 32)
    (s : Trie) (hpr : s.persistRoot = false) (hdel : s.deleteFromDB = false)
    (t : PTree) (k : Bytes) (v : Bytes) :
    updateNode H s k v
        (if (walk t (bufferToNibbles k)).found then []
         else (walk t (bufferToNibbles k)).rem)
        ((walk t (bufferToNibbles k)).frames.map (frameNode H)
          ++ [renderNode H (walk t (bufferToNibbles k)).last])
      = .ok { s with
          root := H (serOfT H (putT t (bufferToNibbles k) v)),
          db := dbBatch s.db (putWr H t (bufferToNibbles k) v) } := by
  have hsh := walk_shape (tsize t) t le_rfl (bufferToNibbles k)
  have hcore := updateNode_core H HLen s hpr hdel (walk t (bufferToNibbles k)).frames
    (walk t (bufferToNibbles k)).last (walk t (bufferToNibbles k)).rem
    (walk t (bufferToNibbles k)).found k v
    (walk_key (tsize t) t le_rfl (bufferToNibbles k)) hsh.1 hsh.2.1 hsh.2.2
  rw [hcore]
  rw [show (zipOf (walk t (bufferToNibbles k)).frames (walk t (bufferToNibbles k)).last
      (walk t (bufferToNibbles k)).rem v) = putZip t (bufferToNibbles k) v from rfl]
  rw [putZip_plug]
  rfl

/-- C3 (code bug, evaluated at the failing input): build the trie holding
0x05 ↦ "verb", 0x50 ↦ "puppy" and "" ↦ "coin"; the path of the empty key
ends exactly at the root branch, which carries the value "coin" and two
children.  Deleting "" should only clear the branch value (the branch
keeps two meaningful entries), but `_deleteNode` resets the root to the
empty-trie root — its "the root here has to be a leaf" assumption is
wrong — so every other key is lost as well. -/
theorem c3_root_branch_delete_wipes :
    putSeq testHash t0 [([5], vverb), ([80], vpuppy), ([], vcoin)] 100 = .ok c3a3 ∧
    get testHash c3a3 [] false 100 = .ok (some vcoin, c3a3) ∧
    get testHash c3a3 [5] false 100 = .ok (some vverb, c3a3) ∧
    get testHash c3a3 [80] false 100 = .ok (some vpuppy, c3a3) ∧
    del testHash c3a3 [] 100 = .ok c3a4 ∧
    c3a4.root = emptyTrieRoot testHash ∧
    get testHash c3a4 [5] false 100 = .ok (none, c3a4) ∧
    get testHash c3a4 [80] false 100 = .ok (none, c3a4) :=
  ⟨chainC3, by rfl, by rfl, by rfl, stepC3a4, by rfl, by rfl, by rfl⟩

/-- C4 (counterexample): on a trie with root persistence, `del` of
`ROOT_DB_KEY` does not raise the reserved-key error — it runs a normal
delete, and its final `persistRoot` writes to the store (the claim says
neither call writes). -/
theorem c4_counterexample :
    del testHash tpersist rootDbKey 100 = .ok (persistRootOp testHash tpersist) ∧
    persistRootOp testHash tpersist ≠ tpersist :=
  ⟨by rfl, by decide⟩

/-- C4 (amended): only `put` guards the reserved key: with root
persistence enabled, `put(ROOT_DB_KEY, v)` raises the reserved-key error
before any mutation, for every value; `del` never raises it. -/
theorem c4_amended_only_put_checks_reserved (H : Bytes → Bytes) (s : Trie)
    (v : Option Bytes) (k : Bytes) (fuel : Nat) (hp : s.persistRoot = true) :
    put H s rootDbKey v fuel = .error .reservedKey ∧
    del H s k fuel ≠ .error .reservedKey := by
  constructor
  · unfold put
    rw [if_pos ⟨hp, rfl⟩]
  · exact del_ne_reserved H s k fuel

/-- Witness for `c4_amended_only_put_checks_reserved`. -/
theorem c4_amended_witness :
    put testHash tpersist rootDbKey (some [1]) 5 = .error .reservedKey ∧
    del testHash tpersist rootDbKey 5 ≠ .error .reservedKey :=
  c4_amended_only_put_checks_reserved testHash tpersist (some [1]) rootDbKey 5 rfl

/-- C5 (counterexample): with the 4-byte hash (`hashLen = 4`), the stored
root node of `c5a2` embeds an inline child whose serialization is 28
bytes — at least `hashLen` — because `_formatNode` compares against the
literal constant 32, not the configured hash length. -/
theorem c5_counterexample :
    putSeq testHash4 t4 [([97], [98, 99, 100]), ([98], [120, 121, 122])] 100 = .ok c5a2 ∧
    hashLenOf testHash4 = 4 ∧
    (dbGet c5a2.db c5a2.root).isSome = true ∧
    ((inlineChildLengths c5rootNode).any fun l => decide (hashLenOf testHash4 ≤ l)) = true :=
  ⟨chainC5, by rfl, by rfl, by rfl⟩

/-- C5 (amended): the persist/inline decision of `_formatNode` is the
fixed constant 32 (which coincides with `hashLen` only for 32-byte hash
functions): a node is recorded for the store exactly when its
serialization has at least 32 bytes or it is top-level, and is returned
as an inline raw node exactly when its serialization is under 32 bytes
and it is not top-level. -/
theorem c5_amended_threshold_is_32 (H : Bytes → Bytes) (s : Trie)
    (n : TrieNode) (top : Bool) (ops : List BatchOp) :
    ((nodeSerialize n).length < 32 → top = false →
      formatNode H s n top ops false = (nodeRaw n, ops)) ∧
    (32 ≤ (nodeSerialize n).length ∨ top = true →
      formatNode H s n top ops false =
        (.str (H (nodeSerialize n)),
         ops ++ [.put (H (nodeSerialize n)) (some (nodeSerialize n))])) := by
  constructor
  · intro h1 h2
    subst h2
    unfold formatNode
    rw [if_neg]
    simp [Nat.not_le, h1]
  · intro h
    unfold formatNode
    rw [if_pos h]
    simp

/-- Witness for `c5_amended_threshold_is_32`: a 6-byte leaf is inlined
when not top-level and hashed when top-level. -/
theorem c5_amended_witness :
    formatNode testHash4 t4 (.leaf [] [1, 2, 3]) false [] false =
      (nodeRaw (.leaf [] [1, 2, 3]), []) ∧
    formatNode testHash4 t4 (.leaf [] [1, 2, 3]) true [] false =
      (.str (testHash4 (nodeSerialize (.leaf [] [1, 2, 3]))),
       [.put (testHash4 (nodeSerialize (.leaf [] [1, 2, 3])))
          (some (nodeSerialize (.leaf [] [1, 2, 3])))]) :=
  ⟨(c5_amended_threshold_is_32 testHash4 t4 (.leaf [] [1, 2, 3]) false []).1
      (by decide) rfl,
   (c5_amended_threshold_is_32 testHash4 t4 (.leaf [] [1, 2, 3]) true []).2
      (Or.inr rfl)⟩

/-- C8 (counterexample): a batch whose put op carries the empty byte
string does not raise InvalidBatchOp — a `Buffer` is never JS-falsy — it
is applied as a delete: on the one-leaf trie `stD1` it deletes "do" and
empties the trie. -/
theorem c8_counterexample :
    batch testHash stD1 [.put kdo (some [])] 100 = .ok c8a1 ∧
    c8a1.root = emptyTrieRoot testHash :=
  ⟨stepC8a1, by rfl⟩

/-- C8 (amended): `batch` raises InvalidBatchOp exactly for a put op with
an absent (JS null/undefined) value; a put op with a present value —
empty or not — and a del op are applied in order through `put` / `del`,
and an empty batch just persists the root. -/
theorem c8_batch_ops (H : Bytes → Bytes) (s : Trie) (k : Bytes) (v : Bytes)
    (rest : List BatchOp) (fuel : Nat) :
    batchGo H s (.put k none :: rest) fuel = .error .invalidBatchOp ∧
    batchGo H s (.put k (some v) :: rest) fuel =
      (put H s k (some v) fuel).bind (fun s' => batchGo H s' rest fuel) ∧
    batchGo H s (.del k :: rest) fuel =
      (del H s k fuel).bind (fun s' => batchGo H s' rest fuel) ∧
    batch H s [] fuel = .ok (persistRootOp H s) :=
  ⟨rfl, rfl, rfl, rfl⟩

/-- C9 (counterexample): assigning an empty byte value to the root setter
raises the invalid-root error (a `Buffer` is never JS-falsy, and its
length 0 differs from the hash length); only an absent value resets the
root to the empty-trie root. -/
theorem c9_counterexample :
    rootSet testHash t0 (some []) = .error .invalidRootLength ∧
    rootSet testHash t0 none = .ok { t0 with root := emptyTrieRoot testHash } :=
  ⟨by rfl, by rfl⟩

/-- C9 (amended): the root setter resets to the empty-trie root exactly
for an absent (JS-falsy) value; every present value — including the
empty byte string — must have exactly `hashLen` bytes, else the
invalid-root error is raised and no assignment happens. -/
theorem c9_root_setter (H : Bytes → Bytes) (s : Trie) (b : Bytes) :
    rootSet H s none = .ok { s with root := emptyTrieRoot H } ∧
    (b.length ≠ hashLenOf H → rootSet H s (some b) = .error .invalidRootLength) ∧
    (b.length = hashLenOf H → rootSet H s (some b) = .ok { s with root := b }) := by
  refine ⟨?_, fun h => ?_, fun h => ?_⟩
  · unfold rootSet
    rw [if_neg (by simp [hashLenOf])]
  · unfold rootSet
    rw [if_pos h]
  · unfold rootSet
    rw [if_neg (by simp [h])]

/-- Witness for `c9_root_setter`. -/
theorem c9_root_setter_witness :
    rootSet testHash t0 (some [1, 2, 3]) = .error .invalidRootLength ∧
    rootSet testHash t0 none = .ok { t0 with root := emptyTrieRoot testHash } :=
  ⟨(c9_root_setter testHash t0 [1, 2, 3]).2.1 (by decide),
   (c9_root_setter testHash t0 [1, 2, 3]).1⟩

/-- C10: the read operations `get`, `findPath`, `checkRoot` and
`createProof` return the input trie state unchanged whenever they
succeed: they never modify the root field and never write to the backing
store (in this embedding every store write would appear in the returned
state's `db`). -/
theorem c10_readers_preserve_state (H : Bytes → Bytes) (s : Trie)
    (k r : Bytes) (t : Bool) (fuel : Nat) :
    (get H s k t fuel).map Prod.snd = (get H s k t fuel).map (fun _ => s) ∧
    (findPath s k t fuel).map Prod.snd = (findPath s k t fuel).map (fun _ => s) ∧
    (checkRoot s r).map Prod.snd = (checkRoot s r).map (fun _ => s) ∧
    (createProof H s k fuel).map Prod.snd =
      (createProof H s k fuel).map (fun _ => s) := by
  refine ⟨?_, ?_, ?_, ?_⟩
  · unfold get
    cases hf : findPathAux s (appliedKey H s k) t fuel <;> rfl
  · unfold findPath
    cases hf : findPathAux s k t fuel <;> rfl
  · unfold checkRoot
    cases hl : lookupNode s (.str r) with
    | ok n => rfl
    | error e => cases e <;> rfl
  · unfold createProof
    cases hf : findPathAux s (appliedKey H s k) false fuel <;> rfl

end MPT
